import Mathlib

/-!
# Verification of the ai-gateway intent/guardrail engine

A shallow embedding of the deterministic NLP helpers of the ai-gateway
repository (`src/nlp.js`, `src/catalogTool.js`) together with proofs about
them.  Text is modelled as `List Char`; the JavaScript regular expressions
used by the source are embedded as pattern-specific matchers that mirror
the semantics of the source regexes (leftmost match, ordered alternation
with backtracking, greedy quantifiers).  JavaScript numbers arising from
parsed decimal literals are modelled as rationals.
-/

namespace AiGateway

attribute [local semireducible] Rat.add Rat.sub Rat.mul Rat.inv

/-- ASCII digit test, mirroring the regex class `\d`. -/
def isDigitCh (c : Char) : Bool :=
  '0' ≤ c && c ≤ '9'

/-- JavaScript regex whitespace class `\s` (WhiteSpace ∪ LineTerminator). -/
def isSpaceCh (c : Char) : Bool :=
  let n := c.toNat
  n == 32 || n == 9 || n == 10 || n == 11 || n == 12 || n == 13 || n == 160 ||
  n == 0x1680 || (0x2000 ≤ n && n ≤ 0x200A) || n == 0x2028 || n == 0x2029 ||
  n == 0x202F || n == 0x205F || n == 0x3000 || n == 0xFEFF

/-- JavaScript regex word-character class `\w` = `[A-Za-z0-9_]`, used by `\b`. -/
def isWordCh (c : Char) : Bool :=
  ('a' ≤ c && c ≤ 'z') || ('A' ≤ c && c ≤ 'Z') || isDigitCh c || c == '_'

/-- Wordness of an optional previous character (`none` = start of string). -/
def isWordOpt : Option Char → Bool
  | none => false
  | some c => isWordCh c

/-- Case-insensitive literal matcher: matches `pat` (given in lower case)
against a prefix of the input, returning the consumed original characters
and the rest.  Mirrors a literal inside a `/.../i` regex. -/
def matchLitCI : List Char → List Char → Option (List Char × List Char)
  | [], s => some ([], s)
  | _ :: _, [] => none
  | p :: ps, c :: cs =>
    if c.toLower == p then
      match matchLitCI ps cs with
      | some (m, r) => some (c :: m, r)
      | none => none
    else none

/-- Two case-insensitive words separated by `\s+` (e.g. `priced\s+at`). -/
def matchWordsCI (w1 w2 : List Char) (s : List Char) :
    Option (List Char × List Char) :=
  match matchLitCI w1 s with
  | none => none
  | some (m1, r1) =>
    let (ws, r2) := r1.span isSpaceCh
    if ws.isEmpty then none
    else
      match matchLitCI w2 r2 with
      | none => none
      | some (m2, r3) => some (m1 ++ ws ++ m2, r3)

/-- Numeric value of a digit list (most significant first). -/
def natVal (ds : List Char) : ℕ :=
  ds.foldl (fun acc c => 10 * acc + (c.toNat - '0'.toNat)) 0

/-- Matcher for the capture `(\d+(?:\.\d+)?)`: greedy digits with an optional
decimal fraction.  Returns the numeric value, the consumed characters and the
rest of the input. -/
def numAt (s : List Char) : Option (ℚ × List Char × List Char) :=
  let (ds, r1) := s.span isDigitCh
  if ds.isEmpty then none
  else
    match r1 with
    | '.' :: r2 =>
      let (fs, r3) := r2.span isDigitCh
      if fs.isEmpty then some ((natVal ds : ℚ), ds, r1)
      else some ((natVal ds : ℚ) + (natVal fs : ℚ) / (10 : ℚ) ^ fs.length,
                 ds ++ '.' :: fs, r3)
    | _ => some ((natVal ds : ℚ), ds, r1)

/-- Matcher for the glue `\s*\$?\s*` that precedes every numeric capture in
the price regexes.  Total; returns consumed characters and the rest. -/
def matchGap (s : List Char) : List Char × List Char :=
  let (w1, r1) := s.span isSpaceCh
  match r1 with
  | '$' :: r2 =>
    let (w2, r3) := r2.span isSpaceCh
    (w1 ++ '$' :: w2, r3)
  | _ => (w1, r1)

/-- Leftmost-match scan: try the at-position matcher `f` at every suffix,
left to right, mirroring how `String.prototype.match` locates a match. -/
def scanP {α : Type} (f : List Char → Option α) : List Char → Option α
  | [] => f []
  | c :: t =>
    match f (c :: t) with
    | some v => some v
    | none => scanP f t

/-- At-position matcher for
`/between\s*\$?\s*(\d+(?:\.\d+)?)\s*(?:and|to)\s*\$?\s*(\d+(?:\.\d+)?)/i`. -/
def tryRangeBetween (s : List Char) : Option (ℚ × ℚ) :=
  match matchLitCI "between".data s with
  | none => none
  | some (_, r1) =>
    let (_, r2) := matchGap r1
    match numAt r2 with
    | none => none
    | some (a, _, r3) =>
      let (_, r4) := r3.span isSpaceCh
      let conn : Option (List Char) :=
        match matchLitCI "and".data r4 with
        | some (_, r5) => some r5
        | none =>
          match matchLitCI "to".data r4 with
          | some (_, r5) => some r5
          | none => none
      match conn with
      | none => none
      | some r5 =>
        let (_, r6) := matchGap r5
        match numAt r6 with
        | none => none
        | some (b, _, _) => some (a, b)

/-- At-position matcher for `/\$?\s*(\d+(?:\.\d+)?)\s*-\s*\$?\s*(\d+(?:\.\d+)?)/`. -/
def tryRangeDash (s : List Char) : Option (ℚ × ℚ) :=
  let r1 := match s with
    | '$' :: r => r
    | _ => s
  let (_, r2) := r1.span isSpaceCh
  match numAt r2 with
  | none => none
  | some (a, _, r3) =>
    let (_, r4) := r3.span isSpaceCh
    match r4 with
    | '-' :: r5 =>
      let (_, r6) := matchGap r5
      match numAt r6 with
      | none => none
      | some (b, _, _) => some (a, b)
    | _ => none

/-- At-position matcher for `/(?:costs?|priced\s+at|exactly|for)\s*\$?\s*(\d+(?:\.\d+)?)/i`.
The alternatives are tried in source order; `costs?` greedily prefers the
trailing `s` and backtracks, exactly as the regex engine does. -/
def tryExact (s : List Char) : Option ℚ :=
  let cont : List Char → Option ℚ := fun r =>
    let (_, r2) := matchGap r
    match numAt r2 with
    | none => none
    | some (x, _, _) => some x
  let alt : Option (List Char) :=
    match matchLitCI "costs".data s with
    | some (_, r) => if (cont r).isSome then some r else
        match matchLitCI "cost".data s with
        | some (_, r') => some r'
        | none => none
    | none =>
      match matchLitCI "cost".data s with
      | some (_, r) => some r
      | none =>
        match matchWordsCI "priced".data "at".data s with
        | some (_, r) => some r
        | none =>
          match matchLitCI "exactly".data s with
          | some (_, r) => some r
          | none =>
            match matchLitCI "for".data s with
            | some (_, r) => some r
            | none => none
  match alt with
  | none => none
  | some r => cont r

/-- Which alternative of the "above" regex matched. -/
inductive AboveAlt : Type
  | moreThan
  | over
  | gt
  | ge
  | atLeast
deriving DecidableEq

/-- Which alternative of the "under" regex matched. -/
inductive UnderAlt : Type
  | under
  | below
  | lt
  | le
  | lessThan
deriving DecidableEq

/-- Shared continuation `\s*\$?\s*(\d+(?:\.\d+)?)` of the above/under
regexes; given the characters consumed by the alternative, produces the
whole match `m[0]` together with the captured number. -/
def boundCont (altChars : List Char) (r : List Char) :
    Option (List Char × ℚ) :=
  let (g, r2) := matchGap r
  match numAt r2 with
  | none => none
  | some (x, nc, _) => some (altChars ++ g ++ nc, x)

/-- At-position matcher for `/(?:more\s+than|over|>|>=|at\s+least)\s*\$?\s*(\d+(?:\.\d+)?)/i`.
Alternatives in source order; note that `>` is tried before `>=`, and the
engine backtracks into `>=` when the continuation after `>` fails. -/
def tryAbove (s : List Char) : Option (AboveAlt × List Char × ℚ) :=
  match matchWordsCI "more".data "than".data s with
  | some (m, r) =>
    match boundCont m r with
    | some (m0, x) => some (.moreThan, m0, x)
    | none => tryAboveRest s
  | none => tryAboveRest s
where
  /-- the alternatives after `more\s+than` -/
  tryAboveRest (s : List Char) : Option (AboveAlt × List Char × ℚ) :=
    match matchLitCI "over".data s with
    | some (m, r) =>
      match boundCont m r with
      | some (m0, x) => some (.over, m0, x)
      | none => tryAboveOps s
    | none => tryAboveOps s
  /-- the operator and `at least` alternatives -/
  tryAboveOps (s : List Char) : Option (AboveAlt × List Char × ℚ) :=
    match s with
    | '>' :: r =>
      match boundCont ['>'] r with
      | some (m0, x) => some (.gt, m0, x)
      | none =>
        match r with
        | '=' :: r' =>
          match boundCont ['>', '='] r' with
          | some (m0, x) => some (.ge, m0, x)
          | none => tryAtLeast s
        | _ => tryAtLeast s
    | _ => tryAtLeast s
  /-- the `at\s+least` alternative -/
  tryAtLeast (s : List Char) : Option (AboveAlt × List Char × ℚ) :=
    match matchWordsCI "at".data "least".data s with
    | some (m, r) =>
      match boundCont m r with
      | some (m0, x) => some (.atLeast, m0, x)
      | none => none
    | none => none

/-- At-position matcher for `/(?:under|below|<|<=|less\s+than)\s*\$?\s*(\d+(?:\.\d+)?)/i`. -/
def tryUnder (s : List Char) : Option (UnderAlt × List Char × ℚ) :=
  match matchLitCI "under".data s with
  | some (m, r) =>
    match boundCont m r with
    | some (m0, x) => some (.under, m0, x)
    | none => tryUnderRest s
  | none => tryUnderRest s
where
  /-- the alternatives after `under` -/
  tryUnderRest (s : List Char) : Option (UnderAlt × List Char × ℚ) :=
    match matchLitCI "below".data s with
    | some (m, r) =>
      match boundCont m r with
      | some (m0, x) => some (.below, m0, x)
      | none => tryUnderOps s
    | none => tryUnderOps s
  /-- the operator and `less than` alternatives -/
  tryUnderOps (s : List Char) : Option (UnderAlt × List Char × ℚ) :=
    match s with
    | '<' :: r =>
      match boundCont ['<'] r with
      | some (m0, x) => some (.lt, m0, x)
      | none =>
        match r with
        | '=' :: r' =>
          match boundCont ['<', '='] r' with
          | some (m0, x) => some (.le, m0, x)
          | none => tryLessThan s
        | _ => tryLessThan s
    | _ => tryLessThan s
  /-- the `less\s+than` alternative -/
  tryLessThan (s : List Char) : Option (UnderAlt × List Char × ℚ) :=
    match matchWordsCI "less".data "than".data s with
    | some (m, r) =>
      match boundCont m r with
      | some (m0, x) => some (.lessThan, m0, x)
      | none => none
    | none => none

/-- At-position matcher for `/(?:almost|around|about|near|close\s+to)\s*\$?\s*(\d+(?:\.\d+)?)/i`. -/
def tryClosest (s : List Char) : Option ℚ :=
  let cont : List Char → Option ℚ := fun r =>
    let (_, r2) := matchGap r
    match numAt r2 with
    | none => none
    | some (x, _, _) => some x
  match matchLitCI "almost".data s with
  | some (_, r) => cont r
  | none =>
    match matchLitCI "around".data s with
    | some (_, r) => cont r
    | none =>
      match matchLitCI "about".data s with
      | some (_, r) => cont r
      | none =>
        match matchLitCI "near".data s with
        | some (_, r) => cont r
        | none =>
          match matchWordsCI "close".data "to".data s with
          | some (_, r) => cont r
          | none => none

/-- The test `/(?:>=|at\s+least)/i.test(m0)` used for the inclusivity flag of
the "above" mode. -/
def hasGeOrAtLeast : List Char → Bool
  | [] => false
  | c :: r =>
    (c == '>' && r.head? == some '=') ||
    (matchWordsCI "at".data "least".data (c :: r)).isSome ||
    hasGeOrAtLeast r

/-- The test `/<=/i.test(m0)` used for the inclusivity flag of the "under"
mode. -/
def hasLe : List Char → Bool
  | [] => false
  | c :: r => (c == '<' && r.head? == some '=') || hasLe r

/-- The object returned by `parsePriceIntent` in `src/nlp.js`: a price mode
string together with the optional numeric/boolean fields the source sets for
that mode (`none` = field absent from the returned object). -/
structure PriceIntentR where
  price_mode : String
  min_price : Option ℚ := none
  max_price : Option ℚ := none
  exact_price : Option ℚ := none
  target_price : Option ℚ := none
  min_inclusive : Option Bool := none
  max_inclusive : Option Bool := none
deriving DecidableEq

/-- `parsePriceIntent` from `src/nlp.js`: the deterministic price intent
parser.  The five patterns are tried in source order (range, exact, above,
under, closest); each is matched leftmost over the text. -/
def parsePriceIntent (text : String) : PriceIntentR :=
  match scanP tryRangeBetween text.data with
  | some (a, b) =>
    { price_mode := "range", min_price := some (min a b), max_price := some (max a b) }
  | none =>
  match scanP tryRangeDash text.data with
  | some (a, b) =>
    { price_mode := "range", min_price := some (min a b), max_price := some (max a b) }
  | none =>
  match scanP tryExact text.data with
  | some x => { price_mode := "exact", exact_price := some x }
  | none =>
  match scanP tryAbove text.data with
  | some (_, m0, x) =>
    { price_mode := "above", min_price := some x,
      min_inclusive := some (hasGeOrAtLeast m0) }
  | none =>
  match scanP tryUnder text.data with
  | some (_, m0, x) =>
    { price_mode := "under", max_price := some x,
      max_inclusive := some (hasLe m0) }
  | none =>
  match scanP tryClosest text.data with
  | some x => { price_mode := "closest", target_price := some x }
  | none => { price_mode := "none" }

/-- Head-of-list wordness, used for a `\b` whose right context is the rest of
the input (`false` at end of string). -/
def wordHead : List Char → Bool
  | [] => false
  | c :: _ => isWordCh c

/-- The tool-argument object of `src/nlp.js` / `src/catalogTool.js`: the
fields `applyPriceGuardrails` reads or writes, each `Option` because a
JavaScript object may lack the key (`none` = absent). -/
structure ToolArgs where
  query : Option String := none
  limit : Option ℚ := none
  price_mode : Option String := none
  min_price : Option ℚ := none
  max_price : Option ℚ := none
  exact_price : Option ℚ := none
  target_price : Option ℚ := none
  min_inclusive : Option Bool := none
  max_inclusive : Option Bool := none
deriving DecidableEq

/-- JavaScript object-spread semantics for one field of `{ ...args, ...parsed }`:
a key present on `parsed` overwrites, an absent key keeps the value of `args`. -/
def spreadField {α : Type} (p a : Option α) : Option α :=
  match p with
  | some v => some v
  | none => a

/-- `applyPriceGuardrails` from `src/nlp.js`: if the user text has no price
intent, force `price_mode = "none"` and delete every price field from the
proposed arguments; otherwise merge the parsed intent over the proposal via
object spread. -/
def applyPriceGuardrails (lastUser : String) (args : ToolArgs) : ToolArgs :=
  let parsed := parsePriceIntent lastUser
  if parsed.price_mode = "none" then
    { args with
      price_mode := some "none"
      min_price := none
      max_price := none
      exact_price := none
      target_price := none
      min_inclusive := none
      max_inclusive := none }
  else
    { query := args.query
      limit := args.limit
      price_mode := some parsed.price_mode
      min_price := spreadField parsed.min_price args.min_price
      max_price := spreadField parsed.max_price args.max_price
      exact_price := spreadField parsed.exact_price args.exact_price
      target_price := spreadField parsed.target_price args.target_price
      min_inclusive := spreadField parsed.min_inclusive args.min_inclusive
      max_inclusive := spreadField parsed.max_inclusive args.max_inclusive }

/-! ## The keyword reducer `deriveQuery` -/

/-- The global replace `.replace(/[$<>]=?/g, " ")`: each `$`, `<` or `>`,
together with an immediately following `=`, becomes a single space. -/
def replDollarOp : List Char → List Char
  | [] => []
  | c :: '=' :: r =>
    if c == '$' || c == '<' || c == '>' then ' ' :: replDollarOp r
    else c :: replDollarOp ('=' :: r)
  | c :: rest =>
    if c == '$' || c == '<' || c == '>' then ' ' :: replDollarOp rest
    else c :: replDollarOp rest

/-- Length bound for `dropWhile`, used in termination arguments. -/
theorem length_dropWhile_le (p : Char → Bool) (l : List Char) :
    (l.dropWhile p).length ≤ l.length := by
  induction l with
  | nil => simp
  | cons a t ih =>
    by_cases h : p a
    · simp only [List.dropWhile, h, List.length_cons]
      omega
    · simp [List.dropWhile, h]

/-- One attempt of `/\b\d+(?:\.\d+)?\b/` at the current position, given the
previous character `p` (`none` = start of string).  Returns the length of the
match and its last character, or `none`.  The engine greedily prefers the
fractional form and backtracks to the bare integer when the trailing `\b`
fails; shrinking `\d+` itself can never restore the boundary. -/
def numMatchAt (p : Option Char) (s : List Char) : Option (ℕ × Char) :=
  if isWordOpt p then none
  else
    let ds := s.takeWhile isDigitCh
    let r1 := s.dropWhile isDigitCh
    if ds.isEmpty then none
    else
      match r1 with
      | '.' :: r2 =>
        let fs := r2.takeWhile isDigitCh
        let r3 := r2.dropWhile isDigitCh
        if fs.isEmpty then some (ds.length, ds.getLast?.getD '0')
        else if wordHead r3 then some (ds.length, ds.getLast?.getD '0')
        else some (ds.length + 1 + fs.length, fs.getLast?.getD '0')
      | _ =>
        if wordHead r1 then none
        else some (ds.length, ds.getLast?.getD '0')

theorem numMatchAt_pos {p : Option Char} {s : List Char} {n : ℕ} {lc : Char}
    (h : numMatchAt p s = some (n, lc)) : 0 < n := by
  unfold numMatchAt at h
  split at h
  · exact absurd h (by simp)
  · simp only at h
    split at h
    · exact absurd h (by simp)
    · rename_i hne
      have hds : 0 < (s.takeWhile isDigitCh).length := by
        cases hcase : s.takeWhile isDigitCh with
        | nil => rw [hcase] at hne; simp at hne
        | cons a t => simp [hcase]
      split at h
      · split at h
        · cases h; exact hds
        · split at h
          · cases h; exact hds
          · cases h; omega
      · split at h
        · exact absurd h (by simp)
        · cases h; exact hds

/-- The global replace `.replace(/\b\d+(?:\.\d+)?\b/g, " ")`: every
boundary-delimited number becomes a single space; scanning resumes after
each match with the match's last character as left context. -/
def replNums (p : Option Char) (s : List Char) : List Char :=
  match s with
  | [] => []
  | c :: rest =>
    match h : numMatchAt p (c :: rest) with
    | some (n, lc) => ' ' :: replNums (some lc) ((c :: rest).drop n)
    | none => c :: replNums (some c) rest
termination_by s.length
decreasing_by
  · have hn := numMatchAt_pos h
    simp only [List.length_drop, List.length_cons]
    omega
  · simp

/-- The global replace `.replace(/\s+/g, " ")`: each whitespace run becomes a
single space. -/
def collapseWS : List Char → List Char
  | [] => []
  | c :: rest =>
    if isSpaceCh c then ' ' :: collapseWS (rest.dropWhile isSpaceCh)
    else c :: collapseWS rest
termination_by s => s.length
decreasing_by
  · simp only [List.length_cons]
    exact Nat.lt_succ_of_le (length_dropWhile_le _ _)
  · simp

/-- `String.prototype.trim`: strip leading and trailing whitespace. -/
def trimJS (s : List Char) : List Char :=
  ((s.dropWhile isSpaceCh).reverse.dropWhile isSpaceCh).reverse

/-- The replace `.replace(/[^a-z0-9\s-]/g, " ")`: keep lower-case letters,
digits, whitespace and hyphens, replace every other character by a space. -/
def keepCh (c : Char) : Char :=
  if ('a' ≤ c && c ≤ 'z') || isDigitCh c || isSpaceCh c || c == '-' then c else ' '

/-- `String.prototype.split(" ")`: split at every single space character. -/
def splitOnSpace (s : List Char) : List (List Char) :=
  match h : s.dropWhile (fun c => !(c == ' ')) with
  | [] => [s.takeWhile (fun c => !(c == ' '))]
  | _ :: rest => s.takeWhile (fun c => !(c == ' ')) :: splitOnSpace rest
termination_by s.length
decreasing_by
  have hle := length_dropWhile_le (fun c => !(c == ' ')) s
  rw [h] at hle
  simp only [List.length_cons] at hle
  omega

/-- `Array.prototype.join(" ")`. -/
def joinSpace : List (List Char) → List Char
  | [] => []
  | [t] => t
  | t :: ts => t ++ ' ' :: joinSpace ts

/-- The stopword set of `src/nlp.js`. -/
def STOPWORDS : List String :=
  ["recommend", "suggest", "show", "give",
   "game", "games", "genre", "genres",
   "explain", "why",
   "one", "that", "this", "these", "those", "it",
   "a", "an", "the",
   "me", "i", "you", "we", "my",
   "please",
   "cost", "costs", "priced", "price", "pricing",
   "under", "below", "less", "than", "more", "over", "at", "least",
   "between", "and", "to",
   "around", "about", "almost", "near", "close",
   "from", "any", "all", "anything", "everything"]

/-- Token filter of `deriveQuery`: keep tokens longer than one character that
are not stopwords. -/
def goodTok (t : List Char) : Bool :=
  decide (1 < t.length) && !(STOPWORDS.contains (String.mk t))

/-- `deriveQuery` from `src/nlp.js`: lowercase, strip budget symbols and
standalone numbers, strip punctuation except hyphens, collapse whitespace,
tokenize, drop one-letter tokens and stopwords, rejoin. -/
def deriveQuery (text : String) : String :=
  let q1 := text.data.map Char.toLower
  let q2 := replDollarOp q1
  let q3 := replNums none q2
  let q4 := trimJS (collapseWS q3)
  let q5 := q4.map keepCh
  let q6 := trimJS (collapseWS q5)
  let toks := ((splitOnSpace q6).map trimJS).filter goodTok
  String.mk (joinSpace toks)

/-! ## The mandatory-tool heuristic `shouldUseCatalog` -/

/-- The keyword alternatives of the `shouldUseCatalog` regex, without the
final `\$` alternative. -/
def kwAltsND : List (List Char) :=
  ["recommend".data, "suggest".data, "game".data, "games".data, "price".data,
   "cost".data, "under".data, "below".data, "less than".data,
   "more than".data, "over".data, "between".data, "around".data,
   "almost".data, "close to".data]

/-- All keyword alternatives, `\$` included (in source order the `\$` comes
last; alternation order does not change the boolean result of `test`). -/
def kwAlts : List (List Char) := kwAltsND ++ [['$']]

/-- Does some alternative match at the current position with both `\b`
boundaries satisfied?  `p` is the previous character. -/
def kwMatchAt (alts : List (List Char)) (p : Option Char) (s : List Char) : Bool :=
  alts.any fun alt =>
    match matchLitCI alt s with
    | none => false
    | some (m, r) =>
      (match m with
       | [] => false
       | c :: _ => isWordOpt p != isWordCh c) &&
      (match m.getLast? with
       | none => false
       | some lc => isWordCh lc != wordHead r)

/-- Scan all positions left to right for a boundary-delimited keyword. -/
def kwScan (alts : List (List Char)) (p : Option Char) : List Char → Bool
  | [] => kwMatchAt alts p []
  | c :: t => kwMatchAt alts p (c :: t) || kwScan alts (some c) t

/-- `shouldUseCatalog` from `src/nlp.js`: the mandatory-tool heuristic,
`/\b(recommend|suggest|game|games|price|cost|under|below|less than|more than|over|between|around|almost|close to|\$)\b/i.test(text)`. -/
def shouldUseCatalog (text : String) : Bool :=
  kwScan kwAlts none text.data

/-- The same heuristic with the `\$` alternative removed; used to state that
a message contains "no other keyword". -/
def shouldUseCatalogNoDollar (text : String) : Bool :=
  kwScan kwAltsND none text.data

/-- Every `$` in the text occurs at the start of the string or immediately
after a space character (`p` = previous character). -/
def dollarSpaced (p : Option Char) : List Char → Bool
  | [] => true
  | c :: r =>
    (if c == '$' then p == none || p == some ' ' else true) && dollarSpaced (some c) r

/-! ## The `search_games` handler

`makeCatalogTool` in `src/catalogTool.js` registers `searchGames`
(lines 51-61) as the `search_games` handler: it trims the incoming query,
issues a single catalog fetch and returns the raw items truncated with
`slice(0, limit)`, always reporting `fallback_used: false`.  The `backend`
parameter stands for `fetchCatalogResults`. -/

/-- A catalog item's raw price as delivered by the catalog service: a JSON
number or a string.  The handler never inspects it. -/
inductive PriceVal : Type
  | num (q : ℚ)
  | str (s : String)
deriving DecidableEq

/-- A raw catalog item: an opaque record with a name and a price field,
passed through unchanged by the handler. -/
structure CatalogItem where
  name : String
  price : PriceVal
deriving DecidableEq

/-- The result object literal built by `searchGames` in
`src/catalogTool.js` (lines 55-60). -/
structure SearchResult where
  query_original : String
  query_used : String
  fallback_used : Bool
  results : List CatalogItem
deriving DecidableEq

/-- JavaScript integer conversion of a finite number (`ToIntegerOrInfinity`):
truncation toward zero. -/
def jsTrunc (x : ℚ) : ℤ :=
  if x < 0 then -((-x).floor) else x.floor

/-- `Array.prototype.slice(0, end)`: take the first `end` elements, a
negative `end` counting from the end of the array. -/
def jsSlice0 {α : Type} (lim : ℚ) (l : List α) : List α :=
  let e := jsTrunc lim
  if e < 0 then l.take (l.length - min l.length (-e).toNat)
  else l.take e.toNat

/-- `searchGames` from `src/catalogTool.js` (lines 51-61): trim the query
(`(query ?? "").trim()`), fetch once, slice.  `fallback_used` is the
literal `false`, and both `query_original` and `query_used` are the trimmed
query `q`; the destructuring default makes `limit` equal to 5 when the key
is absent.  Every price-filter argument of the tool schema is ignored. -/
def searchGames (backend : String → List CatalogItem) (args : ToolArgs) :
    SearchResult :=
  let q := String.mk (trimJS (args.query.getD "").data)
  let raw := backend q
  { query_original := q
    query_used := q
    fallback_used := false
    results := jsSlice0 (args.limit.getD 5) raw }

/-! ## Claim theorems -/

/-- C9: the exact-price pattern matches the bare word `for` with no
word-boundary requirement, so ordinary text with no price phrase can yield a
non-`None` intent: `parsePriceIntent "games for 2 players"` returns mode
`"exact"` with `exact_price = 2`. -/
theorem c9_for_matches_without_boundary :
    parsePriceIntent "games for 2 players" =
      { price_mode := "exact", exact_price := some 2 } := by
  decide

/-- C1: whenever the price-intent parser returns mode none on the user text,
`applyPriceGuardrails` forces `price_mode = "none"` and removes every
min/max/exact/target price and inclusivity field, for arbitrary proposed
arguments, while leaving the non-price fields untouched. -/
theorem c1_guardrails_none_clears_price (u : String) (args : ToolArgs)
    (h : (parsePriceIntent u).price_mode = "none") :
    (applyPriceGuardrails u args).price_mode = some "none" ∧
    (applyPriceGuardrails u args).min_price = none ∧
    (applyPriceGuardrails u args).max_price = none ∧
    (applyPriceGuardrails u args).exact_price = none ∧
    (applyPriceGuardrails u args).target_price = none ∧
    (applyPriceGuardrails u args).min_inclusive = none ∧
    (applyPriceGuardrails u args).max_inclusive = none ∧
    (applyPriceGuardrails u args).query = args.query ∧
    (applyPriceGuardrails u args).limit = args.limit := by
  unfold applyPriceGuardrails
  simp [h]

/-- C1 witness: a concrete text with no price phrase and a proposal full of
hallucinated price fields. -/
theorem c1_witness :
    (parsePriceIntent "hello there").price_mode = "none" ∧
    ((applyPriceGuardrails "hello there"
        { query := some "x", limit := some 5, price_mode := some "under",
          min_price := some 3, exact_price := some 9 }).price_mode = some "none" ∧
     (applyPriceGuardrails "hello there"
        { query := some "x", limit := some 5, price_mode := some "under",
          min_price := some 3, exact_price := some 9 }).min_price = none ∧
     (applyPriceGuardrails "hello there"
        { query := some "x", limit := some 5, price_mode := some "under",
          min_price := some 3, exact_price := some 9 }).max_price = none ∧
     (applyPriceGuardrails "hello there"
        { query := some "x", limit := some 5, price_mode := some "under",
          min_price := some 3, exact_price := some 9 }).exact_price = none ∧
     (applyPriceGuardrails "hello there"
        { query := some "x", limit := some 5, price_mode := some "under",
          min_price := some 3, exact_price := some 9 }).target_price = none ∧
     (applyPriceGuardrails "hello there"
        { query := some "x", limit := some 5, price_mode := some "under",
          min_price := some 3, exact_price := some 9 }).min_inclusive = none ∧
     (applyPriceGuardrails "hello there"
        { query := some "x", limit := some 5, price_mode := some "under",
          min_price := some 3, exact_price := some 9 }).max_inclusive = none ∧
     (applyPriceGuardrails "hello there"
        { query := some "x", limit := some 5, price_mode := some "under",
          min_price := some 3, exact_price := some 9 }).query = some "x" ∧
     (applyPriceGuardrails "hello there"
        { query := some "x", limit := some 5, price_mode := some "under",
          min_price := some 3, exact_price := some 9 }).limit = some 5) :=
  ⟨by decide,
   c1_guardrails_none_clears_price "hello there"
     { query := some "x", limit := some 5, price_mode := some "under",
       min_price := some 3, exact_price := some 9 } (by decide)⟩

/-- C2 counterexample: for the user text "under 10" the parser's output has
no `exact_price` field, yet when the model proposes `exact_price = 99` the
reconciler's output still carries `exact_price = 99` — object spread only
overwrites the fields the parser set, so the output's price fields do not
equal the parser's output exactly. -/
theorem c2_counterexample :
    (parsePriceIntent "under 10").price_mode = "under" ∧
    (parsePriceIntent "under 10").exact_price = none ∧
    (applyPriceGuardrails "under 10" { exact_price := some 99 }).exact_price =
      some 99 := by
  decide

/-- C2 amended: when the parser detects a price intent, the reconciler's
output carries the parser's mode, every price field the parser set is copied
from the parser (overriding the proposal), every price field the parser did
not set retains the proposal's value, and the non-price fields (query,
limit) are preserved. -/
theorem c2_guardrails_enforce_parsed (u : String) (args : ToolArgs)
    (h : (parsePriceIntent u).price_mode ≠ "none") :
    (applyPriceGuardrails u args).price_mode =
      some (parsePriceIntent u).price_mode ∧
    (applyPriceGuardrails u args).min_price =
      spreadField (parsePriceIntent u).min_price args.min_price ∧
    (applyPriceGuardrails u args).max_price =
      spreadField (parsePriceIntent u).max_price args.max_price ∧
    (applyPriceGuardrails u args).exact_price =
      spreadField (parsePriceIntent u).exact_price args.exact_price ∧
    (applyPriceGuardrails u args).target_price =
      spreadField (parsePriceIntent u).target_price args.target_price ∧
    (applyPriceGuardrails u args).min_inclusive =
      spreadField (parsePriceIntent u).min_inclusive args.min_inclusive ∧
    (applyPriceGuardrails u args).max_inclusive =
      spreadField (parsePriceIntent u).max_inclusive args.max_inclusive ∧
    (applyPriceGuardrails u args).query = args.query ∧
    (applyPriceGuardrails u args).limit = args.limit := by
  unfold applyPriceGuardrails
  simp [h]

/-- C2 amended witness: with "under 10" the parsed max bound and exclusivity
overwrite the proposal while the unset `exact_price` survives from it. -/
theorem c2_witness :
    (parsePriceIntent "under 10").price_mode ≠ "none" ∧
    ((applyPriceGuardrails "under 10"
        { query := some "co-op", exact_price := some 99, max_price := some 50,
          max_inclusive := some true }).price_mode =
          some (parsePriceIntent "under 10").price_mode ∧
     (applyPriceGuardrails "under 10"
        { query := some "co-op", exact_price := some 99, max_price := some 50,
          max_inclusive := some true }).min_price =
          spreadField (parsePriceIntent "under 10").min_price none ∧
     (applyPriceGuardrails "under 10"
        { query := some "co-op", exact_price := some 99, max_price := some 50,
          max_inclusive := some true }).max_price =
          spreadField (parsePriceIntent "under 10").max_price (some 50) ∧
     (applyPriceGuardrails "under 10"
        { query := some "co-op", exact_price := some 99, max_price := some 50,
          max_inclusive := some true }).exact_price =
          spreadField (parsePriceIntent "under 10").exact_price (some 99) ∧
     (applyPriceGuardrails "under 10"
        { query := some "co-op", exact_price := some 99, max_price := some 50,
          max_inclusive := some true }).target_price =
          spreadField (parsePriceIntent "under 10").target_price none ∧
     (applyPriceGuardrails "under 10"
        { query := some "co-op", exact_price := some 99, max_price := some 50,
          max_inclusive := some true }).min_inclusive =
          spreadField (parsePriceIntent "under 10").min_inclusive none ∧
     (applyPriceGuardrails "under 10"
        { query := some "co-op", exact_price := some 99, max_price := some 50,
          max_inclusive := some true }).max_inclusive =
          spreadField (parsePriceIntent "under 10").max_inclusive (some true) ∧
     (applyPriceGuardrails "under 10"
        { query := some "co-op", exact_price := some 99, max_price := some 50,
          max_inclusive := some true }).query = some "co-op" ∧
     (applyPriceGuardrails "under 10"
        { query := some "co-op", exact_price := some 99, max_price := some 50,
          max_inclusive := some true }).limit = none) :=
  ⟨by decide,
   c2_guardrails_enforce_parsed "under 10"
     { query := some "co-op", exact_price := some 99, max_price := some 50,
       max_inclusive := some true } (by decide)⟩

/-- C3, divergence: the `search_games` handler never retries.  For every
backend and argument object the result reports `fallback_used = false`,
uses the trimmed query for both query fields and holds only the slice of
the single fetch; instantiated with a backend that has stock for the empty
(wildcard) query but nothing for the requested one, the handler returns no
results instead of the documented fallback retry. -/
theorem c3_no_fallback_retry :
    (∀ (backend : String → List CatalogItem) (args : ToolArgs),
      searchGames backend args =
        { query_original := String.mk (trimJS (args.query.getD "").data)
          query_used := String.mk (trimJS (args.query.getD "").data)
          fallback_used := false
          results := jsSlice0 (args.limit.getD 5)
            (backend (String.mk (trimJS (args.query.getD "").data))) }) ∧
    searchGames
        (fun q => if q = "" then [⟨"Catan", PriceVal.num 30⟩] else [])
        { query := some "zelda", limit := some 5 } =
      { query_original := "zelda"
        query_used := "zelda"
        fallback_used := false
        results := [] } := by
  refine ⟨fun backend args => rfl, ?_⟩
  decide

/-- C4, divergence: the handler parses no prices and excludes nothing: the
raw items pass through `slice(0, limit)` unchanged, so an item priced
`"contact us"` is returned even under a resolved `exact` price mode. -/
theorem c4_unparseable_price_passes_through :
    (searchGames
        (fun _ => [⟨"Mystery Box", PriceVal.str "contact us"⟩,
                   ⟨"Catan", PriceVal.num 30⟩])
        { query := some "game", limit := some 5,
          price_mode := some "exact", exact_price := some (1999 / 100) }).results =
      [⟨"Mystery Box", PriceVal.str "contact us"⟩,
       ⟨"Catan", PriceVal.num 30⟩] ∧
    (⟨"Mystery Box", PriceVal.str "contact us"⟩ : CatalogItem) ∈
      (searchGames
        (fun _ => [⟨"Mystery Box", PriceVal.str "contact us"⟩,
                   ⟨"Catan", PriceVal.num 30⟩])
        { query := some "game", limit := some 5,
          price_mode := some "exact", exact_price := some (1999 / 100) }).results := by
  constructor
  · decide
  · decide

/-- C5, divergence: the handler performs no ranking of any kind: the
results keep the backend's order.  With a resolved closest-to-12 intent the
prices come back in the raw order `[30, 10]`, although ascending distance
to 12 would put 10 (distance 2) before 30 (distance 18). -/
theorem c5_no_ranking :
    (searchGames
        (fun _ => [⟨"a", PriceVal.num 30⟩, ⟨"b", PriceVal.num 10⟩])
        { query := some "game", limit := some 5,
          price_mode := some "closest", target_price := some 12 }).results =
      [⟨"a", PriceVal.num 30⟩, ⟨"b", PriceVal.num 10⟩] ∧
    ¬ (|(30 : ℚ) - 12| ≤ |(10 : ℚ) - 12|) := by
  constructor
  · decide
  · norm_num

/-- `Char.ofNat` in the lower-case letter range keeps its code point. -/
theorem charOfNat_toNat {n : ℕ} (h1 : 97 ≤ n) (h2 : n ≤ 122) :
    (Char.ofNat n).toNat = n := by
  unfold Char.ofNat
  split
  · rfl
  · rename_i hv
    exact absurd (Or.inl (by omega)) hv

/-- Lower-casing never produces a dollar sign from another character. -/
theorem toLower_eq_dollar {c : Char} (h : (c.toLower == '$') = true) :
    c = '$' := by
  rw [beq_iff_eq] at h
  unfold Char.toLower at h
  have h' : (if c.toNat ≥ 65 ∧ c.toNat ≤ 90 then Char.ofNat (c.toNat + 32)
      else c) = '$' := h
  clear h
  split at h'
  · rename_i hr
    have h36 : (Char.ofNat (c.toNat + 32)).toNat = Char.toNat '$' := by rw [h']
    rw [charOfNat_toNat (by omega) (by omega)] at h36
    have : Char.toNat '$' = 36 := by decide
    omega
  · exact h'

/-- No alternative of a keyword list matches the empty input. -/
theorem kwMatchAt_nil (alts : List (List Char)) (p : Option Char)
    (h : ∀ a ∈ alts, a ≠ []) : kwMatchAt alts p [] = false := by
  unfold kwMatchAt
  rw [List.any_eq_false]
  intro a ha
  cases a with
  | nil => exact absurd rfl (h _ ha)
  | cons x xs => simp [matchLitCI]

/-- Splitting the full alternative list into the dollar-free part and the
`\$` alternative. -/
theorem kwMatchAt_split (p : Option Char) (s : List Char) :
    kwMatchAt kwAlts p s =
      (kwMatchAt kwAltsND p s || kwMatchAt [['$']] p s) := by
  unfold kwMatchAt kwAlts
  exact List.any_append

/-- The `\b\$\b` alternative cannot fire when the character before the `$`
is not a word character. -/
theorem dollarAlt_false {p : Option Char} {c : Char} {t : List Char}
    (h : c = '$' → isWordOpt p = false) :
    kwMatchAt [['$']] p (c :: t) = false := by
  unfold kwMatchAt
  simp only [List.any_cons, List.any_nil, Bool.or_false]
  by_cases hc : (c.toLower == '$') = true
  · have hceq := toLower_eq_dollar hc
    subst hceq
    have hp := h rfl
    simp [matchLitCI, hp, isWordCh, isDigitCh]
  · rw [Bool.not_eq_true] at hc
    simp [matchLitCI, hc]

/-- If every `$` is at the start or right after a space and the dollar-free
heuristic does not fire, the full heuristic does not fire either. -/
theorem kwScan_no_dollar (s : List Char) : ∀ (p : Option Char),
    dollarSpaced p s = true → kwScan kwAltsND p s = false →
    kwScan kwAlts p s = false := by
  induction s with
  | nil =>
    intro p _ _
    exact kwMatchAt_nil _ _ (by decide)
  | cons c t ih =>
    intro p hd hnd
    unfold dollarSpaced at hd
    rw [Bool.and_eq_true] at hd
    obtain ⟨hd1, hd2⟩ := hd
    unfold kwScan at hnd ⊢
    rw [Bool.or_eq_false_iff] at hnd ⊢
    obtain ⟨hnd1, hnd2⟩ := hnd
    refine ⟨?_, ih (some c) hd2 hnd2⟩
    rw [kwMatchAt_split, Bool.or_eq_false_iff]
    refine ⟨hnd1, dollarAlt_false ?_⟩
    intro hc
    subst hc
    simp only [beq_self_eq_true, if_true] at hd1
    rcases Bool.or_eq_true_iff.mp hd1 with h | h
    · rw [beq_iff_eq] at h
      rw [h]
      rfl
    · rw [beq_iff_eq] at h
      rw [h]
      decide

/-- C10: the `\$` alternative of the mandatory-tool heuristic carries word
boundaries, so it fires only when the dollar sign is immediately preceded by
a word character; for every message in which every `$` occurs at the start
or right after a space and no other keyword matches, `shouldUseCatalog`
returns false. -/
theorem c10_dollar_needs_word_prefix (text : String)
    (h1 : dollarSpaced none text.data = true)
    (h2 : shouldUseCatalogNoDollar text = false) :
    shouldUseCatalog text = false := by
  unfold shouldUseCatalog
  unfold shouldUseCatalogNoDollar at h2
  exact kwScan_no_dollar text.data none h1 h2

/-- C10 witness: the message "how much is $20" contains `$` only after a
space and no other keyword, and the heuristic rejects it. -/
theorem c10_witness :
    dollarSpaced none "how much is $20".data = true ∧
    shouldUseCatalogNoDollar "how much is $20" = false ∧
    shouldUseCatalog "how much is $20" = false :=
  ⟨by decide, by decide,
   c10_dollar_needs_word_prefix "how much is $20" (by decide) (by decide)⟩

/-! ### Decomposition lemmas for the matchers (toward C7) -/

/-- A successful case-insensitive literal match lower-cases to the pattern
and splits the input. -/
theorem matchLitCI_eq : ∀ (pat s m r : List Char),
    matchLitCI pat s = some (m, r) →
    m.map Char.toLower = pat ∧ s = m ++ r := by
  intro pat
  induction pat with
  | nil =>
    intro s m r h
    unfold matchLitCI at h
    cases h
    exact ⟨rfl, rfl⟩
  | cons p ps ih =>
    intro s m r h
    cases s with
    | nil => exact absurd h (by simp [matchLitCI])
    | cons c cs =>
      unfold matchLitCI at h
      split at h
      · rename_i hc
        cases hin : matchLitCI ps cs with
        | none => rw [hin] at h; exact absurd h (by simp)
        | some pr =>
          rw [hin] at h
          obtain ⟨m', r'⟩ := pr
          simp only [Option.some_inj, Prod.mk.injEq] at h
          obtain ⟨hm, hr⟩ := h
          obtain ⟨h1, h2⟩ := ih cs m' r' hin
          subst hm hr
          refine ⟨?_, by simp [h2]⟩
          simp only [List.map_cons, h1]
          rw [beq_iff_eq] at hc
          rw [hc]
      · exact absurd h (by simp)

/-- Converse: a list that lower-cases to the pattern matches, consuming
exactly itself. -/
theorem matchLitCI_of_map : ∀ (m pat r : List Char),
    m.map Char.toLower = pat → matchLitCI pat (m ++ r) = some (m, r) := by
  intro m
  induction m with
  | nil =>
    intro pat r h
    cases h
    rfl
  | cons c m' ih =>
    intro pat r h
    cases h
    simp only [List.map_cons, List.cons_append]
    unfold matchLitCI
    rw [if_pos (by simp)]
    rw [ih (m'.map Char.toLower) r rfl]

/-- `takeWhile`/`dropWhile` on a satisfying prefix followed by a failing
head (or nothing). -/
theorem takeDropWhile_append {p : Char → Bool} : ∀ (xs rest : List Char),
    (∀ c ∈ xs, p c = true) →
    (rest = [] ∨ ∃ c r', rest = c :: r' ∧ p c = false) →
    (xs ++ rest).takeWhile p = xs ∧ (xs ++ rest).dropWhile p = rest := by
  intro xs
  induction xs with
  | nil =>
    intro rest _ h2
    rcases h2 with rfl | ⟨c, r', rfl, hc⟩
    · exact ⟨rfl, rfl⟩
    · simp [List.takeWhile_cons, List.dropWhile_cons, hc]
  | cons x xs' ih =>
    intro rest h1 h2
    have hx := h1 x (by simp)
    obtain ⟨ht, hd⟩ := ih rest (fun c hc => h1 c (by simp [hc])) h2
    constructor
    · simp only [List.cons_append, List.takeWhile_cons, hx, if_true]
      rw [ht]
    · simp only [List.cons_append, List.dropWhile_cons, hx, if_true]
      rw [hd]

/-- `span` of a whitespace prefix followed by a non-space (or nothing). -/
theorem span_spaces (ws rest : List Char)
    (h1 : ∀ c ∈ ws, isSpaceCh c = true)
    (h2 : rest = [] ∨ ∃ c r', rest = c :: r' ∧ isSpaceCh c = false) :
    (ws ++ rest).span isSpaceCh = (ws, rest) := by
  obtain ⟨ht, hd⟩ := takeDropWhile_append ws rest h1 h2
  rw [List.span_eq_take_drop, ht, hd]

/-- Decomposition of a successful two-word match. -/
theorem matchWordsCI_eq {w1 w2 s m r : List Char}
    (h : matchWordsCI w1 w2 s = some (m, r)) :
    ∃ m1 ws m2, m = m1 ++ ws ++ m2 ∧ m1.map Char.toLower = w1 ∧
      m2.map Char.toLower = w2 ∧ ws ≠ [] ∧
      (∀ c ∈ ws, isSpaceCh c = true) ∧ s = m ++ r := by
  unfold matchWordsCI at h
  cases h1 : matchLitCI w1 s with
  | none => rw [h1] at h; exact absurd h (by simp)
  | some pr1 =>
    obtain ⟨m1, r1⟩ := pr1
    rw [h1] at h
    simp only [List.span_eq_take_drop] at h
    split at h
    · exact absurd h (by simp)
    · rename_i hws
      cases h2 : matchLitCI w2 (r1.dropWhile isSpaceCh) with
      | none => rw [h2] at h; exact absurd h (by simp)
      | some pr2 =>
        obtain ⟨m2, r3⟩ := pr2
        rw [h2] at h
        simp only at h
        cases h
        obtain ⟨he1, he2⟩ := matchLitCI_eq _ _ _ _ h1
        obtain ⟨he3, he4⟩ := matchLitCI_eq _ _ _ _ h2
        refine ⟨m1, r1.takeWhile isSpaceCh, m2, rfl, he1, he3, ?_, ?_, ?_⟩
        · intro hnil
          rw [hnil] at hws
          exact hws rfl
        · intro c hc
          exact List.mem_takeWhile_imp hc
        · have hr1 : r1 = r1.takeWhile isSpaceCh ++ (m2 ++ r) := by
            rw [← he4, List.takeWhile_append_dropWhile]
          rw [he2]
          nth_rewrite 1 [hr1]
          simp

/-- Converse construction of a two-word match. -/
theorem matchWordsCI_of {w1 w2 : List Char} (m1 ws m2 rest : List Char)
    (h1 : m1.map Char.toLower = w1) (h2 : m2.map Char.toLower = w2)
    (hws : ws ≠ []) (hsp : ∀ c ∈ ws, isSpaceCh c = true)
    (hm2 : ∃ c r', m2 = c :: r' ∧ isSpaceCh c = false) :
    matchWordsCI w1 w2 (m1 ++ ws ++ m2 ++ rest) = some (m1 ++ ws ++ m2, rest) := by
  unfold matchWordsCI
  have e1 : m1 ++ ws ++ m2 ++ rest = m1 ++ (ws ++ (m2 ++ rest)) := by simp
  rw [e1, matchLitCI_of_map m1 w1 _ h1]
  dsimp only
  have e2 : (ws ++ (m2 ++ rest)).span isSpaceCh = (ws, m2 ++ rest) := by
    apply span_spaces _ _ hsp
    obtain ⟨c, r', hm, hc⟩ := hm2
    exact Or.inr ⟨c, r' ++ rest, by simp [hm], hc⟩
  rw [e2]
  dsimp only
  simp only [List.isEmpty_iff]
  rw [if_neg hws, matchLitCI_of_map m2 w2 rest h2]

/-- Characters consumed by the gap `\s*\$?\s*`. -/
theorem matchGap_chars {s g r : List Char} (h : matchGap s = (g, r)) :
    ∀ c ∈ g, isSpaceCh c = true ∨ c = '$' := by
  unfold matchGap at h
  simp only [List.span_eq_take_drop] at h
  split at h
  · rename_i r2 hdrop
    simp only [Prod.mk.injEq] at h
    obtain ⟨hg, _⟩ := h
    intro c hc
    rw [← hg] at hc
    rcases List.mem_append.mp hc with h1 | h1
    · exact Or.inl (List.mem_takeWhile_imp h1)
    · rcases List.mem_cons.mp h1 with rfl | h2
      · exact Or.inr rfl
      · exact Or.inl (List.mem_takeWhile_imp h2)
  · simp only [Prod.mk.injEq] at h
    obtain ⟨hg, _⟩ := h
    intro c hc
    rw [← hg] at hc
    exact Or.inl (List.mem_takeWhile_imp hc)

/-- Characters consumed by the numeric capture. -/
theorem numAt_chars {s : List Char} {x : ℚ} {nc r : List Char}
    (h : numAt s = some (x, nc, r)) :
    ∀ c ∈ nc, isDigitCh c = true ∨ c = '.' := by
  unfold numAt at h
  simp only [List.span_eq_take_drop] at h
  split at h
  · exact absurd h (by simp)
  · split at h
    · split at h
      · simp only [Option.some_inj, Prod.mk.injEq] at h
        obtain ⟨_, hnc, _⟩ := h
        intro c hc
        rw [← hnc] at hc
        exact Or.inl (List.mem_takeWhile_imp hc)
      · simp only [Option.some_inj, Prod.mk.injEq] at h
        obtain ⟨_, hnc, _⟩ := h
        intro c hc
        rw [← hnc] at hc
        rcases List.mem_append.mp hc with h1 | h1
        · exact Or.inl (List.mem_takeWhile_imp h1)
        · rcases List.mem_cons.mp h1 with rfl | h2
          · exact Or.inr rfl
          · exact Or.inl (List.mem_takeWhile_imp h2)
    · simp only [Option.some_inj, Prod.mk.injEq] at h
      obtain ⟨_, hnc, _⟩ := h
      intro c hc
      rw [← hnc] at hc
      exact Or.inl (List.mem_takeWhile_imp hc)

/-- Decomposition of the shared bound continuation. -/
theorem boundCont_eq {ac r m0 : List Char} {x : ℚ}
    (h : boundCont ac r = some (m0, x)) :
    ∃ g nc, m0 = ac ++ g ++ nc ∧ (∀ c ∈ g, isSpaceCh c = true ∨ c = '$') ∧
      ∀ c ∈ nc, isDigitCh c = true ∨ c = '.' := by
  unfold boundCont at h
  cases hg : matchGap r with
  | mk g r2 =>
    rw [hg] at h
    simp only at h
    cases hn : numAt r2 with
    | none => rw [hn] at h; exact absurd h (by simp)
    | some v =>
      obtain ⟨xv, nc, rr⟩ := v
      rw [hn] at h
      simp only [Option.some_inj, Prod.mk.injEq] at h
      obtain ⟨hm, _⟩ := h
      exact ⟨g, nc, hm.symm, matchGap_chars hg, numAt_chars hn⟩

/-- Characters are determined by their code points. -/
theorem char_toNat_inj {a b : Char} (h : a.toNat = b.toNat) : a = b :=
  Char.ext (UInt32.ext h)

/-- `Char.toLower` either fixes its argument or shifts an upper-case basic
latin letter down by 32. -/
theorem toLower_cases (c : Char) :
    c.toLower = c ∨
    (65 ≤ c.toNat ∧ c.toNat ≤ 90 ∧ c.toLower.toNat = c.toNat + 32) := by
  unfold Char.toLower
  by_cases h : c.toNat ≥ 65 ∧ c.toNat ≤ 90
  · right
    refine ⟨h.1, h.2, ?_⟩
    simp only [if_pos h]
    exact charOfNat_toNat (by omega) (by omega)
  · left
    simp only [if_neg h]

/-- Only `l` and `L` lower-case to `l`. -/
theorem toLower_eq_l {c : Char} (h : c.toLower = 'l') : c = 'l' ∨ c = 'L' := by
  rcases toLower_cases c with hc | ⟨h1, h2, h3⟩
  · left; rw [← hc, h]
  · right
    rw [h] at h3
    apply char_toNat_inj
    have hl : Char.toNat 'l' = 108 := by decide
    have hL : Char.toNat 'L' = 76 := by decide
    omega

/-- Only `=` lower-cases to `=`. -/
theorem toLower_eq_eq {c : Char} (h : c.toLower = '=') : c = '=' := by
  rcases toLower_cases c with hc | ⟨h1, h2, h3⟩
  · rw [← hc, h]
  · rw [h] at h3
    have : Char.toNat '=' = 61 := by decide
    omega

/-- A "safe" character can contribute neither to `/>=/` nor to
`/at\s+least/i`: it is not `=` and does not lower-case to `l`. -/
def safeCh (c : Char) : Prop :=
  c ≠ '=' ∧ c.toLower ≠ 'l'

/-- Characters whose lowering lies in a pattern avoiding `=` and `l` are
safe. -/
theorem safe_of_pat {pat : List Char} (hpat : '=' ∉ pat ∧ 'l' ∉ pat)
    {c : Char} (hc : c.toLower ∈ pat) : safeCh c := by
  constructor
  · intro rfl_eq
    subst rfl_eq
    have : Char.toLower '=' = '=' := by decide
    rw [this] at hc
    exact hpat.1 hc
  · intro hl
    rw [hl] at hc
    exact hpat.2 hc

/-- Whitespace characters are safe. -/
theorem safe_of_space {c : Char} (h : isSpaceCh c = true) : safeCh c := by
  have hn : c.toNat = 32 ∨ c.toNat = 9 ∨ c.toNat = 10 ∨ c.toNat = 11 ∨
      c.toNat = 12 ∨ c.toNat = 13 ∨ c.toNat = 160 ∨ c.toNat = 0x1680 ∨
      (0x2000 ≤ c.toNat ∧ c.toNat ≤ 0x200A) ∨ c.toNat = 0x2028 ∨
      c.toNat = 0x2029 ∨ c.toNat = 0x202F ∨ c.toNat = 0x205F ∨
      c.toNat = 0x3000 ∨ c.toNat = 0xFEFF := by
    unfold isSpaceCh at h
    simp only [Bool.or_eq_true, beq_iff_eq, decide_eq_true_eq,
      Bool.and_eq_true] at h
    omega
  constructor
  · intro he
    subst he
    revert hn
    decide
  · intro hl
    rcases toLower_cases c with hc | ⟨h1, h2, h3⟩
    · rw [hc] at hl
      subst hl
      revert hn
      decide
    · omega

/-- Digit and dot characters are safe. -/
theorem safe_of_digit_dot {c : Char} (h : isDigitCh c = true ∨ c = '.') :
    safeCh c := by
  have hn : 48 ≤ c.toNat ∧ c.toNat ≤ 57 ∨ c.toNat = 46 := by
    rcases h with h | rfl
    · left
      unfold isDigitCh at h
      simp only [Bool.and_eq_true, decide_eq_true_eq] at h
      obtain ⟨h1, h2⟩ := h
      exact ⟨h1, h2⟩
    · right; decide
  constructor
  · intro he
    subst he
    revert hn
    decide
  · intro hl
    rcases toLower_cases c with hc | ⟨h1, h2, h3⟩
    · rw [hc] at hl
      subst hl
      revert hn
      decide
    · omega

/-- Gap characters (whitespace or `$`) are safe. -/
theorem safe_of_gap {c : Char} (h : isSpaceCh c = true ∨ c = '$') :
    safeCh c := by
  rcases h with h | rfl
  · exact safe_of_space h
  · exact ⟨by decide, by decide⟩

/-- If the `/(?:>=|at\s+least)/i` test succeeds, the tested string contains
an `=` or a character lowering to `l`. -/
theorem hasGe_exists : ∀ (m0 : List Char), hasGeOrAtLeast m0 = true →
    (∃ c ∈ m0, c = '=') ∨ (∃ c ∈ m0, c.toLower = 'l') := by
  intro m0
  induction m0 with
  | nil => intro h; exact absurd h (by simp [hasGeOrAtLeast])
  | cons c r ih =>
    intro h
    unfold hasGeOrAtLeast at h
    rcases Bool.or_eq_true_iff.mp h with h1 | h2
    · rcases Bool.or_eq_true_iff.mp h1 with hge | hal
      · rw [Bool.and_eq_true] at hge
        obtain ⟨_, hhd⟩ := hge
        cases r with
        | nil => exact absurd hhd (by simp)
        | cons c2 r' =>
          simp only [List.head?_cons, Option.some_inj, beq_iff_eq] at hhd
          exact Or.inl ⟨c2, by simp [hhd]⟩
      · rw [Option.isSome_iff_exists] at hal
        obtain ⟨⟨m, r3⟩, hm⟩ := hal
        obtain ⟨m1, ws, m2, hsplit, _, hm2, _, _, hs⟩ := matchWordsCI_eq hm
        cases m2 with
        | nil => simp at hm2
        | cons c0 m2' =>
          have hc0 : c0.toLower = 'l' := by
            simp only [List.map_cons] at hm2
            exact (List.cons_eq_cons.mp hm2).1
          refine Or.inr ⟨c0, ?_, hc0⟩
          rw [hs, hsplit]
          simp
    · rcases ih h2 with ⟨d, hd, he⟩ | ⟨d, hd, he⟩
      · exact Or.inl ⟨d, by simp [hd], he⟩
      · exact Or.inr ⟨d, by simp [hd], he⟩

/-- If the `/<=/` test succeeds, the tested string contains an `=`. -/
theorem hasLe_exists : ∀ (m0 : List Char), hasLe m0 = true →
    ∃ c ∈ m0, c = '=' := by
  intro m0
  induction m0 with
  | nil => intro h; exact absurd h (by simp [hasLe])
  | cons c r ih =>
    intro h
    unfold hasLe at h
    rcases Bool.or_eq_true_iff.mp h with h1 | h2
    · rw [Bool.and_eq_true] at h1
      obtain ⟨_, hhd⟩ := h1
      cases r with
      | nil => exact absurd hhd (by simp)
      | cons c2 r' =>
        simp only [List.head?_cons, Option.some_inj, beq_iff_eq] at hhd
        exact ⟨c2, by simp [hhd]⟩
    · obtain ⟨d, hd, he⟩ := ih h2
      exact ⟨d, by simp [hd], he⟩

/-- A string of safe characters fails the `/(?:>=|at\s+least)/i` test. -/
theorem hasGe_false {m0 : List Char} (h : ∀ c ∈ m0, safeCh c) :
    hasGeOrAtLeast m0 = false := by
  cases hh : hasGeOrAtLeast m0 with
  | false => rfl
  | true =>
    exfalso
    rcases hasGe_exists m0 hh with ⟨c, hc, he⟩ | ⟨c, hc, he⟩
    · exact (h c hc).1 he
    · exact (h c hc).2 he

/-- A string without `=` fails the `/<=/` test. -/
theorem hasLe_false {m0 : List Char} (h : ∀ c ∈ m0, c ≠ '=') :
    hasLe m0 = false := by
  cases hh : hasLe m0 with
  | false => rfl
  | true =>
    exfalso
    obtain ⟨c, hc, he⟩ := hasLe_exists m0 hh
    exact (h c hc) he

/-- The `>=` shape passes the inclusivity test. -/
theorem hasGe_geShape (rest : List Char) :
    hasGeOrAtLeast ('>' :: '=' :: rest) = true := by
  unfold hasGeOrAtLeast
  simp

/-- The `<=` shape passes the under-inclusivity test. -/
theorem hasLe_leShape (rest : List Char) :
    hasLe ('<' :: '=' :: rest) = true := by
  unfold hasLe
  simp

/-- An `at\s+least` shape passes the inclusivity test. -/
theorem hasGe_atLeastShape (m1 ws m2 rest : List Char)
    (h1 : m1.map Char.toLower = "at".data)
    (hws : ws ≠ []) (hsp : ∀ c ∈ ws, isSpaceCh c = true)
    (h2 : m2.map Char.toLower = "least".data) :
    hasGeOrAtLeast (m1 ++ ws ++ m2 ++ rest) = true := by
  have hm2ne : ∃ c0 r', m2 = c0 :: r' ∧ isSpaceCh c0 = false := by
    cases m2 with
    | nil => simp at h2
    | cons c0 r' =>
      refine ⟨c0, r', rfl, ?_⟩
      simp only [List.map_cons] at h2
      have hc0 : c0.toLower = 'l' := (List.cons_eq_cons.mp h2).1
      rcases toLower_eq_l hc0 with rfl | rfl <;> decide
  have hW := matchWordsCI_of m1 ws m2 rest h1 h2 hws hsp hm2ne
  cases m1 with
  | nil => simp at h1
  | cons c1 m1' =>
    have e : (c1 :: m1') ++ ws ++ m2 ++ rest =
        c1 :: (m1' ++ ws ++ m2 ++ rest) := by simp
    rw [e]
    unfold hasGeOrAtLeast
    rw [← e, hW]
    simp

/-- Membership transport for a case-insensitive literal part. -/
theorem toLower_mem_of_map {m pat : List Char}
    (hm : m.map Char.toLower = pat) {c : Char} (hc : c ∈ m) :
    c.toLower ∈ pat := by
  rw [← hm]
  exact List.mem_map_of_mem Char.toLower hc

/-- All characters of a bound-continuation match over safe alternative
characters are safe. -/
theorem safe_boundCont {ac r m0 : List Char} {x : ℚ}
    (hsafe : ∀ c ∈ ac, safeCh c)
    (h : boundCont ac r = some (m0, x)) : ∀ c ∈ m0, safeCh c := by
  obtain ⟨g, nc, hm, hg, hnc⟩ := boundCont_eq h
  intro c hc
  rw [hm] at hc
  rcases List.mem_append.mp hc with hc1 | hc1
  · rcases List.mem_append.mp hc1 with hc2 | hc2
    · exact hsafe c hc2
    · exact safe_of_gap (hg c hc2)
  · exact safe_of_digit_dot (hnc c hc1)

/-- Characters of a two-word case-insensitive match with safe letter
patterns are safe. -/
theorem safe_words {w1 w2 s m r : List Char}
    (hp1 : '=' ∉ w1 ∧ 'l' ∉ w1) (hp2 : '=' ∉ w2 ∧ 'l' ∉ w2)
    (h : matchWordsCI w1 w2 s = some (m, r)) : ∀ c ∈ m, safeCh c := by
  obtain ⟨m1, ws, m2, hsplit, h1, h2, _, hsp, _⟩ := matchWordsCI_eq h
  intro c hc
  rw [hsplit] at hc
  rcases List.mem_append.mp hc with hc1 | hc1
  · rcases List.mem_append.mp hc1 with hc2 | hc2
    · exact safe_of_pat hp1 (toLower_mem_of_map h1 hc2)
    · exact safe_of_space (hsp c hc2)
  · exact safe_of_pat hp2 (toLower_mem_of_map h2 hc1)

/-- Characters of a one-word case-insensitive match with a safe letter
pattern are safe. -/
theorem safe_lit {pat s m r : List Char}
    (hp : '=' ∉ pat ∧ 'l' ∉ pat)
    (h : matchLitCI pat s = some (m, r)) : ∀ c ∈ m, safeCh c := by
  obtain ⟨h1, _⟩ := matchLitCI_eq pat s m r h
  intro c hc
  exact safe_of_pat hp (toLower_mem_of_map h1 hc)

/-- The inclusivity test on the whole match of the "above" regex succeeds
exactly for the `>=` and `at least` alternatives: `at\s+least` branch. -/
theorem tryAtLeast_hasGe {s : List Char} {alt : AboveAlt} {m0 : List Char}
    {x : ℚ} (h : tryAbove.tryAtLeast s = some (alt, m0, x)) :
    (hasGeOrAtLeast m0 = true ↔ (alt = AboveAlt.ge ∨ alt = AboveAlt.atLeast)) := by
  unfold tryAbove.tryAtLeast at h
  cases hw : matchWordsCI "at".data "least".data s with
  | none => rw [hw] at h; exact absurd h (by simp)
  | some pr =>
    obtain ⟨m, r⟩ := pr
    rw [hw] at h
    simp only at h
    cases hb : boundCont m r with
    | none => rw [hb] at h; exact absurd h (by simp)
    | some pr2 =>
      obtain ⟨m0', x'⟩ := pr2
      rw [hb] at h
      simp only [Option.some_inj, Prod.mk.injEq] at h
      obtain ⟨ha, hm0, _⟩ := h
      subst ha
      obtain ⟨m1, ws, m2, hsplit, h1, h2, hws, hsp, _⟩ := matchWordsCI_eq hw
      obtain ⟨g, nc, hm, _, _⟩ := boundCont_eq hb
      subst hm0
      rw [hm, hsplit]
      have e : m1 ++ ws ++ m2 ++ g ++ nc = m1 ++ ws ++ m2 ++ (g ++ nc) := by
        simp
      rw [e, hasGe_atLeastShape m1 ws m2 (g ++ nc) h1 hws hsp h2]
      simp

/-- Inclusivity characterization: operator alternatives `>`/`>=` and the
final `at least`. -/
theorem tryAboveOps_hasGe {s : List Char} {alt : AboveAlt} {m0 : List Char}
    {x : ℚ} (h : tryAbove.tryAboveOps s = some (alt, m0, x)) :
    (hasGeOrAtLeast m0 = true ↔ (alt = AboveAlt.ge ∨ alt = AboveAlt.atLeast)) := by
  unfold tryAbove.tryAboveOps at h
  split at h
  · rename_i r
    cases hb : boundCont ['>'] r with
    | none =>
      rw [hb] at h
      simp only at h
      split at h
      · rename_i r'
        cases hb2 : boundCont ['>', '='] r' with
        | none =>
          rw [hb2] at h
          simp only at h
          exact tryAtLeast_hasGe h
        | some pr2 =>
          obtain ⟨m0', x'⟩ := pr2
          rw [hb2] at h
          simp only [Option.some_inj, Prod.mk.injEq] at h
          obtain ⟨ha, hm0, _⟩ := h
          subst ha
          subst hm0
          obtain ⟨g, nc, hm, _, _⟩ := boundCont_eq hb2
          rw [hm]
          have e : ['>', '='] ++ g ++ nc = '>' :: '=' :: (g ++ nc) := by simp
          rw [e, hasGe_geShape]
          simp
      · exact tryAtLeast_hasGe h
    | some pr2 =>
      obtain ⟨m0', x'⟩ := pr2
      rw [hb] at h
      simp only [Option.some_inj, Prod.mk.injEq] at h
      obtain ⟨ha, hm0, _⟩ := h
      subst ha
      subst hm0
      have hsafe : ∀ c ∈ (['>'] : List Char), safeCh c := by
        intro c hc
        rcases List.mem_singleton.mp hc with rfl
        exact ⟨by decide, by decide⟩
      rw [hasGe_false (safe_boundCont hsafe hb)]
      simp
  · exact tryAtLeast_hasGe h

/-- Inclusivity characterization: the `over` alternative and later ones. -/
theorem tryAboveRest_hasGe {s : List Char} {alt : AboveAlt} {m0 : List Char}
    {x : ℚ} (h : tryAbove.tryAboveRest s = some (alt, m0, x)) :
    (hasGeOrAtLeast m0 = true ↔ (alt = AboveAlt.ge ∨ alt = AboveAlt.atLeast)) := by
  unfold tryAbove.tryAboveRest at h
  cases hl : matchLitCI "over".data s with
  | none =>
    rw [hl] at h
    simp only at h
    exact tryAboveOps_hasGe h
  | some pr =>
    obtain ⟨m, r⟩ := pr
    rw [hl] at h
    simp only at h
    cases hb : boundCont m r with
    | none =>
      rw [hb] at h
      simp only at h
      exact tryAboveOps_hasGe h
    | some pr2 =>
      obtain ⟨m0', x'⟩ := pr2
      rw [hb] at h
      simp only [Option.some_inj, Prod.mk.injEq] at h
      obtain ⟨ha, hm0, _⟩ := h
      subst ha
      subst hm0
      have hsafe := safe_lit (by constructor <;> decide) hl
      rw [hasGe_false (safe_boundCont hsafe hb)]
      simp

/-- Inclusivity characterization for the whole "above" matcher. -/
theorem tryAbove_hasGe {s : List Char} {alt : AboveAlt} {m0 : List Char}
    {x : ℚ} (h : tryAbove s = some (alt, m0, x)) :
    (hasGeOrAtLeast m0 = true ↔ (alt = AboveAlt.ge ∨ alt = AboveAlt.atLeast)) := by
  unfold tryAbove at h
  cases hw : matchWordsCI "more".data "than".data s with
  | none =>
    rw [hw] at h
    simp only at h
    exact tryAboveRest_hasGe h
  | some pr =>
    obtain ⟨m, r⟩ := pr
    rw [hw] at h
    simp only at h
    cases hb : boundCont m r with
    | none =>
      rw [hb] at h
      simp only at h
      exact tryAboveRest_hasGe h
    | some pr2 =>
      obtain ⟨m0', x'⟩ := pr2
      rw [hb] at h
      simp only [Option.some_inj, Prod.mk.injEq] at h
      obtain ⟨ha, hm0, _⟩ := h
      subst ha
      subst hm0
      have hsafe := safe_words (by constructor <;> decide)
        (by constructor <;> decide) hw
      rw [hasGe_false (safe_boundCont hsafe hb)]
      simp

/-- A character lowering into an `=`-free pattern is not `=`. -/
theorem ne_eq_of_pat {pat : List Char} (hp : '=' ∉ pat) {c : Char}
    (hc : c.toLower ∈ pat) : c ≠ '=' := by
  intro he
  subst he
  have : Char.toLower '=' = '=' := by decide
  rw [this] at hc
  exact hp hc

/-- A bound continuation over `=`-free alternative characters contains no
`=`. -/
theorem noEq_boundCont {ac r m0 : List Char} {x : ℚ}
    (hac : ∀ c ∈ ac, c ≠ '=')
    (h : boundCont ac r = some (m0, x)) : ∀ c ∈ m0, c ≠ '=' := by
  obtain ⟨g, nc, hm, hg, hnc⟩ := boundCont_eq h
  intro c hc
  rw [hm] at hc
  rcases List.mem_append.mp hc with hc1 | hc1
  · rcases List.mem_append.mp hc1 with hc2 | hc2
    · exact hac c hc2
    · exact (safe_of_gap (hg c hc2)).1
  · exact (safe_of_digit_dot (hnc c hc1)).1

/-- A two-word match over `=`-free patterns contains no `=`. -/
theorem noEq_words {w1 w2 s m r : List Char}
    (hp1 : '=' ∉ w1) (hp2 : '=' ∉ w2)
    (h : matchWordsCI w1 w2 s = some (m, r)) : ∀ c ∈ m, c ≠ '=' := by
  obtain ⟨m1, ws, m2, hsplit, h1, h2, _, hsp, _⟩ := matchWordsCI_eq h
  intro c hc
  rw [hsplit] at hc
  rcases List.mem_append.mp hc with hc1 | hc1
  · rcases List.mem_append.mp hc1 with hc2 | hc2
    · exact ne_eq_of_pat hp1 (toLower_mem_of_map h1 hc2)
    · exact (safe_of_space (hsp c hc2)).1
  · exact ne_eq_of_pat hp2 (toLower_mem_of_map h2 hc1)

/-- A one-word match over an `=`-free pattern contains no `=`. -/
theorem noEq_lit {pat s m r : List Char} (hp : '=' ∉ pat)
    (h : matchLitCI pat s = some (m, r)) : ∀ c ∈ m, c ≠ '=' := by
  obtain ⟨h1, _⟩ := matchLitCI_eq pat s m r h
  intro c hc
  exact ne_eq_of_pat hp (toLower_mem_of_map h1 hc)

/-- Under-inclusivity characterization: the final `less\s+than`
alternative. -/
theorem tryLessThan_hasLe {s : List Char} {alt : UnderAlt} {m0 : List Char}
    {x : ℚ} (h : tryUnder.tryLessThan s = some (alt, m0, x)) :
    (hasLe m0 = true ↔ alt = UnderAlt.le) := by
  unfold tryUnder.tryLessThan at h
  cases hw : matchWordsCI "less".data "than".data s with
  | none => rw [hw] at h; exact absurd h (by simp)
  | some pr =>
    obtain ⟨m, r⟩ := pr
    rw [hw] at h
    simp only at h
    cases hb : boundCont m r with
    | none => rw [hb] at h; exact absurd h (by simp)
    | some pr2 =>
      obtain ⟨m0', x'⟩ := pr2
      rw [hb] at h
      simp only [Option.some_inj, Prod.mk.injEq] at h
      obtain ⟨ha, hm0, _⟩ := h
      subst ha
      subst hm0
      have hne := noEq_boundCont (noEq_words (by decide) (by decide) hw) hb
      rw [hasLe_false hne]
      simp

/-- Under-inclusivity characterization: the operator alternatives `<`/`<=`
and the final `less than`. -/
theorem tryUnderOps_hasLe {s : List Char} {alt : UnderAlt} {m0 : List Char}
    {x : ℚ} (h : tryUnder.tryUnderOps s = some (alt, m0, x)) :
    (hasLe m0 = true ↔ alt = UnderAlt.le) := by
  unfold tryUnder.tryUnderOps at h
  split at h
  · rename_i r
    cases hb : boundCont ['<'] r with
    | none =>
      rw [hb] at h
      simp only at h
      split at h
      · rename_i r'
        cases hb2 : boundCont ['<', '='] r' with
        | none =>
          rw [hb2] at h
          simp only at h
          exact tryLessThan_hasLe h
        | some pr2 =>
          obtain ⟨m0', x'⟩ := pr2
          rw [hb2] at h
          simp only [Option.some_inj, Prod.mk.injEq] at h
          obtain ⟨ha, hm0, _⟩ := h
          subst ha
          subst hm0
          obtain ⟨g, nc, hm, _, _⟩ := boundCont_eq hb2
          rw [hm]
          have e : ['<', '='] ++ g ++ nc = '<' :: '=' :: (g ++ nc) := by simp
          rw [e, hasLe_leShape]
          simp
      · exact tryLessThan_hasLe h
    | some pr2 =>
      obtain ⟨m0', x'⟩ := pr2
      rw [hb] at h
      simp only [Option.some_inj, Prod.mk.injEq] at h
      obtain ⟨ha, hm0, _⟩ := h
      subst ha
      subst hm0
      have hne : ∀ c ∈ (['<'] : List Char), c ≠ '=' := by
        intro c hc
        rcases List.mem_singleton.mp hc with rfl
        decide
      rw [hasLe_false (noEq_boundCont hne hb)]
      simp
  · exact tryLessThan_hasLe h

/-- Under-inclusivity characterization: the `below` alternative and later
ones. -/
theorem tryUnderRest_hasLe {s : List Char} {alt : UnderAlt} {m0 : List Char}
    {x : ℚ} (h : tryUnder.tryUnderRest s = some (alt, m0, x)) :
    (hasLe m0 = true ↔ alt = UnderAlt.le) := by
  unfold tryUnder.tryUnderRest at h
  cases hl : matchLitCI "below".data s with
  | none =>
    rw [hl] at h
    simp only at h
    exact tryUnderOps_hasLe h
  | some pr =>
    obtain ⟨m, r⟩ := pr
    rw [hl] at h
    simp only at h
    cases hb : boundCont m r with
    | none =>
      rw [hb] at h
      simp only at h
      exact tryUnderOps_hasLe h
    | some pr2 =>
      obtain ⟨m0', x'⟩ := pr2
      rw [hb] at h
      simp only [Option.some_inj, Prod.mk.injEq] at h
      obtain ⟨ha, hm0, _⟩ := h
      subst ha
      subst hm0
      rw [hasLe_false (noEq_boundCont (noEq_lit (by decide) hl) hb)]
      simp

/-- Under-inclusivity characterization for the whole "under" matcher. -/
theorem tryUnder_hasLe {s : List Char} {alt : UnderAlt} {m0 : List Char}
    {x : ℚ} (h : tryUnder s = some (alt, m0, x)) :
    (hasLe m0 = true ↔ alt = UnderAlt.le) := by
  unfold tryUnder at h
  cases hl : matchLitCI "under".data s with
  | none =>
    rw [hl] at h
    simp only at h
    exact tryUnderRest_hasLe h
  | some pr =>
    obtain ⟨m, r⟩ := pr
    rw [hl] at h
    simp only at h
    cases hb : boundCont m r with
    | none =>
      rw [hb] at h
      simp only at h
      exact tryUnderRest_hasLe h
    | some pr2 =>
      obtain ⟨m0', x'⟩ := pr2
      rw [hb] at h
      simp only [Option.some_inj, Prod.mk.injEq] at h
      obtain ⟨ha, hm0, _⟩ := h
      subst ha
      subst hm0
      rw [hasLe_false (noEq_boundCont (noEq_lit (by decide) hl) hb)]
      simp

/-- The scan returns a value produced by the at-position matcher at some
suffix. -/
theorem scanP_exists {α : Type} (f : List Char → Option α) :
    ∀ (s : List Char) (v : α), scanP f s = some v →
    ∃ s', f s' = some v := by
  intro s
  induction s with
  | nil =>
    intro v h
    exact ⟨[], h⟩
  | cons c t ih =>
    intro v h
    unfold scanP at h
    cases hf : f (c :: t) with
    | some w =>
      rw [hf] at h
      simp only [Option.some_inj] at h
      exact ⟨c :: t, by rw [hf, h]⟩
    | none =>
      rw [hf] at h
      simp only at h
      exact ih v h

/-- Evaluation of the parser when the between-pattern matches. -/
theorem parse_eq_of_between {text : String} {a b : ℚ}
    (h1 : scanP tryRangeBetween text.data = some (a, b)) :
    parsePriceIntent text =
      { price_mode := "range", min_price := some (min a b),
        max_price := some (max a b) } := by
  unfold parsePriceIntent
  rw [h1]

/-- Evaluation of the parser when only the dash-range pattern matches. -/
theorem parse_eq_of_dash {text : String} {a b : ℚ}
    (h1 : scanP tryRangeBetween text.data = none)
    (h2 : scanP tryRangeDash text.data = some (a, b)) :
    parsePriceIntent text =
      { price_mode := "range", min_price := some (min a b),
        max_price := some (max a b) } := by
  unfold parsePriceIntent
  rw [h1, h2]

/-- Evaluation of the parser when the first matching pattern is exact. -/
theorem parse_eq_of_exact {text : String} {x : ℚ}
    (h1 : scanP tryRangeBetween text.data = none)
    (h2 : scanP tryRangeDash text.data = none)
    (h3 : scanP tryExact text.data = some x) :
    parsePriceIntent text = { price_mode := "exact", exact_price := some x } := by
  unfold parsePriceIntent
  rw [h1, h2, h3]

/-- Evaluation of the parser when the first matching pattern is above. -/
theorem parse_eq_of_above {text : String} {alt : AboveAlt} {m0 : List Char}
    {x : ℚ}
    (h1 : scanP tryRangeBetween text.data = none)
    (h2 : scanP tryRangeDash text.data = none)
    (h3 : scanP tryExact text.data = none)
    (h4 : scanP tryAbove text.data = some (alt, m0, x)) :
    parsePriceIntent text =
      { price_mode := "above", min_price := some x,
        min_inclusive := some (hasGeOrAtLeast m0) } := by
  unfold parsePriceIntent
  rw [h1, h2, h3, h4]

/-- Evaluation of the parser when the first matching pattern is under. -/
theorem parse_eq_of_under {text : String} {alt : UnderAlt} {m0 : List Char}
    {x : ℚ}
    (h1 : scanP tryRangeBetween text.data = none)
    (h2 : scanP tryRangeDash text.data = none)
    (h3 : scanP tryExact text.data = none)
    (h4 : scanP tryAbove text.data = none)
    (h5 : scanP tryUnder text.data = some (alt, m0, x)) :
    parsePriceIntent text =
      { price_mode := "under", max_price := some x,
        max_inclusive := some (hasLe m0) } := by
  unfold parsePriceIntent
  rw [h1, h2, h3, h4, h5]

/-- Evaluation of the parser when only the closest pattern matches. -/
theorem parse_eq_of_closest {text : String} {x : ℚ}
    (h1 : scanP tryRangeBetween text.data = none)
    (h2 : scanP tryRangeDash text.data = none)
    (h3 : scanP tryExact text.data = none)
    (h4 : scanP tryAbove text.data = none)
    (h5 : scanP tryUnder text.data = none)
    (h6 : scanP tryClosest text.data = some x) :
    parsePriceIntent text =
      { price_mode := "closest", target_price := some x } := by
  unfold parsePriceIntent
  rw [h1, h2, h3, h4, h5, h6]

/-- Evaluation of the parser when nothing matches. -/
theorem parse_eq_of_none {text : String}
    (h1 : scanP tryRangeBetween text.data = none)
    (h2 : scanP tryRangeDash text.data = none)
    (h3 : scanP tryExact text.data = none)
    (h4 : scanP tryAbove text.data = none)
    (h5 : scanP tryUnder text.data = none)
    (h6 : scanP tryClosest text.data = none) :
    parsePriceIntent text = { price_mode := "none" } := by
  unfold parsePriceIntent
  rw [h1, h2, h3, h4, h5, h6]

/-- C7: when the parser returns mode "above", `min_inclusive` is true iff
the matched alternative was `>=` or `at least`; when it returns mode
"under", `max_inclusive` is true iff the matched alternative was `<=`
(false for `under`, `below`, `<`, `less than`). -/
theorem c7_inclusivity_iff_alternative (text : String) :
    ((parsePriceIntent text).price_mode = "above" →
      ∃ alt m0 x, scanP tryAbove text.data = some (alt, m0, x) ∧
        ((parsePriceIntent text).min_inclusive = some true ↔
          (alt = AboveAlt.ge ∨ alt = AboveAlt.atLeast))) ∧
    ((parsePriceIntent text).price_mode = "under" →
      ∃ alt m0 x, scanP tryUnder text.data = some (alt, m0, x) ∧
        ((parsePriceIntent text).max_inclusive = some true ↔
          alt = UnderAlt.le)) := by
  constructor
  · intro hmode
    cases h1 : scanP tryRangeBetween text.data with
    | some v =>
      obtain ⟨a, b⟩ := v
      rw [parse_eq_of_between h1] at hmode
      simp at hmode
    | none =>
    cases h2 : scanP tryRangeDash text.data with
    | some v =>
      obtain ⟨a, b⟩ := v
      rw [parse_eq_of_dash h1 h2] at hmode
      simp at hmode
    | none =>
    cases h3 : scanP tryExact text.data with
    | some x =>
      rw [parse_eq_of_exact h1 h2 h3] at hmode
      simp at hmode
    | none =>
    cases h4 : scanP tryAbove text.data with
    | none =>
      exfalso
      cases h5 : scanP tryUnder text.data with
      | some v =>
        obtain ⟨alt, m0, x⟩ := v
        rw [parse_eq_of_under h1 h2 h3 h4 h5] at hmode
        simp at hmode
      | none =>
        cases h6 : scanP tryClosest text.data with
        | some x =>
          rw [parse_eq_of_closest h1 h2 h3 h4 h5 h6] at hmode
          simp at hmode
        | none =>
          rw [parse_eq_of_none h1 h2 h3 h4 h5 h6] at hmode
          simp at hmode
    | some v =>
      obtain ⟨alt, m0, x⟩ := v
      refine ⟨alt, m0, x, rfl, ?_⟩
      rw [parse_eq_of_above h1 h2 h3 h4]
      obtain ⟨s2, hs2⟩ := scanP_exists tryAbove text.data _ h4
      have hiff := tryAbove_hasGe hs2
      simp only [Option.some_inj]
      exact hiff
  · intro hmode
    cases h1 : scanP tryRangeBetween text.data with
    | some v =>
      obtain ⟨a, b⟩ := v
      rw [parse_eq_of_between h1] at hmode
      simp at hmode
    | none =>
    cases h2 : scanP tryRangeDash text.data with
    | some v =>
      obtain ⟨a, b⟩ := v
      rw [parse_eq_of_dash h1 h2] at hmode
      simp at hmode
    | none =>
    cases h3 : scanP tryExact text.data with
    | some x =>
      rw [parse_eq_of_exact h1 h2 h3] at hmode
      simp at hmode
    | none =>
    cases h4 : scanP tryAbove text.data with
    | some v =>
      exfalso
      obtain ⟨alt, m0, x⟩ := v
      rw [parse_eq_of_above h1 h2 h3 h4] at hmode
      simp at hmode
    | none =>
    cases h5 : scanP tryUnder text.data with
    | none =>
      exfalso
      cases h6 : scanP tryClosest text.data with
      | some x =>
        rw [parse_eq_of_closest h1 h2 h3 h4 h5 h6] at hmode
        simp at hmode
      | none =>
        rw [parse_eq_of_none h1 h2 h3 h4 h5 h6] at hmode
        simp at hmode
    | some v =>
      obtain ⟨alt, m0, x⟩ := v
      refine ⟨alt, m0, x, rfl, ?_⟩
      rw [parse_eq_of_under h1 h2 h3 h4 h5]
      obtain ⟨s2, hs2⟩ := scanP_exists tryUnder text.data _ h5
      have hiff := tryUnder_hasLe hs2
      simp only [Option.some_inj]
      exact hiff

/-- C7 witness: "at least 30" yields mode above with `min_inclusive = true`
via the `at least` alternative. -/
theorem c7_witness :
    (parsePriceIntent "at least 30").price_mode = "above" ∧
    ∃ alt m0 x, scanP tryAbove "at least 30".data = some (alt, m0, x) ∧
      ((parsePriceIntent "at least 30").min_inclusive = some true ↔
        (alt = AboveAlt.ge ∨ alt = AboveAlt.atLeast)) :=
  ⟨by decide, (c7_inclusivity_iff_alternative "at least 30").1 (by decide)⟩

/-! ### The range pattern on texts containing a between-phrase (toward C6) -/

/-- A decimal numeral as captured by `(\d+(?:\.\d+)?)`: digits, or digits
followed by a dot and more digits. -/
def IsNumLit (na : List Char) : Prop :=
  (na ≠ [] ∧ ∀ c ∈ na, isDigitCh c = true) ∨
  (∃ d f, d ≠ [] ∧ f ≠ [] ∧ (∀ c ∈ d, isDigitCh c = true) ∧
    (∀ c ∈ f, isDigitCh c = true) ∧ na = d ++ '.' :: f)

/-- The numeric value of a numeral, as the capture matcher computes it. -/
def numVal (na : List Char) : ℚ :=
  match numAt na with
  | some (v, _, _) => v
  | none => 0

/-- A numeral starts with a digit. -/
theorem numlit_head {na : List Char} (h : IsNumLit na) :
    ∃ d0 na', na = d0 :: na' ∧ isDigitCh d0 = true := by
  rcases h with ⟨hne, hall⟩ | ⟨d, f, hd, _, hdall, _, hsplit⟩
  · cases na with
    | nil => exact absurd rfl hne
    | cons d0 na' => exact ⟨d0, na', rfl, hall d0 (by simp)⟩
  · cases d with
    | nil => exact absurd rfl hd
    | cons d0 d' =>
      exact ⟨d0, d' ++ '.' :: f, by simp [hsplit], hdall d0 (by simp)⟩

/-- Digits are not whitespace. -/
theorem digit_not_space {c : Char} (h : isDigitCh c = true) :
    isSpaceCh c = false := by
  have hn : 48 ≤ c.toNat ∧ c.toNat ≤ 57 := by
    unfold isDigitCh at h
    simp only [Bool.and_eq_true, decide_eq_true_eq] at h
    exact ⟨h.1, h.2⟩
  cases hs : isSpaceCh c with
  | false => rfl
  | true =>
    exfalso
    unfold isSpaceCh at hs
    simp only [Bool.or_eq_true, beq_iff_eq, decide_eq_true_eq,
      Bool.and_eq_true] at hs
    omega

/-- Digits lower-case to themselves. -/
theorem digit_toLower_self {c : Char} (h : isDigitCh c = true) :
    c.toLower = c := by
  have hn : 48 ≤ c.toNat ∧ c.toNat ≤ 57 := by
    unfold isDigitCh at h
    simp only [Bool.and_eq_true, decide_eq_true_eq] at h
    exact ⟨h.1, h.2⟩
  rcases toLower_cases c with hc | ⟨h1, _, _⟩
  · exact hc
  · omega

/-- Evaluating the numeric capture on a bare digit run followed by a
boundary. -/
theorem numAt_plain {d rest : List Char} (hd : d ≠ [])
    (hdd : ∀ c ∈ d, isDigitCh c = true)
    (hrest : rest = [] ∨
      ∃ c r', rest = c :: r' ∧ isDigitCh c = false ∧ c ≠ '.') :
    numAt (d ++ rest) = some ((natVal d : ℚ), d, rest) := by
  obtain ⟨ht, hdr⟩ := takeDropWhile_append d rest hdd
    (by rcases hrest with rfl | ⟨c, r', hr, hc, _⟩
        · exact Or.inl rfl
        · exact Or.inr ⟨c, r', hr, hc⟩)
  unfold numAt
  simp only [List.span_eq_take_drop, ht, hdr]
  rw [if_neg (by simpa [List.isEmpty_iff] using hd)]
  rcases hrest with rfl | ⟨c, r', hr, hc, hcd⟩
  · rfl
  · subst hr
    split
    · rename_i r2 heq
      exact absurd (List.cons_eq_cons.mp heq).1 hcd
    · rfl

/-- Evaluating the numeric capture on a fractional numeral followed by a
boundary. -/
theorem numAt_frac {d f rest : List Char} (hd : d ≠ []) (hf : f ≠ [])
    (hdd : ∀ c ∈ d, isDigitCh c = true) (hff : ∀ c ∈ f, isDigitCh c = true)
    (hrest : rest = [] ∨
      ∃ c r', rest = c :: r' ∧ isDigitCh c = false ∧ c ≠ '.') :
    numAt (d ++ '.' :: f ++ rest) =
      some ((natVal d : ℚ) + (natVal f : ℚ) / (10 : ℚ) ^ f.length,
        d ++ '.' :: f, rest) := by
  have hdot : isDigitCh '.' = false := by decide
  obtain ⟨ht1, hdr1⟩ := takeDropWhile_append d ('.' :: (f ++ rest)) hdd
    (Or.inr ⟨'.', f ++ rest, rfl, hdot⟩)
  obtain ⟨ht2, hdr2⟩ := takeDropWhile_append f rest hff
    (by rcases hrest with rfl | ⟨c, r', hr, hc, _⟩
        · exact Or.inl rfl
        · exact Or.inr ⟨c, r', hr, hc⟩)
  unfold numAt
  have e : d ++ '.' :: f ++ rest = d ++ ('.' :: (f ++ rest)) := by simp
  rw [e]
  simp only [List.span_eq_take_drop, ht1, hdr1]
  rw [if_neg (by simpa [List.isEmpty_iff] using hd)]
  simp only [ht2, hdr2]
  rw [if_neg (by simpa [List.isEmpty_iff] using hf)]

/-- Evaluating the numeric capture on any numeral followed by a boundary. -/
theorem numAt_append {na rest : List Char} (h : IsNumLit na)
    (hrest : rest = [] ∨
      ∃ c r', rest = c :: r' ∧ isDigitCh c = false ∧ c ≠ '.') :
    numAt (na ++ rest) = some (numVal na, na, rest) := by
  rcases h with ⟨hne, hall⟩ | ⟨d, f, hd, hf, hdall, hfall, hsplit⟩
  · rw [numAt_plain hne hall hrest]
    have hv : numVal na = (natVal na : ℚ) := by
      unfold numVal
      rw [show na = na ++ [] by simp, numAt_plain hne hall (Or.inl rfl)]
      simp
    rw [hv]
  · subst hsplit
    have e : d ++ '.' :: f ++ rest = (d ++ '.' :: f) ++ rest := by simp
    rw [← e, numAt_frac hd hf hdall hfall hrest]
    have hv : numVal (d ++ '.' :: f) =
        (natVal d : ℚ) + (natVal f : ℚ) / (10 : ℚ) ^ f.length := by
      unfold numVal
      rw [show d ++ '.' :: f = d ++ '.' :: f ++ [] by simp,
        numAt_frac hd hf hdall hfall (Or.inl rfl)]
    rw [hv]

/-- `matchGap` splits its input. -/
theorem matchGap_eq {s g r : List Char} (h : matchGap s = (g, r)) :
    s = g ++ r := by
  unfold matchGap at h
  simp only [List.span_eq_take_drop] at h
  split at h
  · rename_i r2 hdrop
    simp only [Prod.mk.injEq] at h
    obtain ⟨hg, hr⟩ := h
    rw [← hg, ← hr]
    have e1 := List.takeWhile_append_dropWhile isSpaceCh s
    rw [hdrop] at e1
    have e2 := List.takeWhile_append_dropWhile isSpaceCh r2
    conv_lhs => rw [← e1, ← e2]
    simp
  · simp only [Prod.mk.injEq] at h
    obtain ⟨hg, hr⟩ := h
    rw [← hg, ← hr]
    exact (List.takeWhile_append_dropWhile isSpaceCh s).symm

/-- A successful numeric capture splits its input and starts with a digit. -/
theorem numAt_eq {s : List Char} {x : ℚ} {nc r : List Char}
    (h : numAt s = some (x, nc, r)) :
    s = nc ++ r ∧ ∃ d0 nc', nc = d0 :: nc' ∧ isDigitCh d0 = true := by
  unfold numAt at h
  simp only [List.span_eq_take_drop] at h
  split at h
  · exact absurd h (by simp)
  · rename_i hne
    have hd0 : ∃ d0 nc', s.takeWhile isDigitCh = d0 :: nc' ∧
        isDigitCh d0 = true := by
      cases hct : s.takeWhile isDigitCh with
      | nil => rw [hct] at hne; simp at hne
      | cons d0 nc' =>
        refine ⟨d0, nc', rfl, ?_⟩
        exact List.mem_takeWhile_imp (hct ▸ List.mem_cons_self d0 nc')
    have hsplit := (List.takeWhile_append_dropWhile isDigitCh s).symm
    split at h
    · rename_i r2 hdrop
      have hsplit2 := (List.takeWhile_append_dropWhile isDigitCh r2).symm
      split at h
      · simp only [Option.some_inj, Prod.mk.injEq] at h
        obtain ⟨_, hnc, hr⟩ := h
        refine ⟨?_, by rw [← hnc]; exact hd0⟩
        rw [← hnc, ← hr]
        exact hsplit
      · simp only [Option.some_inj, Prod.mk.injEq] at h
        obtain ⟨_, hnc, hr⟩ := h
        constructor
        · rw [← hnc, ← hr]
          conv_lhs => rw [hsplit, hdrop]
          conv_lhs => rw [hsplit2]
          simp
        · rw [← hnc]
          obtain ⟨d0, nc', he, hd⟩ := hd0
          exact ⟨d0, nc' ++ '.' :: r2.takeWhile isDigitCh, by simp [he], hd⟩
    · simp only [Option.some_inj, Prod.mk.injEq] at h
      obtain ⟨_, hnc, hr⟩ := h
      refine ⟨?_, by rw [← hnc]; exact hd0⟩
      rw [← hnc, ← hr]
      exact hsplit

/-- Two decompositions of a string into a digit-free prefix and a
digit-headed suffix agree on the prefix. -/
theorem nondigit_prefix_unique : ∀ (p1 p2 : List Char) (c1 c2 : Char)
    (r1 r2 : List Char),
    p1 ++ c1 :: r1 = p2 ++ c2 :: r2 →
    (∀ c ∈ p1, isDigitCh c = false) → (∀ c ∈ p2, isDigitCh c = false) →
    isDigitCh c1 = true → isDigitCh c2 = true → p1 = p2 := by
  intro p1
  induction p1 with
  | nil =>
    intro p2 c1 c2 r1 r2 heq h1 h2 hc1 hc2
    cases p2 with
    | nil => rfl
    | cons x p2' =>
      exfalso
      simp only [List.nil_append, List.cons_append] at heq
      have hx : c1 = x := (List.cons_eq_cons.mp heq).1
      have hfx := h2 x (by simp)
      rw [← hx] at hfx
      rw [hfx] at hc1
      exact Bool.false_ne_true hc1
  | cons y p1' ih =>
    intro p2 c1 c2 r1 r2 heq h1 h2 hc1 hc2
    cases p2 with
    | nil =>
      exfalso
      simp only [List.cons_append, List.nil_append] at heq
      have hy : y = c2 := (List.cons_eq_cons.mp heq).1
      have hfy := h1 y (by simp)
      rw [hy] at hfy
      rw [hfy] at hc2
      exact Bool.false_ne_true hc2
    | cons x p2' =>
      simp only [List.cons_append] at heq
      obtain ⟨hxy, heq2⟩ := List.cons_eq_cons.mp heq
      rw [hxy]
      exact congrArg (x :: ·)
        (ih p2' c1 c2 r1 r2 heq2 (fun c hc => h1 c (by simp [hc]))
          (fun c hc => h2 c (by simp [hc])) hc1 hc2)

/-- Characters of a case-insensitive match of "between" are not digits. -/
theorem between_match_nondigit {m : List Char}
    (hm : m.map Char.toLower = "between".data) :
    ∀ c ∈ m, isDigitCh c = false := by
  intro c hc
  cases hd : isDigitCh c with
  | false => rfl
  | true =>
    exfalso
    have hmem := toLower_mem_of_map hm hc
    rw [digit_toLower_self hd] at hmem
    have : ∀ d ∈ "between".data, isDigitCh d = false := by decide
    have := this c hmem
    rw [this] at hd
    exact Bool.false_ne_true hd

/-- Gap characters are not digits. -/
theorem gap_nondigit {c : Char} (h : isSpaceCh c = true ∨ c = '$') :
    isDigitCh c = false := by
  rcases h with h | rfl
  · cases hd : isDigitCh c with
    | false => rfl
    | true =>
      exfalso
      rw [digit_not_space hd] at h
      exact Bool.false_ne_true h
  · decide

/-- The between-pattern cannot match at a position that puts a nonempty
digit-free gap before the phrase's own `between` keyword. -/
theorem tryRangeBetween_none_of_shape (dp rest : List Char) (d0 : Char)
    (hdp : dp ≠ []) (hdig : ∀ c ∈ dp, isDigitCh c = false)
    (hd0 : isDigitCh d0 = true) :
    tryRangeBetween ((dp ++ "between ".data) ++ d0 :: rest) = none := by
  cases htry : tryRangeBetween ((dp ++ "between ".data) ++ d0 :: rest) with
  | none => rfl
  | some v =>
    exfalso
    obtain ⟨a, b⟩ := v
    unfold tryRangeBetween at htry
    cases hlit : matchLitCI "between".data ((dp ++ "between ".data) ++ d0 :: rest) with
    | none => rw [hlit] at htry; exact absurd htry (by simp)
    | some pr1 =>
      obtain ⟨m, r1⟩ := pr1
      rw [hlit] at htry
      simp only at htry
      obtain ⟨hmmap, hs⟩ := matchLitCI_eq _ _ _ _ hlit
      cases hgap : matchGap r1 with
      | mk g r2 =>
        rw [hgap] at htry
        simp only at htry
        cases hnum : numAt r2 with
        | none => rw [hnum] at htry; exact absurd htry (by simp)
        | some v2 =>
          obtain ⟨x1, nc, r3⟩ := v2
          obtain ⟨hr2, d1, nc1, hnc, hd1⟩ := numAt_eq hnum
          have hr1 := matchGap_eq hgap
          -- assemble the two decompositions
          have hdecomp : (m ++ g) ++ d1 :: (nc1 ++ r3) =
              (dp ++ "between ".data) ++ d0 :: rest := by
            have e1 : (m ++ g) ++ d1 :: (nc1 ++ r3) = m ++ r1 := by
              rw [hr1, hr2, hnc]
              simp
            rw [e1, ← hs]
          have hP1 : ∀ c ∈ m ++ g, isDigitCh c = false := by
            intro c hc
            rcases List.mem_append.mp hc with hc1 | hc1
            · exact between_match_nondigit hmmap c hc1
            · exact gap_nondigit (matchGap_chars hgap c hc1)
          have hP2 : ∀ c ∈ dp ++ "between ".data, isDigitCh c = false := by
            intro c hc
            rcases List.mem_append.mp hc with hc1 | hc1
            · exact hdig c hc1
            · have hbp : ∀ d ∈ "between ".data, isDigitCh d = false := by decide
              exact hbp c hc1
          have hPQ : m ++ g = dp ++ "between ".data :=
            nondigit_prefix_unique _ _ _ _ _ _ hdecomp hP1 hP2 hd1 hd0
          have hm7 : m.length = 7 := by
            have := congrArg List.length hmmap
            simpa using this
          by_cases hlen : 7 ≤ dp.length
          · -- the gap would have to contain the letter b
            have hg : g = dp.drop 7 ++ "between ".data := by
              have hdropped := congrArg (List.drop 7) hPQ
              rw [← hm7] at hdropped
              rw [List.drop_left] at hdropped
              rw [hm7] at hdropped
              rw [List.drop_append_of_le_length hlen] at hdropped
              exact hdropped
            have hb : 'b' ∈ g := by
              rw [hg]
              refine List.mem_append.mpr (Or.inr ?_)
              decide
            have := matchGap_chars hgap 'b' hb
            rcases this with hsp | hdl
            · exact Bool.false_ne_true ((by decide : isSpaceCh 'b' = false) ▸ hsp)
            · exact absurd hdl (by decide)
          · -- dp is a strict prefix of the matched `between`
            push_neg at hlen
            have hk1 : 1 ≤ dp.length := by
              cases dp with
              | nil => exact absurd rfl hdp
              | cons _ _ => simp
            have hk6 : dp.length ≤ 6 := by omega
            have hdropEq : m.drop dp.length ++ g = "between ".data := by
              have hdropped := congrArg (List.drop dp.length) hPQ
              rw [List.drop_append_of_le_length (by omega)] at hdropped
              rw [List.drop_left] at hdropped
              exact hdropped
            have hmd : (m.drop dp.length).map Char.toLower =
                "between".data.drop dp.length := by
              rw [List.map_drop, hmmap]
            cases hmdrop : m.drop dp.length with
            | nil =>
              have : (m.drop dp.length).length = 7 - dp.length := by
                simp [hm7]
              rw [hmdrop] at this
              simp at this
              omega
            | cons mh mt =>
              rw [hmdrop] at hdropEq
              have hbp : "between ".data = 'b' :: "etween ".data := by decide
              rw [hbp] at hdropEq
              simp only [List.cons_append] at hdropEq
              have hmh : mh = 'b' := (List.cons_eq_cons.mp hdropEq).1
              rw [hmdrop, hmh] at hmd
              simp only [List.map_cons] at hmd
              have hblow : Char.toLower 'b' = 'b' := by decide
              rw [hblow] at hmd
              have hhead : ("between".data.drop dp.length).head? = some 'b' := by
                rw [← hmd]
                rfl
              have hforall : ∀ k < 7, 1 ≤ k →
                  (("between".data).drop k).head? ≠ some 'b' := by decide
              exact hforall dp.length (by omega) hk1 hhead

/-- A match at the current position makes the scan succeed immediately. -/
theorem scanP_of_head {α : Type} {f : List Char → Option α} {s : List Char}
    {v : α} (h : f s = some v) : scanP f s = some v := by
  cases s with
  | nil => exact h
  | cons c t =>
    unfold scanP
    rw [h]

/-- Scanning past a prefix at which the matcher always fails. -/
theorem scanP_append_of_none {α : Type} (f : List Char → Option α) :
    ∀ (dp rest0 : List Char) (v : α),
    (∀ dp', dp'.IsSuffix dp → dp' ≠ [] → f (dp' ++ rest0) = none) →
    scanP f rest0 = some v →
    scanP f (dp ++ rest0) = some v := by
  intro dp
  induction dp with
  | nil =>
    intro rest0 v _ hv
    simpa using hv
  | cons d dp' ih =>
    intro rest0 v hall hv
    have hfail : f ((d :: dp') ++ rest0) = none :=
      hall (d :: dp') List.suffix_rfl (by simp)
    rw [List.cons_append] at hfail ⊢
    unfold scanP
    rw [hfail]
    exact ih rest0 v
      (fun dp2 hsuf hne => hall dp2 (hsuf.trans (List.suffix_cons d dp')) hne) hv

/-- The gap matcher on a single space followed by a digit. -/
theorem matchGap_space_digit {x x' : List Char} {d0 : Char}
    (hx : x = d0 :: x') (hd0 : isDigitCh d0 = true) :
    matchGap (' ' :: x) = ([' '], x) := by
  subst hx
  unfold matchGap
  have hsp : isSpaceCh ' ' = true := by decide
  have hnd : isSpaceCh d0 = false := digit_not_space hd0
  have hdol : d0 ≠ '$' := by
    intro he
    rw [he] at hd0
    exact absurd hd0 (by decide)
  simp only [List.span_eq_take_drop, List.takeWhile_cons, List.dropWhile_cons,
    hsp, if_true, hnd, if_false]
  split
  · rename_i r2 heq
    exact absurd (List.cons_eq_cons.mp heq).1 hdol
  · rfl

/-- The gap matcher on a space, a currency symbol and a digit. -/
theorem matchGap_space_dollar_digit {x x' : List Char} {d0 : Char}
    (hx : x = d0 :: x') (hd0 : isDigitCh d0 = true) :
    matchGap (' ' :: '$' :: x) = ([' ', '$'], x) := by
  subst hx
  unfold matchGap
  have hsp : isSpaceCh ' ' = true := by decide
  have hdol : isSpaceCh '$' = false := by decide
  have hnd : isSpaceCh d0 = false := digit_not_space hd0
  simp only [List.span_eq_take_drop, List.takeWhile_cons, List.dropWhile_cons,
    hsp, if_true, hdol, if_false, hnd]
  simp [hnd]

/-- The gap matcher on a space, an optional currency symbol and a digit. -/
theorem matchGap_space_opt_dollar {dol x x' : List Char} {d0 : Char}
    (hdol : dol = [] ∨ dol = ['$'])
    (hx : x = d0 :: x') (hd0 : isDigitCh d0 = true) :
    matchGap (' ' :: (dol ++ x)) = (' ' :: dol, x) := by
  rcases hdol with rfl | rfl
  · rw [List.nil_append]
    exact matchGap_space_digit hx hd0
  · exact matchGap_space_dollar_digit hx hd0

/-- The between-pattern matches the canonical phrase
`between [$]NA and [$]NB post`, capturing the two numeral values. -/
theorem tryRangeBetween_phrase {dol1 dol2 na nb post : List Char}
    (hdol1 : dol1 = [] ∨ dol1 = ['$']) (hdol2 : dol2 = [] ∨ dol2 = ['$'])
    (hna : IsNumLit na) (hnb : IsNumLit nb)
    (hpost : post = [] ∨
      ∃ c r', post = c :: r' ∧ isDigitCh c = false ∧ c ≠ '.') :
    tryRangeBetween ("between".data ++ (' ' :: (dol1 ++ (na ++
        (' ' :: 'a' :: 'n' :: 'd' :: ' ' :: (dol2 ++ (nb ++ post))))))) =
      some (numVal na, numVal nb) := by
  obtain ⟨d0, na', hna', hd0⟩ := numlit_head hna
  obtain ⟨e0, nb', hnb', he0⟩ := numlit_head hnb
  unfold tryRangeBetween
  rw [matchLitCI_of_map "between".data "between".data _ (by decide)]
  dsimp only
  have hx1 : na ++ (' ' :: 'a' :: 'n' :: 'd' :: ' ' :: (dol2 ++ (nb ++ post))) =
      d0 :: (na' ++ (' ' :: 'a' :: 'n' :: 'd' :: ' ' :: (dol2 ++ (nb ++ post)))) := by
    rw [hna']
    simp
  rw [matchGap_space_opt_dollar hdol1 hx1 hd0]
  dsimp only
  have hn1 : numAt (na ++ (' ' :: 'a' :: 'n' :: 'd' :: ' ' :: (dol2 ++ (nb ++ post)))) =
      some (numVal na, na,
        ' ' :: 'a' :: 'n' :: 'd' :: ' ' :: (dol2 ++ (nb ++ post))) :=
    numAt_append hna (Or.inr ⟨' ', _, rfl, by decide, by decide⟩)
  rw [hn1]
  dsimp only
  have hspan : (' ' :: 'a' :: 'n' :: 'd' :: ' ' ::
      (dol2 ++ (nb ++ post))).span isSpaceCh =
      ([' '], 'a' :: 'n' :: 'd' :: ' ' :: (dol2 ++ (nb ++ post))) := by
    have e : (' ' :: 'a' :: 'n' :: 'd' :: ' ' :: (dol2 ++ (nb ++ post))) =
        [' '] ++ ('a' :: 'n' :: 'd' :: ' ' :: (dol2 ++ (nb ++ post))) := rfl
    rw [e]
    apply span_spaces
    · intro c hc
      rcases List.mem_singleton.mp hc with rfl
      decide
    · exact Or.inr ⟨'a', _, rfl, by decide⟩
  rw [hspan]
  dsimp only
  have hand : matchLitCI "and".data
      ('a' :: 'n' :: 'd' :: ' ' :: (dol2 ++ (nb ++ post))) =
      some (['a', 'n', 'd'], ' ' :: (dol2 ++ (nb ++ post))) := by
    have e : ('a' :: 'n' :: 'd' :: ' ' :: (dol2 ++ (nb ++ post))) =
        ['a', 'n', 'd'] ++ (' ' :: (dol2 ++ (nb ++ post))) := rfl
    rw [e]
    exact matchLitCI_of_map ['a', 'n', 'd'] "and".data _ (by decide)
  rw [hand]
  dsimp only
  have hx2 : nb ++ post = e0 :: (nb' ++ post) := by
    rw [hnb']
    simp
  rw [matchGap_space_opt_dollar hdol2 hx2 he0]
  dsimp only
  rw [numAt_append hnb hpost]

/-- C6 amended: for every text of the form
`pre ++ "between " ++ D1 ++ NA ++ " and " ++ D2 ++ NB ++ post` — `NA`, `NB`
decimal numerals, `D1`, `D2` an optional currency symbol — in which the
between-pattern matches at no position inside `pre` (the one exclusion the
leftmost-match semantics forces) and the second numeral is followed by a
non-numeric boundary, the parser returns mode `"range"` with
`min_price = min(A,B)` and `max_price = max(A,B)` where `A`, `B` are the
two numeral values — regardless of any exact/above/under/closest phrases
anywhere in the text, including before the between-phrase (range
precedence). -/
theorem c6_between_yields_range (text pre : String)
    (dol1 dol2 na nb : List Char) (post : String)
    (htext : text.data = pre.data ++
      ("between ".data ++ (dol1 ++ (na ++
        (" and ".data ++ (dol2 ++ (nb ++ post.data)))))))
    (hdol1 : dol1 = [] ∨ dol1 = ['$']) (hdol2 : dol2 = [] ∨ dol2 = ['$'])
    (hpre : ∀ i, i < pre.data.length →
      tryRangeBetween (text.data.drop i) = none)
    (hna : IsNumLit na) (hnb : IsNumLit nb)
    (hpost : post.data = [] ∨
      ∃ c r', post.data = c :: r' ∧ isDigitCh c = false ∧ c ≠ '.') :
    parsePriceIntent text =
      { price_mode := "range",
        min_price := some (min (numVal na) (numVal nb)),
        max_price := some (max (numVal na) (numVal nb)) } := by
  have hshape : "between ".data ++ (dol1 ++ (na ++
      (" and ".data ++ (dol2 ++ (nb ++ post.data))))) =
      "between".data ++ (' ' :: (dol1 ++ (na ++
        (' ' :: 'a' :: 'n' :: 'd' :: ' ' :: (dol2 ++ (nb ++ post.data)))))) := by
    have h1 : "between ".data = "between".data ++ [' '] := by decide
    have h2 : " and ".data = [' ', 'a', 'n', 'd', ' '] := by decide
    rw [h1, h2]
    simp
  have hscan : scanP tryRangeBetween text.data = some (numVal na, numVal nb) := by
    rw [htext]
    apply scanP_append_of_none
    · intro dp' hsuff hne
      obtain ⟨p1, hp1⟩ := hsuff
      have hlen : p1.length + dp'.length = pre.data.length := by
        rw [← hp1, List.length_append]
      have hdrop : text.data.drop p1.length =
          dp' ++ ("between ".data ++ (dol1 ++ (na ++
            (" and ".data ++ (dol2 ++ (nb ++ post.data)))))) := by
        rw [htext, ← hp1, List.append_assoc, List.drop_left]
      have hi : p1.length < pre.data.length := by
        have hdplen : dp'.length ≠ 0 := fun hz => hne (List.length_eq_zero.mp hz)
        omega
      have hnone := hpre p1.length hi
      rw [hdrop] at hnone
      exact hnone
    · rw [hshape]
      exact scanP_of_head (tryRangeBetween_phrase hdol1 hdol2 hna hnb hpost)
  exact parse_eq_of_between hscan

/-- C6 witness: an under-phrase precedes a between-phrase with
currency-marked numerals; the between-range still wins. -/
theorem c6_witness :
    ("under 5 or between $8 and $15 okay".data =
      "under 5 or ".data ++ ("between ".data ++ (['$'] ++ ("8".data ++
        (" and ".data ++ (['$'] ++ ("15".data ++ " okay".data))))))) ∧
    (∀ i, i < "under 5 or ".data.length →
      tryRangeBetween ("under 5 or between $8 and $15 okay".data.drop i) =
        none) ∧
    parsePriceIntent "under 5 or between $8 and $15 okay" =
      { price_mode := "range",
        min_price := some (min (numVal "8".data) (numVal "15".data)),
        max_price := some (max (numVal "8".data) (numVal "15".data)) } :=
  ⟨by decide, by decide,
   c6_between_yields_range "under 5 or between $8 and $15 okay"
     "under 5 or " ['$'] ['$'] "8".data "15".data " okay"
     (by decide) (Or.inr rfl) (Or.inr rfl) (by decide)
     (Or.inl ⟨by decide, by decide⟩) (Or.inl ⟨by decide, by decide⟩)
     (Or.inr ⟨' ', "okay".data, by decide, by decide, by decide⟩)⟩

/-- C6 counterexample: the claim as stated fails when the text contains two
between-phrases — the text contains the phrase "between 30 and 40" yet the
parser (which takes the leftmost match) reports `min_price = 1`, not
`min(30,40) = 30`. -/
theorem c6_counterexample :
    "between 1 and 2 or between 30 and 40" =
      "between 1 and 2 or " ++ "between 30 and 40" ∧
    (parsePriceIntent "between 1 and 2 or between 30 and 40").price_mode =
      "range" ∧
    (parsePriceIntent "between 1 and 2 or between 30 and 40").min_price =
      some 1 ∧
    (1 : ℚ) ≠ min 30 40 := by
  refine ⟨by decide, by decide, by decide, by decide⟩

/-! ## Idempotence analysis of `deriveQuery` -/

/-- Lower-case basic latin letters `[a-z]`. -/
def isLowerCh (c : Char) : Bool :=
  'a' ≤ c && c ≤ 'z'

/-- Upper-case basic latin letters `[A-Z]`. -/
def isUpperCh (c : Char) : Bool :=
  'A' ≤ c && c ≤ 'Z'

/-- Whether a string starts with a digit. -/
def headDigit : List Char → Bool
  | [] => false
  | c :: _ => isDigitCh c

theorem bool_eq_false {b : Bool} (h : ¬b = true) : b = false := by
  cases b
  · rfl
  · exact absurd rfl h

/-- Decomposition of the word class. -/
theorem wordCh_cases {a : Char} (h : isWordCh a = true) :
    isLowerCh a = true ∨ isUpperCh a = true ∨ isDigitCh a = true ∨ a = '_' := by
  unfold isWordCh at h
  simp only [Bool.or_eq_true] at h
  rcases h with ((h1 | h2) | h3) | h4
  · exact Or.inl h1
  · exact Or.inr (Or.inl h2)
  · exact Or.inr (Or.inr (Or.inl h3))
  · exact Or.inr (Or.inr (Or.inr (by simpa using h4)))

theorem word_of_digit {c : Char} (h : isDigitCh c = true) : isWordCh c = true := by
  unfold isWordCh
  rw [h]
  simp

theorem word_of_lower {c : Char} (h : isLowerCh c = true) : isWordCh c = true := by
  unfold isWordCh
  unfold isLowerCh at h
  rw [h]
  simp

theorem word_false_of {c : Char} (hd : isDigitCh c = false) (hl : isLowerCh c = false)
    (hu : isUpperCh c = false) (hn : c ≠ '_') : isWordCh c = false := by
  cases hw : isWordCh c
  · rfl
  · rcases wordCh_cases hw with h | h | h | h
    · rw [h] at hl; exact Bool.noConfusion hl
    · rw [h] at hu; exact Bool.noConfusion hu
    · rw [h] at hd; exact Bool.noConfusion hd
    · exact absurd h hn

theorem lower_not_space {c : Char} (h : isLowerCh c = true) :
    isSpaceCh c = false := by
  have hn : 97 ≤ c.toNat ∧ c.toNat ≤ 122 := by
    unfold isLowerCh at h
    simp only [Bool.and_eq_true, decide_eq_true_eq] at h
    exact ⟨h.1, h.2⟩
  cases hs : isSpaceCh c with
  | false => rfl
  | true =>
    exfalso
    unfold isSpaceCh at hs
    simp only [Bool.or_eq_true, beq_iff_eq, decide_eq_true_eq,
      Bool.and_eq_true] at hs
    omega

theorem space_class {c : Char} (h : isSpaceCh c = true) :
    isDigitCh c = false ∧ isLowerCh c = false := by
  constructor
  · cases hd : isDigitCh c
    · rfl
    · rw [digit_not_space hd] at h; exact Bool.noConfusion h
  · cases hl : isLowerCh c
    · rfl
    · rw [lower_not_space hl] at h; exact Bool.noConfusion h

/-- States of the run automaton that tracks whether every maximal digit run
of a string is protected against `/\b\d+(?:\.\d+)?\b/`: the previous
character was a lower-case letter (`letter`), the current digit run was
opened after a word character and is blocked on the left (`digitB`), the
current digit run was opened at a non-word position and must be blocked on
the right (`digitP`), or the previous character was neither letter nor
digit (`other`). -/
inductive RbSt : Type
  | letter : RbSt
  | digitB : RbSt
  | digitP : RbSt
  | other : RbSt
deriving DecidableEq

/-- One transition of the run automaton; `none` means a pending digit run
just ended without a blocking letter. -/
def rbStep (st : RbSt) (c : Char) : Option RbSt :=
  if isDigitCh c then
    some (match st with
      | RbSt.letter => RbSt.digitB
      | RbSt.digitB => RbSt.digitB
      | RbSt.digitP => RbSt.digitP
      | RbSt.other => RbSt.digitP)
  else if isLowerCh c then some RbSt.letter
  else
    match st with
    | RbSt.digitP => none
    | _ => some RbSt.other

/-- Run of the automaton over a string. -/
def rbS : RbSt → List Char → Option RbSt
  | st, [] => some st
  | st, c :: l =>
    match rbStep st c with
    | none => none
    | some st' => rbS st' l

/-- Every digit run of the string, entered in state `st`, is protected on
both sides against the boundary-delimited number pattern. -/
def rbOK (st : RbSt) (l : List Char) : Bool :=
  match rbS st l with
  | none => false
  | some st' => decide (st' ≠ RbSt.digitP)

theorem rbOK_nil (st : RbSt) : rbOK st [] = decide (st ≠ RbSt.digitP) := rfl

theorem rbOK_cons (st : RbSt) (c : Char) (l : List Char) :
    rbOK st (c :: l) =
      match rbStep st c with
      | none => false
      | some st' => rbOK st' l := by
  cases h : rbStep st c <;> simp [rbOK, rbS, h]

theorem rbS_append (st : RbSt) (l1 l2 : List Char) :
    rbS st (l1 ++ l2) =
      match rbS st l1 with
      | none => none
      | some st' => rbS st' l2 := by
  induction l1 generalizing st with
  | nil => rfl
  | cons c t ih =>
    simp only [List.cons_append, rbS]
    cases rbStep st c
    · rfl
    · exact ih _

/-- Unfolding of the number replacement on the empty string. -/
theorem replNums_nil (p : Option Char) : replNums p [] = [] := by
  simp only [replNums]

/-- Unfolding of the number replacement at a successful match. -/
theorem replNums_cons_some {p : Option Char} {c : Char} {rest : List Char}
    {n : ℕ} {lc : Char} (h : numMatchAt p (c :: rest) = some (n, lc)) :
    replNums p (c :: rest) = ' ' :: replNums (some lc) ((c :: rest).drop n) := by
  rw [replNums]
  split
  · rename_i n' lc' heq
    rw [h] at heq
    simp only [Option.some_inj, Prod.mk.injEq] at heq
    rw [heq.1, heq.2]
  · rename_i heq
    rw [h] at heq
    exact Option.noConfusion heq

/-- Unfolding of the number replacement at a failed match. -/
theorem replNums_cons_none {p : Option Char} {c : Char} {rest : List Char}
    (h : numMatchAt p (c :: rest) = none) :
    replNums p (c :: rest) = c :: replNums (some c) rest := by
  rw [replNums]
  split
  · rename_i n' lc' heq
    rw [h] at heq
    exact Option.noConfusion heq
  · rfl

/-- `\b` fails immediately after a word character. -/
theorem numMatchAt_word {p : Option Char} (h : isWordOpt p = true)
    (s : List Char) : numMatchAt p s = none := by
  unfold numMatchAt
  rw [if_pos h]

/-- The number pattern needs a digit at the match position. -/
theorem numMatchAt_nondigit {p : Option Char} {s : List Char}
    (h : headDigit s = false) : numMatchAt p s = none := by
  have he : s.takeWhile isDigitCh = [] := by
    cases s with
    | nil => rfl
    | cons c t =>
      simp only [headDigit] at h
      simp [List.takeWhile_cons, h]
  unfold numMatchAt
  split
  · rfl
  · simp [he]

theorem mem_dropWhile_mem {p : Char → Bool} : ∀ {l : List Char} {c : Char},
    c ∈ l.dropWhile p → c ∈ l := by
  intro l
  induction l with
  | nil => intro c h; simp [List.dropWhile] at h
  | cons a t ih =>
    intro c h
    rw [List.dropWhile_cons] at h
    split at h
    · exact List.mem_cons_of_mem a (ih h)
    · exact h

theorem mem_takeWhile_mem {p : Char → Bool} : ∀ {l : List Char} {c : Char},
    c ∈ l.takeWhile p → c ∈ l := by
  intro l
  induction l with
  | nil => intro c h; simp [List.takeWhile] at h
  | cons a t ih =>
    intro c h
    rw [List.takeWhile_cons] at h
    split at h
    · rcases List.mem_cons.mp h with h1 | h2
      · rw [h1]; exact List.mem_cons_self a t
      · exact List.mem_cons_of_mem a (ih h2)
    · simp at h

theorem dropWhile_head_neg {p : Char → Bool} : ∀ {l : List Char} {c : Char}
    {r : List Char}, l.dropWhile p = c :: r → p c = false := by
  intro l
  induction l with
  | nil => intro c r h; simp [List.dropWhile] at h
  | cons a t ih =>
    intro c r h
    rw [List.dropWhile_cons] at h
    split at h
    · exact ih h
    · rename_i hpa
      obtain ⟨h1, _⟩ := List.cons_eq_cons.mp h
      rw [← h1]
      exact bool_eq_false hpa

theorem getLast?_mem_of_eq : ∀ (l : List Char) (c : Char),
    l.getLast? = some c → c ∈ l := by
  intro l
  induction l with
  | nil => intro c h; simp at h
  | cons a t ih =>
    intro c h
    cases t with
    | nil =>
      simp only [List.getLast?_singleton, Option.some_inj] at h
      rw [← h]
      exact List.mem_cons_self a []
    | cons b t2 =>
      rw [List.getLast?_cons_cons] at h
      exact List.mem_cons_of_mem a (ih c h)

theorem getLast?_isSome_of_ne : ∀ (l : List Char), l ≠ [] →
    ∃ c, l.getLast? = some c := by
  intro l
  induction l with
  | nil => intro h; exact absurd rfl h
  | cons a t ih =>
    intro _
    cases t with
    | nil => exact ⟨a, by simp [List.getLast?_singleton]⟩
    | cons b t2 =>
      obtain ⟨c, hc⟩ := ih (by simp)
      exact ⟨c, by rw [List.getLast?_cons_cons]; exact hc⟩

theorem getLastD_digit {l : List Char} (hne : l ≠ [])
    (h : ∀ c ∈ l, isDigitCh c = true) :
    isDigitCh (l.getLast?.getD '0') = true := by
  obtain ⟨c, hc⟩ := getLast?_isSome_of_ne l hne
  rw [hc]
  exact h c (getLast?_mem_of_eq l c hc)

/-- After a successful number match the remaining input does not start with
a word character, and the reported last character is a digit. -/
theorem numMatchAt_after {p : Option Char} {s : List Char} {n : ℕ} {lc : Char}
    (h : numMatchAt p s = some (n, lc)) :
    wordHead (s.drop n) = false ∧ isDigitCh lc = true := by
  have hsplit : s.takeWhile isDigitCh ++ s.dropWhile isDigitCh = s :=
    List.takeWhile_append_dropWhile isDigitCh s
  have hdig : ∀ c ∈ s.takeWhile isDigitCh, isDigitCh c = true :=
    fun c hc => List.mem_takeWhile_imp hc
  unfold numMatchAt at h
  split at h
  · exact Option.noConfusion h
  · simp only at h
    split at h
    · exact Option.noConfusion h
    · rename_i hne
      have hdne : s.takeWhile isDigitCh ≠ [] := by
        intro hh; rw [hh] at hne; simp at hne
      split at h
      · rename_i r2 hr1
        have hdig2 : ∀ c ∈ r2.takeWhile isDigitCh, isDigitCh c = true :=
          fun c hc => List.mem_takeWhile_imp hc
        have hdropds : s.drop (s.takeWhile isDigitCh).length = '.' :: r2 := by
          nth_rewrite 2 [← hsplit]
          rw [List.drop_left, hr1]
        split at h
        · simp only [Option.some_inj, Prod.mk.injEq] at h
          obtain ⟨h1, h2⟩ := h
          constructor
          · rw [← h1, hdropds]
            exact (by decide : isWordCh '.' = false)
          · rw [← h2]
            exact getLastD_digit hdne hdig
        · split at h
          · simp only [Option.some_inj, Prod.mk.injEq] at h
            obtain ⟨h1, h2⟩ := h
            constructor
            · rw [← h1, hdropds]
              exact (by decide : isWordCh '.' = false)
            · rw [← h2]
              exact getLastD_digit hdne hdig
          · rename_i hfs hw3
            simp only [Option.some_inj, Prod.mk.injEq] at h
            obtain ⟨h1, h2⟩ := h
            have hfne : r2.takeWhile isDigitCh ≠ [] := by
              intro hh; rw [hh] at hfs; simp at hfs
            constructor
            · have hs2 : s = (s.takeWhile isDigitCh ++ '.' :: r2.takeWhile isDigitCh)
                  ++ r2.dropWhile isDigitCh := by
                rw [List.append_assoc, List.cons_append,
                  List.takeWhile_append_dropWhile, ← hr1, hsplit]
              have hlen : (s.takeWhile isDigitCh ++ '.' :: r2.takeWhile isDigitCh).length
                  = n := by
                simp only [List.length_append, List.length_cons]
                omega
              rw [hs2, ← hlen, List.drop_left]
              cases hbw : wordHead (r2.dropWhile isDigitCh)
              · rfl
              · exact absurd hbw hw3
            · rw [← h2]
              exact getLastD_digit hfne hdig2
      · split at h
        · exact Option.noConfusion h
        · rename_i hwr
          simp only [Option.some_inj, Prod.mk.injEq] at h
          obtain ⟨h1, h2⟩ := h
          constructor
          · have hdrop : s.drop n = s.dropWhile isDigitCh := by
              conv_lhs => rw [← hsplit]
              rw [← h1, List.drop_left]
            rw [hdrop]
            cases hbw : wordHead (s.dropWhile isDigitCh)
            · rfl
            · exact absurd hbw hwr
          · rw [← h2]
            exact getLastD_digit hdne hdig

/-- If the pattern fails at a digit that is not preceded by a word
character, the digit run must be followed by a word character; under the
character hypotheses that blocker is a lower-case letter. -/
theorem numMatchAt_none_blocked {p : Option Char} {c : Char} {rest : List Char}
    (hw : isWordOpt p = false) (hd : isDigitCh c = true)
    (hchars : ∀ a ∈ c :: rest, a ≠ '_' ∧ isUpperCh a = false)
    (h : numMatchAt p (c :: rest) = none) :
    ∃ c0 r0, (c :: rest).dropWhile isDigitCh = c0 :: r0 ∧ isLowerCh c0 = true := by
  unfold numMatchAt at h
  split at h
  · rename_i hcond
    rw [hw] at hcond
    exact Bool.noConfusion hcond
  · simp only at h
    split at h
    · rename_i hds
      rw [List.takeWhile_cons, if_pos hd] at hds
      simp at hds
    · split at h
      · rename_i r2 hr1
        split at h
        · exact Option.noConfusion h
        · split at h
          · exact Option.noConfusion h
          · exact Option.noConfusion h
      · split at h
        · rename_i hwh
          cases hr1 : (c :: rest).dropWhile isDigitCh with
          | nil =>
            rw [hr1] at hwh
            simp [wordHead] at hwh
          | cons c0 r0 =>
            refine ⟨c0, r0, rfl, ?_⟩
            rw [hr1] at hwh
            have hnd : isDigitCh c0 = false := dropWhile_head_neg hr1
            have hmem : c0 ∈ c :: rest := by
              apply mem_dropWhile_mem (p := isDigitCh)
              rw [hr1]
              exact List.mem_cons_self c0 r0
            obtain ⟨hnu, hup⟩ := hchars c0 hmem
            rcases wordCh_cases hwh with hlow | hup2 | hdg | heq
            · exact hlow
            · rw [hup2] at hup; exact Bool.noConfusion hup
            · rw [hdg] at hnd; exact Bool.noConfusion hnd
            · exact absurd heq hnu
        · exact Option.noConfusion h

theorem headDigit_false_of_wordHead {l : List Char} (h : wordHead l = false) :
    headDigit l = false := by
  cases l with
  | nil => rfl
  | cons c t =>
    simp only [wordHead] at h
    simp only [headDigit]
    cases hd : isDigitCh c
    · rfl
    · rw [word_of_digit hd] at h; exact Bool.noConfusion h

/-- Core invariant: whenever the automaton's entry conditions hold, the
output of the global number replacement has every digit run protected on
both sides. -/
theorem rbOK_replNums :
    ∀ (fuel : ℕ) (s : List Char) (p : Option Char) (st : RbSt),
      s.length ≤ fuel →
      (∀ c ∈ s, c ≠ '_' ∧ isUpperCh c = false) →
      (st = RbSt.letter → isWordOpt p = true) →
      (st = RbSt.digitB → isWordOpt p = true) →
      (st = RbSt.digitP → isWordOpt p = true ∧
        ∃ c0 r0, s.dropWhile isDigitCh = c0 :: r0 ∧ isLowerCh c0 = true) →
      (st = RbSt.other → isWordOpt p = true → headDigit s = false) →
      rbOK st (replNums p s) = true := by
  intro fuel
  induction fuel with
  | zero =>
    intro s p st hlen hchars hL hB hP hO
    have hs : s = [] := List.length_eq_zero.mp (Nat.le_zero.mp hlen)
    subst hs
    rw [replNums_nil, rbOK_nil]
    cases st
    · decide
    · decide
    · obtain ⟨_, c0, r0, habs, _⟩ := hP rfl
      exact absurd habs (by simp)
    · decide
  | succ m ih =>
    intro s p st hlen hchars hL hB hP hO
    cases s with
    | nil =>
      rw [replNums_nil, rbOK_nil]
      cases st
      · decide
      · decide
      · obtain ⟨_, c0, r0, habs, _⟩ := hP rfl
        exact absurd habs (by simp)
      · decide
    | cons c rest =>
      have hchars' : ∀ a ∈ rest, a ≠ '_' ∧ isUpperCh a = false :=
        fun a ha => hchars a (List.mem_cons_of_mem c ha)
      have hlen' : rest.length ≤ m := by
        simp only [List.length_cons] at hlen; omega
      by_cases hw : isWordOpt p = true
      · have hm : numMatchAt p (c :: rest) = none := numMatchAt_word hw _
        rw [replNums_cons_none hm, rbOK_cons]
        cases st with
        | letter =>
          by_cases hd : isDigitCh c = true
          · have hstep : rbStep RbSt.letter c = some RbSt.digitB := by
              unfold rbStep; rw [if_pos hd]
            rw [hstep]
            exact ih rest (some c) RbSt.digitB hlen' hchars'
              (fun h => nomatch h) (fun _ => word_of_digit hd)
              (fun h => nomatch h) (fun h => nomatch h)
          · by_cases hlo : isLowerCh c = true
            · have hstep : rbStep RbSt.letter c = some RbSt.letter := by
                unfold rbStep; rw [if_neg hd, if_pos hlo]
              rw [hstep]
              exact ih rest (some c) RbSt.letter hlen' hchars'
                (fun _ => word_of_lower hlo) (fun h => nomatch h)
                (fun h => nomatch h) (fun h => nomatch h)
            · have hstep : rbStep RbSt.letter c = some RbSt.other := by
                unfold rbStep; rw [if_neg hd, if_neg hlo]
              rw [hstep]
              refine ih rest (some c) RbSt.other hlen' hchars'
                (fun h => nomatch h) (fun h => nomatch h) (fun h => nomatch h) ?_
              intro _ hwc
              obtain ⟨hnu, hup⟩ := hchars c (List.mem_cons_self c rest)
              have hwc' : isWordCh c = true := hwc
              rw [word_false_of (bool_eq_false hd) (bool_eq_false hlo) hup hnu] at hwc'
              exact Bool.noConfusion hwc'
        | digitB =>
          by_cases hd : isDigitCh c = true
          · have hstep : rbStep RbSt.digitB c = some RbSt.digitB := by
              unfold rbStep; rw [if_pos hd]
            rw [hstep]
            exact ih rest (some c) RbSt.digitB hlen' hchars'
              (fun h => nomatch h) (fun _ => word_of_digit hd)
              (fun h => nomatch h) (fun h => nomatch h)
          · by_cases hlo : isLowerCh c = true
            · have hstep : rbStep RbSt.digitB c = some RbSt.letter := by
                unfold rbStep; rw [if_neg hd, if_pos hlo]
              rw [hstep]
              exact ih rest (some c) RbSt.letter hlen' hchars'
                (fun _ => word_of_lower hlo) (fun h => nomatch h)
                (fun h => nomatch h) (fun h => nomatch h)
            · have hstep : rbStep RbSt.digitB c = some RbSt.other := by
                unfold rbStep; rw [if_neg hd, if_neg hlo]
              rw [hstep]
              refine ih rest (some c) RbSt.other hlen' hchars'
                (fun h => nomatch h) (fun h => nomatch h) (fun h => nomatch h) ?_
              intro _ hwc
              obtain ⟨hnu, hup⟩ := hchars c (List.mem_cons_self c rest)
              have hwc' : isWordCh c = true := hwc
              rw [word_false_of (bool_eq_false hd) (bool_eq_false hlo) hup hnu] at hwc'
              exact Bool.noConfusion hwc'
        | digitP =>
          obtain ⟨hw2, c0, r0, hdw, hlow⟩ := hP rfl
          by_cases hd : isDigitCh c = true
          · have hstep : rbStep RbSt.digitP c = some RbSt.digitP := by
              unfold rbStep; rw [if_pos hd]
            rw [hstep]
            refine ih rest (some c) RbSt.digitP hlen' hchars'
              (fun h => nomatch h) (fun h => nomatch h) ?_ (fun h => nomatch h)
            intro _
            refine ⟨word_of_digit hd, c0, r0, ?_, hlow⟩
            rw [List.dropWhile_cons, if_pos hd] at hdw
            exact hdw
          · rw [List.dropWhile_cons, if_neg hd] at hdw
            obtain ⟨hc0, _⟩ := List.cons_eq_cons.mp hdw
            have hlo : isLowerCh c = true := by rw [hc0]; exact hlow
            have hstep : rbStep RbSt.digitP c = some RbSt.letter := by
              unfold rbStep; rw [if_neg hd, if_pos hlo]
            rw [hstep]
            exact ih rest (some c) RbSt.letter hlen' hchars'
              (fun _ => word_of_lower hlo) (fun h => nomatch h)
              (fun h => nomatch h) (fun h => nomatch h)
        | other =>
          by_cases hd : isDigitCh c = true
          · have hhd := hO rfl hw
            simp only [headDigit] at hhd
            rw [hd] at hhd
            exact Bool.noConfusion hhd
          · by_cases hlo : isLowerCh c = true
            · have hstep : rbStep RbSt.other c = some RbSt.letter := by
                unfold rbStep; rw [if_neg hd, if_pos hlo]
              rw [hstep]
              exact ih rest (some c) RbSt.letter hlen' hchars'
                (fun _ => word_of_lower hlo) (fun h => nomatch h)
                (fun h => nomatch h) (fun h => nomatch h)
            · have hstep : rbStep RbSt.other c = some RbSt.other := by
                unfold rbStep; rw [if_neg hd, if_neg hlo]
              rw [hstep]
              refine ih rest (some c) RbSt.other hlen' hchars'
                (fun h => nomatch h) (fun h => nomatch h) (fun h => nomatch h) ?_
              intro _ hwc
              obtain ⟨hnu, hup⟩ := hchars c (List.mem_cons_self c rest)
              have hwc' : isWordCh c = true := hwc
              rw [word_false_of (bool_eq_false hd) (bool_eq_false hlo) hup hnu] at hwc'
              exact Bool.noConfusion hwc'
      · have hwf : isWordOpt p = false := bool_eq_false hw
        cases st with
        | letter => exact absurd (hL rfl) hw
        | digitB => exact absurd (hB rfl) hw
        | digitP => exact absurd (hP rfl).1 hw
        | other =>
          by_cases hd : isDigitCh c = true
          · cases hm : numMatchAt p (c :: rest) with
            | some v =>
              obtain ⟨n, lc⟩ := v
              obtain ⟨hafter, hlcd⟩ := numMatchAt_after hm
              rw [replNums_cons_some hm, rbOK_cons]
              have hstep : rbStep RbSt.other ' ' = some RbSt.other := by decide
              rw [hstep]
              have hn := numMatchAt_pos hm
              refine ih ((c :: rest).drop n) (some lc) RbSt.other ?_ ?_
                (fun h => nomatch h) (fun h => nomatch h) (fun h => nomatch h) ?_
              · simp only [List.length_drop, List.length_cons]
                omega
              · intro a ha
                exact hchars a (List.mem_of_mem_drop ha)
              · intro _ _
                exact headDigit_false_of_wordHead hafter
            | none =>
              obtain ⟨c0, r0, hdw, hlow⟩ := numMatchAt_none_blocked hwf hd hchars hm
              rw [replNums_cons_none hm, rbOK_cons]
              have hstep : rbStep RbSt.other c = some RbSt.digitP := by
                unfold rbStep; rw [if_pos hd]
              rw [hstep]
              refine ih rest (some c) RbSt.digitP hlen' hchars'
                (fun h => nomatch h) (fun h => nomatch h) ?_ (fun h => nomatch h)
              intro _
              refine ⟨word_of_digit hd, c0, r0, ?_, hlow⟩
              rw [List.dropWhile_cons, if_pos hd] at hdw
              exact hdw
          · have hm : numMatchAt p (c :: rest) = none :=
              numMatchAt_nondigit (show headDigit (c :: rest) = false from bool_eq_false hd)
            rw [replNums_cons_none hm, rbOK_cons]
            by_cases hlo : isLowerCh c = true
            · have hstep : rbStep RbSt.other c = some RbSt.letter := by
                unfold rbStep; rw [if_neg hd, if_pos hlo]
              rw [hstep]
              exact ih rest (some c) RbSt.letter hlen' hchars'
                (fun _ => word_of_lower hlo) (fun h => nomatch h)
                (fun h => nomatch h) (fun h => nomatch h)
            · have hstep : rbStep RbSt.other c = some RbSt.other := by
                unfold rbStep; rw [if_neg hd, if_neg hlo]
              rw [hstep]
              refine ih rest (some c) RbSt.other hlen' hchars'
                (fun h => nomatch h) (fun h => nomatch h) (fun h => nomatch h) ?_
              intro _ hwc
              obtain ⟨hnu, hup⟩ := hchars c (List.mem_cons_self c rest)
              have hwc' : isWordCh c = true := hwc
              rw [word_false_of (bool_eq_false hd) (bool_eq_false hlo) hup hnu] at hwc'
              exact Bool.noConfusion hwc'

/-- In state `digitP` acceptance forces a lower-case blocker right after
the current digit run. -/
theorem rbOK_digitP_blocker : ∀ (l : List Char),
    rbOK RbSt.digitP l = true →
    ∃ c0 r0, l.dropWhile isDigitCh = c0 :: r0 ∧ isLowerCh c0 = true := by
  intro l
  induction l with
  | nil =>
    intro h
    rw [rbOK_nil] at h
    exact absurd h (by decide)
  | cons c t ih =>
    intro h
    rw [rbOK_cons] at h
    by_cases hd : isDigitCh c = true
    · have hstep : rbStep RbSt.digitP c = some RbSt.digitP := by
        unfold rbStep; rw [if_pos hd]
      rw [hstep] at h
      obtain ⟨c0, r0, hdw, hlow⟩ := ih h
      exact ⟨c0, r0, by rw [List.dropWhile_cons, if_pos hd]; exact hdw, hlow⟩
    · by_cases hlo : isLowerCh c = true
      · exact ⟨c, t, by rw [List.dropWhile_cons, if_neg hd], hlo⟩
      · have hstep : rbStep RbSt.digitP c = none := by
          unfold rbStep; rw [if_neg hd, if_neg hlo]
        rw [hstep] at h
        exact Bool.noConfusion h

/-- A digit run followed by a lower-case letter never matches the
boundary-delimited number pattern. -/
theorem numMatchAt_blocked {p : Option Char} {c : Char} {rest : List Char}
    (hw : isWordOpt p = false)
    (hbl : ∃ c0 r0, (c :: rest).dropWhile isDigitCh = c0 :: r0 ∧ isLowerCh c0 = true) :
    numMatchAt p (c :: rest) = none := by
  obtain ⟨c0, r0, hdw, hlow⟩ := hbl
  unfold numMatchAt
  split
  · rfl
  · simp only
    split
    · rfl
    · rw [hdw]
      split
      · rename_i r2 heq
        have hc0 : c0 = '.' := (List.cons_eq_cons.mp heq).1
        rw [hc0] at hlow
        exact absurd hlow (by decide)
      · rw [if_pos (show wordHead (c0 :: r0) = true from word_of_lower hlow)]

/-- On a string accepted by the automaton (with matching left context) the
global number replacement is the identity. -/
theorem replNums_id :
    ∀ (fuel : ℕ) (l : List Char) (p : Option Char) (st : RbSt),
      l.length ≤ fuel →
      (∀ a ∈ l, a ≠ '_' ∧ isUpperCh a = false) →
      rbOK st l = true →
      (st = RbSt.other → isWordOpt p = false) →
      (st ≠ RbSt.other → isWordOpt p = true) →
      replNums p l = l := by
  intro fuel
  induction fuel with
  | zero =>
    intro l p st hlen _ _ _ _
    have hl : l = [] := List.length_eq_zero.mp (Nat.le_zero.mp hlen)
    subst hl
    exact replNums_nil p
  | succ m ih =>
    intro l p st hlen hchars hok hpo hpn
    cases l with
    | nil => exact replNums_nil p
    | cons c rest =>
      have hchars' : ∀ a ∈ rest, a ≠ '_' ∧ isUpperCh a = false :=
        fun a ha => hchars a (List.mem_cons_of_mem c ha)
      have hlen' : rest.length ≤ m := by
        simp only [List.length_cons] at hlen; omega
      rw [rbOK_cons] at hok
      by_cases hd : isDigitCh c = true
      · by_cases hst : st = RbSt.other
        · subst hst
          have hw := hpo rfl
          have hstep : rbStep RbSt.other c = some RbSt.digitP := by
            unfold rbStep; rw [if_pos hd]
          rw [hstep] at hok
          obtain ⟨c0, r0, hdw, hlow⟩ := rbOK_digitP_blocker rest hok
          have hm : numMatchAt p (c :: rest) = none :=
            numMatchAt_blocked hw
              ⟨c0, r0, by rw [List.dropWhile_cons, if_pos hd]; exact hdw, hlow⟩
          rw [replNums_cons_none hm,
            ih rest (some c) RbSt.digitP hlen' hchars' hok
              (fun hq => nomatch hq) (fun _ => word_of_digit hd)]
        · have hw := hpn hst
          have hm : numMatchAt p (c :: rest) = none := numMatchAt_word hw _
          rw [replNums_cons_none hm]
          cases st with
          | other => exact absurd rfl hst
          | letter =>
            have hstep : rbStep RbSt.letter c = some RbSt.digitB := by
              unfold rbStep; rw [if_pos hd]
            rw [hstep] at hok
            rw [ih rest (some c) RbSt.digitB hlen' hchars' hok
              (fun hq => nomatch hq) (fun _ => word_of_digit hd)]
          | digitB =>
            have hstep : rbStep RbSt.digitB c = some RbSt.digitB := by
              unfold rbStep; rw [if_pos hd]
            rw [hstep] at hok
            rw [ih rest (some c) RbSt.digitB hlen' hchars' hok
              (fun hq => nomatch hq) (fun _ => word_of_digit hd)]
          | digitP =>
            have hstep : rbStep RbSt.digitP c = some RbSt.digitP := by
              unfold rbStep; rw [if_pos hd]
            rw [hstep] at hok
            rw [ih rest (some c) RbSt.digitP hlen' hchars' hok
              (fun hq => nomatch hq) (fun _ => word_of_digit hd)]
      · have hm : numMatchAt p (c :: rest) = none :=
          numMatchAt_nondigit (show headDigit (c :: rest) = false from bool_eq_false hd)
        rw [replNums_cons_none hm]
        by_cases hlo : isLowerCh c = true
        · have hstep : rbStep st c = some RbSt.letter := by
            unfold rbStep; rw [if_neg hd, if_pos hlo]
          rw [hstep] at hok
          rw [ih rest (some c) RbSt.letter hlen' hchars' hok
            (fun hq => nomatch hq) (fun _ => word_of_lower hlo)]
        · obtain ⟨hnu, hup⟩ := hchars c (List.mem_cons_self c rest)
          have hwc : isWordCh c = false :=
            word_false_of (bool_eq_false hd) (bool_eq_false hlo) hup hnu
          cases st with
          | digitP =>
            have hstep : rbStep RbSt.digitP c = none := by
              unfold rbStep; rw [if_neg hd, if_neg hlo]
            rw [hstep] at hok
            exact Bool.noConfusion hok
          | letter =>
            have hstep : rbStep RbSt.letter c = some RbSt.other := by
              unfold rbStep; rw [if_neg hd, if_neg hlo]
            rw [hstep] at hok
            rw [ih rest (some c) RbSt.other hlen' hchars' hok
              (fun _ => hwc) (fun hq => absurd rfl hq)]
          | digitB =>
            have hstep : rbStep RbSt.digitB c = some RbSt.other := by
              unfold rbStep; rw [if_neg hd, if_neg hlo]
            rw [hstep] at hok
            rw [ih rest (some c) RbSt.other hlen' hchars' hok
              (fun _ => hwc) (fun hq => absurd rfl hq)]
          | other =>
            have hstep : rbStep RbSt.other c = some RbSt.other := by
              unfold rbStep; rw [if_neg hd, if_neg hlo]
            rw [hstep] at hok
            rw [ih rest (some c) RbSt.other hlen' hchars' hok
              (fun _ => hwc) (fun hq => absurd rfl hq)]

theorem rbStep_space {st : RbSt} {c : Char} (h : isSpaceCh c = true)
    (hst : st ≠ RbSt.digitP) : rbStep st c = some RbSt.other := by
  obtain ⟨hd, hl⟩ := space_class h
  cases st with
  | digitP => exact absurd rfl hst
  | letter => unfold rbStep; rw [if_neg (by simp [hd]), if_neg (by simp [hl])]
  | digitB => unfold rbStep; rw [if_neg (by simp [hd]), if_neg (by simp [hl])]
  | other => unfold rbStep; rw [if_neg (by simp [hd]), if_neg (by simp [hl])]

theorem rbStep_space_digitP {c : Char} (h : isSpaceCh c = true) :
    rbStep RbSt.digitP c = none := by
  obtain ⟨hd, hl⟩ := space_class h
  unfold rbStep
  rw [if_neg (by simp [hd]), if_neg (by simp [hl])]

/-- Skipping leading whitespace does not change acceptance from `other`. -/
theorem rbOK_dropSpaces : ∀ (l : List Char),
    rbOK RbSt.other (l.dropWhile isSpaceCh) = rbOK RbSt.other l := by
  intro l
  induction l with
  | nil => rfl
  | cons c t ih =>
    rw [List.dropWhile_cons]
    split
    · rename_i hsp
      rw [ih, rbOK_cons, rbStep_space hsp (by decide)]
    · rfl

theorem rbOK_all_spaces : ∀ (sp : List Char) (st : RbSt),
    (∀ c ∈ sp, isSpaceCh c = true) →
    rbOK st sp = decide (st ≠ RbSt.digitP) := by
  intro sp
  induction sp with
  | nil => intro st _; rfl
  | cons c t ih =>
    intro st hall
    have hsp := hall c (List.mem_cons_self c t)
    have hrest : ∀ a ∈ t, isSpaceCh a = true :=
      fun a ha => hall a (List.mem_cons_of_mem c ha)
    rw [rbOK_cons]
    cases st with
    | digitP =>
      rw [rbStep_space_digitP hsp]
      exact (by decide : (false : Bool) = decide (RbSt.digitP ≠ RbSt.digitP))
    | other =>
      rw [rbStep_space hsp (by decide)]
      show rbOK RbSt.other t = decide (RbSt.other ≠ RbSt.digitP)
      rw [ih RbSt.other hrest]
    | letter =>
      rw [rbStep_space hsp (by decide)]
      show rbOK RbSt.other t = decide (RbSt.letter ≠ RbSt.digitP)
      rw [ih RbSt.other hrest]
      decide
    | digitB =>
      rw [rbStep_space hsp (by decide)]
      show rbOK RbSt.other t = decide (RbSt.digitB ≠ RbSt.digitP)
      rw [ih RbSt.other hrest]
      decide

/-- Trailing whitespace does not change acceptance. -/
theorem rbOK_append_spaces : ∀ (l sp : List Char) (st : RbSt),
    (∀ c ∈ sp, isSpaceCh c = true) →
    rbOK st (l ++ sp) = rbOK st l := by
  intro l
  induction l with
  | nil =>
    intro sp st h
    rw [List.nil_append, rbOK_all_spaces sp st h, rbOK_nil]
  | cons c t ih =>
    intro sp st h
    rw [List.cons_append, rbOK_cons, rbOK_cons]
    cases hstep : rbStep st c
    · rfl
    · exact ih sp _ h

set_option maxHeartbeats 1000000 in
/-- Unfolding of the whitespace collapse. -/
theorem collapseWS_nil : collapseWS [] = [] := by
  simp only [collapseWS]

set_option maxHeartbeats 1000000 in
/-- Unfolding of the whitespace collapse on a cons cell. -/
theorem collapseWS_cons (c : Char) (t : List Char) :
    collapseWS (c :: t) =
      if isSpaceCh c then ' ' :: collapseWS (t.dropWhile isSpaceCh)
      else c :: collapseWS t := by
  simp only [collapseWS]

/-- Collapsing whitespace runs does not change acceptance. -/
theorem rbOK_collapse : ∀ (fuel : ℕ) (l : List Char) (st : RbSt),
    l.length ≤ fuel →
    rbOK st (collapseWS l) = rbOK st l := by
  intro fuel
  induction fuel with
  | zero =>
    intro l st hlen
    have hl : l = [] := List.length_eq_zero.mp (Nat.le_zero.mp hlen)
    subst hl
    rw [collapseWS_nil]
  | succ m ih =>
    intro l st hlen
    cases l with
    | nil => rw [collapseWS_nil]
    | cons c t =>
      have hlt : t.length ≤ m := by
        simp only [List.length_cons] at hlen; omega
      rw [collapseWS_cons]
      by_cases hsp : isSpaceCh c = true
      · rw [if_pos hsp, rbOK_cons, rbOK_cons]
        cases st with
        | digitP => rw [rbStep_space_digitP (by decide), rbStep_space_digitP hsp]
        | other =>
          rw [rbStep_space (by decide) (by decide), rbStep_space hsp (by decide)]
          show rbOK RbSt.other (collapseWS (t.dropWhile isSpaceCh)) = rbOK RbSt.other t
          rw [ih (t.dropWhile isSpaceCh) RbSt.other
            (le_trans (length_dropWhile_le _ _) hlt), rbOK_dropSpaces]
        | letter =>
          rw [rbStep_space (by decide) (by decide), rbStep_space hsp (by decide)]
          show rbOK RbSt.other (collapseWS (t.dropWhile isSpaceCh)) = rbOK RbSt.other t
          rw [ih (t.dropWhile isSpaceCh) RbSt.other
            (le_trans (length_dropWhile_le _ _) hlt), rbOK_dropSpaces]
        | digitB =>
          rw [rbStep_space (by decide) (by decide), rbStep_space hsp (by decide)]
          show rbOK RbSt.other (collapseWS (t.dropWhile isSpaceCh)) = rbOK RbSt.other t
          rw [ih (t.dropWhile isSpaceCh) RbSt.other
            (le_trans (length_dropWhile_le _ _) hlt), rbOK_dropSpaces]
      · rw [if_neg hsp, rbOK_cons, rbOK_cons]
        cases hstep : rbStep st c
        · rfl
        · exact ih t _ hlt

theorem reverse_spaces_decomp (l : List Char) :
    ∃ sp, (∀ c ∈ sp, isSpaceCh c = true) ∧
      l = (l.reverse.dropWhile isSpaceCh).reverse ++ sp := by
  refine ⟨(l.reverse.takeWhile isSpaceCh).reverse, ?_, ?_⟩
  · intro c hc
    rw [List.mem_reverse] at hc
    exact List.mem_takeWhile_imp hc
  · conv_lhs => rw [← List.reverse_reverse l,
      ← List.takeWhile_append_dropWhile isSpaceCh l.reverse]
    rw [List.reverse_append]

/-- Trimming outer whitespace does not change acceptance from `other`. -/
theorem rbOK_trim (l : List Char) :
    rbOK RbSt.other (trimJS l) = rbOK RbSt.other l := by
  unfold trimJS
  obtain ⟨sp, hsp, hdec⟩ := reverse_spaces_decomp (l.dropWhile isSpaceCh)
  calc rbOK RbSt.other ((l.dropWhile isSpaceCh).reverse.dropWhile isSpaceCh).reverse
      = rbOK RbSt.other
          (((l.dropWhile isSpaceCh).reverse.dropWhile isSpaceCh).reverse ++ sp) :=
        (rbOK_append_spaces _ sp _ hsp).symm
    _ = rbOK RbSt.other (l.dropWhile isSpaceCh) := by rw [← hdec]
    _ = rbOK RbSt.other l := rbOK_dropSpaces l

theorem keepCh_digit (c : Char) : isDigitCh (keepCh c) = isDigitCh c := by
  unfold keepCh
  split
  · rfl
  · rename_i hcond
    simp only [Bool.or_eq_true, not_or] at hcond
    obtain ⟨⟨⟨_, hd⟩, _⟩, _⟩ := hcond
    rw [bool_eq_false hd]
    decide

theorem keepCh_lower (c : Char) : isLowerCh (keepCh c) = isLowerCh c := by
  unfold keepCh
  split
  · rfl
  · rename_i hcond
    simp only [Bool.or_eq_true, not_or] at hcond
    obtain ⟨⟨⟨hlo, _⟩, _⟩, _⟩ := hcond
    rw [show isLowerCh c = false from bool_eq_false hlo]
    decide

/-- The punctuation replacement does not change acceptance. -/
theorem rbOK_map_keep : ∀ (l : List Char) (st : RbSt),
    rbOK st (l.map keepCh) = rbOK st l := by
  intro l
  induction l with
  | nil => intro st; rfl
  | cons c t ih =>
    intro st
    rw [List.map_cons, rbOK_cons, rbOK_cons]
    have hstep : rbStep st (keepCh c) = rbStep st c := by
      unfold rbStep
      rw [keepCh_digit, keepCh_lower]
    rw [hstep]
    cases hs2 : rbStep st c
    · rfl
    · exact ih _

set_option maxHeartbeats 1000000 in
/-- Unfolding of `splitOnSpace` when no space occurs. -/
theorem splitOnSpace_eq_single {s : List Char}
    (h : s.dropWhile (fun c => !(c == ' ')) = []) :
    splitOnSpace s = [s.takeWhile (fun c => !(c == ' '))] := by
  rw [splitOnSpace]
  split
  · rfl
  · rename_i d rest heq
    rw [h] at heq
    exact List.noConfusion heq

set_option maxHeartbeats 1000000 in
/-- Unfolding of `splitOnSpace` at the first space. -/
theorem splitOnSpace_eq_cons {s : List Char} {d : Char} {rest : List Char}
    (h : s.dropWhile (fun c => !(c == ' ')) = d :: rest) :
    splitOnSpace s =
      s.takeWhile (fun c => !(c == ' ')) :: splitOnSpace rest := by
  rw [splitOnSpace]
  split
  · rename_i heq
    rw [h] at heq
    exact List.noConfusion heq
  · rename_i d' rest' heq
    rw [h] at heq
    obtain ⟨_, h2⟩ := List.cons_eq_cons.mp heq
    rw [h2]

theorem splitOnSpace_ne_nil (s : List Char) : splitOnSpace s ≠ [] := by
  cases h : s.dropWhile (fun c => !(c == ' ')) with
  | nil => rw [splitOnSpace_eq_single h]; simp
  | cons d rest => rw [splitOnSpace_eq_cons h]; simp

theorem joinSpace_cons {t : List Char} {ts : List (List Char)} (h : ts ≠ []) :
    joinSpace (t :: ts) = t ++ ' ' :: joinSpace ts := by
  cases ts with
  | nil => exact absurd rfl h
  | cons a l => rfl

/-- `join(" ")` undoes `split(" ")`. -/
theorem join_split : ∀ (fuel : ℕ) (s : List Char), s.length ≤ fuel →
    joinSpace (splitOnSpace s) = s := by
  intro fuel
  induction fuel with
  | zero =>
    intro s hlen
    have hs : s = [] := List.length_eq_zero.mp (Nat.le_zero.mp hlen)
    subst hs
    rw [splitOnSpace_eq_single (s := []) rfl]
    rfl
  | succ m ih =>
    intro s hlen
    cases hdw : s.dropWhile (fun c => !(c == ' ')) with
    | nil =>
      rw [splitOnSpace_eq_single hdw]
      have hst := List.takeWhile_append_dropWhile (fun c => !(c == ' ')) s
      rw [hdw, List.append_nil] at hst
      exact hst
    | cons d rest =>
      have hrl : rest.length ≤ m := by
        have h1 := length_dropWhile_le (fun c => !(c == ' ')) s
        rw [hdw] at h1
        simp only [List.length_cons] at h1
        omega
      rw [splitOnSpace_eq_cons hdw, joinSpace_cons (splitOnSpace_ne_nil rest),
        ih rest hrl]
      have hd : d = ' ' := by
        have hneg := dropWhile_head_neg hdw
        cases hb : d == ' '
        · rw [hb] at hneg; exact Bool.noConfusion hneg
        · exact eq_of_beq hb
      conv_rhs => rw [← List.takeWhile_append_dropWhile (fun c => !(c == ' ')) s, hdw]
      rw [hd]

theorem takeWhile_all {p : Char → Bool} : ∀ {l : List Char},
    (∀ c ∈ l, p c = true) → l.takeWhile p = l := by
  intro l
  induction l with
  | nil => intro _; rfl
  | cons a t ih =>
    intro h
    rw [List.takeWhile_cons, if_pos (h a (List.mem_cons_self a t)),
      ih (fun c hc => h c (List.mem_cons_of_mem a hc))]

theorem dropWhile_all {p : Char → Bool} : ∀ {l : List Char},
    (∀ c ∈ l, p c = true) → l.dropWhile p = [] := by
  intro l
  induction l with
  | nil => intro _; rfl
  | cons a t ih =>
    intro h
    rw [List.dropWhile_cons, if_pos (h a (List.mem_cons_self a t))]
    exact ih (fun c hc => h c (List.mem_cons_of_mem a hc))

theorem takeWhile_append_all {p : Char → Bool} : ∀ (l1 l2 : List Char),
    (∀ c ∈ l1, p c = true) →
    (l1 ++ l2).takeWhile p = l1 ++ l2.takeWhile p := by
  intro l1
  induction l1 with
  | nil => intro l2 _; rfl
  | cons a t ih =>
    intro l2 h
    rw [List.cons_append, List.takeWhile_cons,
      if_pos (h a (List.mem_cons_self a t)),
      ih l2 (fun c hc => h c (List.mem_cons_of_mem a hc)), List.cons_append]

theorem dropWhile_append_all {p : Char → Bool} : ∀ (l1 l2 : List Char),
    (∀ c ∈ l1, p c = true) →
    (l1 ++ l2).dropWhile p = l2.dropWhile p := by
  intro l1
  induction l1 with
  | nil => intro l2 _; rfl
  | cons a t ih =>
    intro l2 h
    rw [List.cons_append, List.dropWhile_cons,
      if_pos (h a (List.mem_cons_self a t))]
    exact ih l2 (fun c hc => h c (List.mem_cons_of_mem a hc))

/-- `split(" ")` undoes `join(" ")` on nonempty space-free tokens. -/
theorem split_join : ∀ (ts : List (List Char)),
    ts ≠ [] →
    (∀ t ∈ ts, t ≠ [] ∧ ∀ c ∈ t, (c == ' ') = false) →
    splitOnSpace (joinSpace ts) = ts := by
  intro ts
  induction ts with
  | nil => intro h _; exact absurd rfl h
  | cons t ts' ih =>
    intro _ hall
    obtain ⟨htne, htch⟩ := hall t (List.mem_cons_self t ts')
    have hpt : ∀ c ∈ t, (fun c => !(c == ' ')) c = true := by
      intro c hc
      show (!(c == ' ')) = true
      rw [htch c hc]
      rfl
    cases ts' with
    | nil =>
      show splitOnSpace t = [t]
      rw [splitOnSpace_eq_single (dropWhile_all hpt), takeWhile_all hpt]
    | cons t2 ts'' =>
      rw [joinSpace_cons (by simp)]
      have hdw : (t ++ ' ' :: joinSpace (t2 :: ts'')).dropWhile
          (fun c => !(c == ' ')) = ' ' :: joinSpace (t2 :: ts'') := by
        rw [dropWhile_append_all t _ hpt, List.dropWhile_cons]
        split
        · rename_i hcond
          simp at hcond
        · rfl
      rw [splitOnSpace_eq_cons hdw, takeWhile_append_all t _ hpt,
        List.takeWhile_cons]
      split
      · rename_i hcond
        simp at hcond
      · rw [List.append_nil,
          ih (by simp) (fun a ha => hall a (List.mem_cons_of_mem t ha))]

theorem rbOK_of_append_space {st : RbSt} {t r : List Char}
    (h : rbOK st (t ++ ' ' :: r) = true) :
    rbOK st t = true ∧ rbOK RbSt.other r = true := by
  unfold rbOK at *
  rw [rbS_append] at h
  cases h1 : rbS st t with
  | none => rw [h1] at h; exact Bool.noConfusion h
  | some st1 =>
    rw [h1] at h
    simp only [rbS] at h
    by_cases hst1 : st1 = RbSt.digitP
    · rw [hst1, rbStep_space_digitP (by decide)] at h
      exact Bool.noConfusion h
    · rw [rbStep_space (by decide) hst1] at h
      constructor
      · simp [hst1]
      · exact h

theorem rbOK_append_space {st : RbSt} {t r : List Char}
    (h1 : rbOK st t = true) (h2 : rbOK RbSt.other r = true) :
    rbOK st (t ++ ' ' :: r) = true := by
  unfold rbOK at *
  rw [rbS_append]
  cases hs1 : rbS st t with
  | none => rw [hs1] at h1; exact Bool.noConfusion h1
  | some st1 =>
    rw [hs1] at h1
    have hst1 : st1 ≠ RbSt.digitP := of_decide_eq_true h1
    simp only [rbS]
    rw [rbStep_space (by decide) hst1]
    exact h2

/-- Acceptance of a join gives acceptance of every token. -/
theorem rbOK_tokens : ∀ (ts : List (List Char)),
    rbOK RbSt.other (joinSpace ts) = true →
    ∀ t ∈ ts, rbOK RbSt.other t = true := by
  intro ts
  induction ts with
  | nil => intro _ t ht; simp at ht
  | cons t0 ts' ih =>
    intro h t ht
    cases ts' with
    | nil =>
      rcases List.mem_cons.mp ht with h1 | h2
      · rw [h1]; exact h
      · simp at h2
    | cons t2 ts'' =>
      rw [joinSpace_cons (by simp)] at h
      obtain ⟨ha, hb⟩ := rbOK_of_append_space h
      rcases List.mem_cons.mp ht with h1 | h2
      · rw [h1]; exact ha
      · exact ih hb t h2

/-- Acceptance of every token gives acceptance of the join. -/
theorem rbOK_join : ∀ (ts : List (List Char)),
    (∀ t ∈ ts, rbOK RbSt.other t = true) →
    rbOK RbSt.other (joinSpace ts) = true := by
  intro ts
  induction ts with
  | nil => intro _; decide
  | cons t0 ts' ih =>
    intro h
    cases ts' with
    | nil => exact h t0 (List.mem_cons_self t0 [])
    | cons t2 ts'' =>
      rw [joinSpace_cons (by simp)]
      exact rbOK_append_space (h t0 (List.mem_cons_self t0 _))
        (ih (fun t ht => h t (List.mem_cons_of_mem t0 ht)))

theorem mem_of_head? : ∀ {l : List Char} {c : Char}, l.head? = some c → c ∈ l := by
  intro l c h
  cases l with
  | nil => simp at h
  | cons a t =>
    have : a = c := by simpa using h
    rw [← this]
    exact List.mem_cons_self a t

theorem dropWhile_eq_self_head {p : Char → Bool} {l : List Char}
    (h : ∀ c, l.head? = some c → p c = false) : l.dropWhile p = l := by
  cases l with
  | nil => rfl
  | cons a t => rw [List.dropWhile_cons, if_neg (by simp [h a rfl])]

/-- `trim` is the identity on space-free strings. -/
theorem trimJS_eq_self {t : List Char} (h : ∀ c ∈ t, isSpaceCh c = false) :
    trimJS t = t := by
  unfold trimJS
  rw [dropWhile_eq_self_head (fun c hc => h c (mem_of_head? hc))]
  rw [dropWhile_eq_self_head (fun c hc => h c (by
    have hm := mem_of_head? hc
    rw [List.mem_reverse] at hm
    exact hm))]
  exact List.reverse_reverse t

/-- The characters of a join are the separators and the token characters. -/
theorem mem_joinSpace : ∀ {ts : List (List Char)} {c : Char},
    c ∈ joinSpace ts → c = ' ' ∨ ∃ t, t ∈ ts ∧ c ∈ t := by
  intro ts
  induction ts with
  | nil => intro c h; simp [joinSpace] at h
  | cons t ts' ih =>
    intro c h
    cases ts' with
    | nil => exact Or.inr ⟨t, by simp, h⟩
    | cons t2 ts'' =>
      rw [joinSpace_cons (by simp)] at h
      rcases List.mem_append.mp h with h1 | h2
      · exact Or.inr ⟨t, by simp, h1⟩
      · rcases List.mem_cons.mp h2 with h3 | h4
        · exact Or.inl h3
        · rcases ih h4 with h5 | ⟨t3, ht3, hc3⟩
          · exact Or.inl h5
          · exact Or.inr ⟨t3, List.mem_cons_of_mem t ht3, hc3⟩

/-- Characters of the collapsed string: the inserted separators and the
non-space characters of the input. -/
theorem mem_collapseWS : ∀ (fuel : ℕ) (l : List Char) (c : Char),
    l.length ≤ fuel →
    c ∈ collapseWS l → c = ' ' ∨ (c ∈ l ∧ isSpaceCh c = false) := by
  intro fuel
  induction fuel with
  | zero =>
    intro l c hlen h
    have hl : l = [] := List.length_eq_zero.mp (Nat.le_zero.mp hlen)
    subst hl
    rw [collapseWS_nil] at h
    simp at h
  | succ m ih =>
    intro l c hlen h
    cases l with
    | nil => rw [collapseWS_nil] at h; simp at h
    | cons a t =>
      have hlt : t.length ≤ m := by
        simp only [List.length_cons] at hlen; omega
      rw [collapseWS_cons] at h
      split at h
      · rcases List.mem_cons.mp h with h1 | h2
        · exact Or.inl h1
        · rcases ih (t.dropWhile isSpaceCh) c
            (le_trans (length_dropWhile_le _ _) hlt) h2 with h3 | ⟨h4, h5⟩
          · exact Or.inl h3
          · exact Or.inr ⟨List.mem_cons_of_mem a (mem_dropWhile_mem h4), h5⟩
      · rename_i hnsp
        rcases List.mem_cons.mp h with h1 | h2
        · exact Or.inr ⟨by rw [h1]; exact List.mem_cons_self a t,
            by rw [h1]; exact bool_eq_false hnsp⟩
        · rcases ih t c hlt h2 with h3 | ⟨h4, h5⟩
          · exact Or.inl h3
          · exact Or.inr ⟨List.mem_cons_of_mem a h4, h5⟩

theorem mem_trimJS {l : List Char} {c : Char} (h : c ∈ trimJS l) : c ∈ l := by
  unfold trimJS at h
  rw [List.mem_reverse] at h
  have h2 := mem_dropWhile_mem h
  rw [List.mem_reverse] at h2
  exact mem_dropWhile_mem h2

/-- Token characters come from the split string and are not spaces. -/
theorem splitOnSpace_chars : ∀ (fuel : ℕ) (s : List Char), s.length ≤ fuel →
    ∀ t ∈ splitOnSpace s, ∀ c ∈ t, c ∈ s ∧ (c == ' ') = false := by
  intro fuel
  induction fuel with
  | zero =>
    intro s hlen t ht c hc
    have hs : s = [] := List.length_eq_zero.mp (Nat.le_zero.mp hlen)
    subst hs
    rw [splitOnSpace_eq_single (s := []) rfl] at ht
    rcases List.mem_cons.mp ht with h1 | h2
    · rw [h1] at hc; simp [List.takeWhile] at hc
    · simp at h2
  | succ m ih =>
    intro s hlen t ht c hc
    cases hdw : s.dropWhile (fun c => !(c == ' ')) with
    | nil =>
      rw [splitOnSpace_eq_single hdw] at ht
      rcases List.mem_cons.mp ht with h1 | h2
      · rw [h1] at hc
        refine ⟨mem_takeWhile_mem hc, ?_⟩
        have := List.mem_takeWhile_imp hc
        cases hb : c == ' '
        · rfl
        · rw [hb] at this; exact Bool.noConfusion this
      · simp at h2
    | cons d rest =>
      have hrl : rest.length ≤ m := by
        have h1 := length_dropWhile_le (fun c => !(c == ' ')) s
        rw [hdw] at h1
        simp only [List.length_cons] at h1
        omega
      rw [splitOnSpace_eq_cons hdw] at ht
      rcases List.mem_cons.mp ht with h1 | h2
      · rw [h1] at hc
        refine ⟨mem_takeWhile_mem hc, ?_⟩
        have := List.mem_takeWhile_imp hc
        cases hb : c == ' '
        · rfl
        · rw [hb] at this; exact Bool.noConfusion this
      · obtain ⟨hmem, hsp⟩ := ih rest hrl t h2 c hc
        refine ⟨?_, hsp⟩
        apply mem_dropWhile_mem (p := fun c => !(c == ' '))
        rw [hdw]
        exact List.mem_cons_of_mem d hmem

theorem collapseWS_append_nospace : ∀ (t l : List Char),
    (∀ c ∈ t, isSpaceCh c = false) →
    collapseWS (t ++ l) = t ++ collapseWS l := by
  intro t
  induction t with
  | nil => intro l _; rfl
  | cons c t' ih =>
    intro l hall
    rw [List.cons_append, collapseWS_cons,
      if_neg (by simp [hall c (List.mem_cons_self c t')]),
      ih l (fun a ha => hall a (List.mem_cons_of_mem c ha)), List.cons_append]

theorem join_shape (a : Char) (t2' : List Char) (ts'' : List (List Char)) :
    ∃ r, joinSpace ((a :: t2') :: ts'') = a :: r := by
  cases ts'' with
  | nil => exact ⟨t2', rfl⟩
  | cons u us => exact ⟨t2' ++ ' ' :: joinSpace (u :: us), rfl⟩

/-- The whitespace collapse is the identity on joins of nonempty space-free
tokens. -/
theorem collapse_join : ∀ (ts : List (List Char)),
    (∀ t ∈ ts, t ≠ [] ∧ ∀ c ∈ t, isSpaceCh c = false) →
    collapseWS (joinSpace ts) = joinSpace ts := by
  intro ts
  induction ts with
  | nil => intro _; exact collapseWS_nil
  | cons t ts' ih =>
    intro hall
    obtain ⟨htne, htch⟩ := hall t (List.mem_cons_self t ts')
    cases ts' with
    | nil =>
      show collapseWS t = t
      have h := collapseWS_append_nospace t [] htch
      rw [List.append_nil, collapseWS_nil, List.append_nil] at h
      exact h
    | cons t2 ts'' =>
      rw [joinSpace_cons (by simp), collapseWS_append_nospace t _ htch]
      congr 1
      rw [collapseWS_cons, if_pos (by decide)]
      congr 1
      obtain ⟨ht2ne, ht2ch⟩ := hall t2 (by simp)
      have hhead : (joinSpace (t2 :: ts'')).dropWhile isSpaceCh
          = joinSpace (t2 :: ts'') := by
        cases ht2 : t2 with
        | nil => exact absurd ht2 ht2ne
        | cons a t2' =>
          obtain ⟨r2, hja⟩ := join_shape a t2' ts''
          rw [hja, List.dropWhile_cons, if_neg ?hna]
          case hna =>
            have ha := ht2ch a (by rw [ht2]; exact List.mem_cons_self a t2')
            simp [ha]
      rw [hhead]
      exact ih (fun a ha => hall a (List.mem_cons_of_mem t ha))

theorem getLast?_append_right : ∀ (l1 l2 : List Char), l2 ≠ [] →
    (l1 ++ l2).getLast? = l2.getLast? := by
  intro l1
  induction l1 with
  | nil => intro l2 _; rfl
  | cons a t ih =>
    intro l2 h
    rw [List.cons_append]
    have htl : t ++ l2 ≠ [] := by
      intro hh
      rcases List.append_eq_nil.mp hh with ⟨_, h2⟩
      exact h h2
    cases hc : t ++ l2 with
    | nil => exact absurd hc htl
    | cons b r =>
      rw [List.getLast?_cons_cons, ← hc, ih l2 h]

/-- The last character of a join of nonempty tokens is a token character. -/
theorem join_getLast : ∀ (ts : List (List Char)), ts ≠ [] →
    (∀ t ∈ ts, t ≠ []) →
    ∃ c, (joinSpace ts).getLast? = some c ∧ ∃ t, t ∈ ts ∧ c ∈ t := by
  intro ts
  induction ts with
  | nil => intro h _; exact absurd rfl h
  | cons t ts' ih =>
    intro _ hne2
    cases ts' with
    | nil =>
      have htne := hne2 t (by simp)
      obtain ⟨c, hc⟩ := getLast?_isSome_of_ne t htne
      exact ⟨c, hc, t, by simp, getLast?_mem_of_eq t c hc⟩
    | cons t2 ts'' =>
      obtain ⟨c, hc1, t3, ht3, hc3⟩ :=
        ih (by simp) (fun a ha => hne2 a (List.mem_cons_of_mem t ha))
      refine ⟨c, ?_, t3, List.mem_cons_of_mem t ht3, hc3⟩
      rw [joinSpace_cons (by simp),
        getLast?_append_right t _ (by simp)]
      have hjne : joinSpace (t2 :: ts'') ≠ [] := by
        have ht2ne := hne2 t2 (by simp)
        cases ht2 : t2 with
        | nil => exact absurd ht2 ht2ne
        | cons a t2' =>
          obtain ⟨r2, hja⟩ := join_shape a t2' ts''
          rw [hja]
          simp
      cases hj : joinSpace (t2 :: ts'') with
      | nil => exact absurd hj hjne
      | cons b r =>
        rw [List.getLast?_cons_cons, ← hj]
        exact hc1

/-- `trim` is the identity on joins of nonempty space-free tokens. -/
theorem trim_join (ts : List (List Char)) (hne : ts ≠ [])
    (hall : ∀ t ∈ ts, t ≠ [] ∧ ∀ c ∈ t, isSpaceCh c = false) :
    trimJS (joinSpace ts) = joinSpace ts := by
  unfold trimJS
  have h1 : (joinSpace ts).dropWhile isSpaceCh = joinSpace ts := by
    cases hts : ts with
    | nil => exact absurd hts hne
    | cons t ts' =>
      obtain ⟨htne, htch⟩ := hall t (by rw [hts]; exact List.mem_cons_self t ts')
      cases ht : t with
      | nil => exact absurd ht htne
      | cons a t' =>
        obtain ⟨r2, hja⟩ := join_shape a t' ts'
        rw [hja, List.dropWhile_cons, if_neg ?hna2]
        case hna2 =>
          have ha := htch a (by rw [ht]; exact List.mem_cons_self a t')
          simp [ha]
  rw [h1]
  obtain ⟨c, hc1, t3, ht3, hc3⟩ :=
    join_getLast ts hne (fun t ht => (hall t ht).1)
  have h2 : (joinSpace ts).reverse.dropWhile isSpaceCh
      = (joinSpace ts).reverse := by
    apply dropWhile_eq_self_head
    intro c0 hc0
    rw [List.head?_reverse] at hc0
    rw [hc1] at hc0
    have hcc : c = c0 := by simpa using hc0
    rw [← hcc]
    exact (hall t3 ht3).2 c hc3
  rw [h2]
  exact List.reverse_reverse _

/-- Characters of the budget-symbol replacement output. -/
theorem replDollarOp_facts : ∀ (fuel : ℕ) (l : List Char), l.length ≤ fuel →
    (∀ c ∈ replDollarOp l, c = ' ' ∨ c ∈ l) ∧
    ((∀ c ∈ l, (c == '$' || c == '<' || c == '>') = false) →
      replDollarOp l = l) := by
  intro fuel
  induction fuel with
  | zero =>
    intro l hlen
    have hl : l = [] := List.length_eq_zero.mp (Nat.le_zero.mp hlen)
    subst hl
    exact ⟨fun c hc => by simp [replDollarOp] at hc, fun _ => rfl⟩
  | succ m ih =>
    intro l hlen
    cases l with
    | nil => exact ⟨fun c hc => by simp [replDollarOp] at hc, fun _ => rfl⟩
    | cons c rest =>
      cases rest with
      | nil =>
        have e1 : replDollarOp [c] =
            if c == '$' || c == '<' || c == '>' then [' '] else [c] := rfl
        constructor
        · intro a ha
          rw [e1] at ha
          split at ha
          · simp at ha
            exact Or.inl ha
          · simp at ha
            exact Or.inr (by simp [ha])
        · intro hcl
          rw [e1, if_neg (by simp [hcl c (List.mem_cons_self c [])])]
      | cons d r =>
        have hlen2 : r.length + 1 ≤ m := by
          simp only [List.length_cons] at hlen; omega
        by_cases hd : d = '='
        · subst hd
          have e2 : replDollarOp (c :: '=' :: r) =
              if c == '$' || c == '<' || c == '>' then ' ' :: replDollarOp r
              else c :: replDollarOp ('=' :: r) := rfl
          obtain ⟨ihr1, ihr2⟩ := ih r (by omega)
          obtain ⟨ihe1, ihe2⟩ := ih ('=' :: r) (by simpa using hlen2)
          constructor
          · intro a ha
            rw [e2] at ha
            split at ha
            · rcases List.mem_cons.mp ha with h1 | h2
              · exact Or.inl h1
              · rcases ihr1 a h2 with h3 | h4
                · exact Or.inl h3
                · exact Or.inr (by simp [h4])
            · rcases List.mem_cons.mp ha with h1 | h2
              · exact Or.inr (by simp [h1])
              · rcases ihe1 a h2 with h3 | h4
                · exact Or.inl h3
                · exact Or.inr (by simpa using Or.inr h4)
          · intro hcl
            rw [e2, if_neg (by simp [hcl c (List.mem_cons_self c _)]),
              ihe2 (fun a ha => hcl a (List.mem_cons_of_mem c ha))]
        · have e3 : replDollarOp (c :: d :: r) =
              if c == '$' || c == '<' || c == '>' then ' ' :: replDollarOp (d :: r)
              else c :: replDollarOp (d :: r) := by
            conv_lhs => rw [replDollarOp.eq_def]
            split
            · rename_i heq
              exact List.noConfusion heq
            · rename_i c' r' heq
              obtain ⟨h1, h2⟩ := List.cons_eq_cons.mp heq
              obtain ⟨h3, _⟩ := List.cons_eq_cons.mp h2
              exact absurd h3 hd
            · next c2 rest2 hno heq =>
              obtain ⟨h1, h2⟩ := List.cons_eq_cons.mp heq
              rw [← h1, ← h2]
          obtain ⟨ihd1, ihd2⟩ := ih (d :: r) (by simpa using hlen2)
          constructor
          · intro a ha
            rw [e3] at ha
            split at ha
            · rcases List.mem_cons.mp ha with h1 | h2
              · exact Or.inl h1
              · rcases ihd1 a h2 with h3 | h4
                · exact Or.inl h3
                · exact Or.inr (List.mem_cons_of_mem c h4)
            · rcases List.mem_cons.mp ha with h1 | h2
              · exact Or.inr (by simp [h1])
              · rcases ihd1 a h2 with h3 | h4
                · exact Or.inl h3
                · exact Or.inr (List.mem_cons_of_mem c h4)
          · intro hcl
            rw [e3, if_neg (by simp [hcl c (List.mem_cons_self c _)]),
              ihd2 (fun a ha => hcl a (List.mem_cons_of_mem c ha))]

/-- `toLower` never produces an upper-case basic latin letter. -/
theorem toLower_not_upper (c : Char) : isUpperCh c.toLower = false := by
  unfold Char.toLower
  by_cases h : c.toNat ≥ 65 ∧ c.toNat ≤ 90
  · rw [if_pos h]
    have hn := charOfNat_toNat (n := c.toNat + 32) (by omega) (by omega)
    cases hu : isUpperCh (Char.ofNat (c.toNat + 32))
    · rfl
    · exfalso
      unfold isUpperCh at hu
      simp only [Bool.and_eq_true, decide_eq_true_eq] at hu
      obtain ⟨h1, h2⟩ := hu
      have h1' : 65 ≤ (Char.ofNat (c.toNat + 32)).toNat := h1
      have h2' : (Char.ofNat (c.toNat + 32)).toNat ≤ 90 := h2
      omega
  · rw [if_neg h]
    cases hu : isUpperCh c
    · rfl
    · exfalso
      unfold isUpperCh at hu
      simp only [Bool.and_eq_true, decide_eq_true_eq] at hu
      obtain ⟨h1, h2⟩ := hu
      have h1' : 65 ≤ c.toNat := h1
      have h2' : c.toNat ≤ 90 := h2
      omega

/-- Only the underscore lower-cases to an underscore. -/
theorem toLower_eq_underscore {c : Char} (h : c.toLower = '_') : c = '_' := by
  rcases toLower_cases c with hc | ⟨h1, h2, h3⟩
  · rw [← hc, h]
  · rw [h] at h3
    have : Char.toNat '_' = 95 := by decide
    omega

/-- Characters fixed by `toLower` because they lie outside `[A-Z]`. -/
theorem toLower_fix {c : Char} (h : c.toNat < 65 ∨ 90 < c.toNat) :
    c.toLower = c := by
  unfold Char.toLower
  rw [if_neg (by omega)]

theorem isLowerCh_toNat {c : Char} (h : isLowerCh c = true) :
    97 ≤ c.toNat ∧ c.toNat ≤ 122 := by
  unfold isLowerCh at h
  simp only [Bool.and_eq_true, decide_eq_true_eq] at h
  exact ⟨h.1, h.2⟩

theorem isDigitCh_toNat {c : Char} (h : isDigitCh c = true) :
    48 ≤ c.toNat ∧ c.toNat ≤ 57 := by
  unfold isDigitCh at h
  simp only [Bool.and_eq_true, decide_eq_true_eq] at h
  exact ⟨h.1, h.2⟩

/-- Class of an output character of the punctuation replacement. -/
theorem keepCh_classes (c : Char) :
    isLowerCh (keepCh c) = true ∨ isDigitCh (keepCh c) = true ∨
    isSpaceCh (keepCh c) = true ∨ keepCh c = '-' := by
  unfold keepCh
  split
  · rename_i hcond
    simp only [Bool.or_eq_true] at hcond
    rcases hcond with ((h1 | h2) | h3) | h4
    · exact Or.inl h1
    · exact Or.inr (Or.inl h2)
    · exact Or.inr (Or.inr (Or.inl h3))
    · exact Or.inr (Or.inr (Or.inr (by simpa using h4)))
  · exact Or.inr (Or.inr (Or.inl (by decide)))

/-- The punctuation replacement keeps spaces, hyphens, digits and letters. -/
theorem keepCh_id {c : Char}
    (h : c = ' ' ∨ c = '-' ∨ isDigitCh c = true ∨ isLowerCh c = true) :
    keepCh c = c := by
  unfold keepCh
  rcases h with h | h | h | h
  · subst h; rw [if_pos (by decide)]
  · subst h; rw [if_pos (by decide)]
  · rw [if_pos (by simp [h])]
  · rw [if_pos (by unfold isLowerCh at h; simp [h])]

theorem map_id_of_mem {f : Char → Char} : ∀ {l : List Char},
    (∀ c ∈ l, f c = c) → l.map f = l := by
  intro l
  induction l with
  | nil => intro _; rfl
  | cons a t ih =>
    intro h
    rw [List.map_cons, h a (List.mem_cons_self a t),
      ih (fun c hc => h c (List.mem_cons_of_mem a hc))]

/-- The string after the second collapse/trim of `deriveQuery`. -/
def dqStage6 (text : String) : List Char :=
  trimJS (collapseWS ((trimJS (collapseWS (replNums none
    (replDollarOp (text.data.map Char.toLower))))).map keepCh))

/-- The token list built by `deriveQuery`. -/
def dqToks (text : String) : List (List Char) :=
  ((splitOnSpace (dqStage6 text)).map trimJS).filter goodTok

/-- `deriveQuery` is the join of its token list. -/
theorem deriveQuery_eq (text : String) :
    deriveQuery text = String.mk (joinSpace (dqToks text)) := rfl

theorem dqToks_def (t : String) : dqToks t =
    ((splitOnSpace (dqStage6 t)).map trimJS).filter goodTok := rfl

theorem dqToks_good (text : String) : ∀ t ∈ dqToks text, goodTok t = true :=
  fun t ht => (List.mem_filter.mp ht).2

theorem dqToks_ne_nil (text : String) : ∀ t ∈ dqToks text, t ≠ [] := by
  intro t ht h
  have hg := dqToks_good text t ht
  rw [h] at hg
  simp [goodTok] at hg

/-- Character classes appearing after the punctuation replacement and the
final collapse/trim. -/
theorem dqStage6_chars (text : String) : ∀ c ∈ dqStage6 text,
    c = ' ' ∨ (isSpaceCh c = false ∧
      (isLowerCh c = true ∨ isDigitCh c = true ∨ c = '-')) := by
  intro c hc
  unfold dqStage6 at hc
  have h1 := mem_trimJS hc
  rcases mem_collapseWS _ _ c le_rfl h1 with h2 | ⟨h3, h4⟩
  · exact Or.inl h2
  · right
    refine ⟨h4, ?_⟩
    obtain ⟨a, _, ha2⟩ := List.mem_map.mp h3
    rcases keepCh_classes a with h5 | h5 | h5 | h5
    · rw [ha2] at h5; exact Or.inl h5
    · rw [ha2] at h5; exact Or.inr (Or.inl h5)
    · rw [ha2] at h5; rw [h5] at h4; exact Bool.noConfusion h4
    · rw [ha2] at h5; exact Or.inr (Or.inr h5)

/-- Characters of the final tokens: non-space letters, digits or hyphens. -/
theorem dqToks_chars (text : String) : ∀ t ∈ dqToks text, ∀ c ∈ t,
    isSpaceCh c = false ∧
      (isLowerCh c = true ∨ isDigitCh c = true ∨ c = '-') := by
  intro t ht c hc
  unfold dqToks at ht
  obtain ⟨t0, ht0, htt⟩ := List.mem_map.mp (List.mem_filter.mp ht).1
  have hct0 : c ∈ t0 := by
    rw [← htt] at hc
    exact mem_trimJS hc
  obtain ⟨hmem, hnsp⟩ := splitOnSpace_chars _ _ le_rfl t0 ht0 c hct0
  rcases dqStage6_chars text c hmem with h1 | ⟨h2, h3⟩
  · exfalso
    rw [h1] at hnsp
    simp at hnsp
  · exact ⟨h2, h3⟩

/-- Every final token is accepted by the run automaton. -/
theorem dqToks_rbOK (text : String) (hund : '_' ∉ text.data) :
    ∀ t ∈ dqToks text, rbOK RbSt.other t = true := by
  have hq2 : ∀ c ∈ replDollarOp (text.data.map Char.toLower),
      c ≠ '_' ∧ isUpperCh c = false := by
    intro c hc
    rcases (replDollarOp_facts _ _ le_rfl).1 c hc with h1 | h2
    · subst h1
      exact ⟨by decide, by decide⟩
    · obtain ⟨a, ha1, ha2⟩ := List.mem_map.mp h2
      constructor
      · intro he
        rw [← ha2] at he
        exact hund (toLower_eq_underscore he ▸ ha1)
      · rw [← ha2]
        exact toLower_not_upper a
  have hq3 : rbOK RbSt.other (replNums none
      (replDollarOp (text.data.map Char.toLower))) = true :=
    rbOK_replNums _ _ none RbSt.other le_rfl hq2
      (fun h => nomatch h) (fun h => nomatch h) (fun h => nomatch h)
      (fun _ h => Bool.noConfusion h)
  have hq6 : rbOK RbSt.other (dqStage6 text) = true := by
    unfold dqStage6
    rw [rbOK_trim, rbOK_collapse _ _ _ le_rfl, rbOK_map_keep,
      rbOK_trim, rbOK_collapse _ _ _ le_rfl]
    exact hq3
  have hsplit : ∀ t ∈ splitOnSpace (dqStage6 text), rbOK RbSt.other t = true := by
    apply rbOK_tokens
    rw [join_split _ _ le_rfl]
    exact hq6
  intro t ht
  obtain ⟨t0, ht0, htt⟩ := List.mem_map.mp (List.mem_filter.mp ht).1
  rw [← htt, rbOK_trim]
  exact hsplit t0 ht0

theorem tokmap_id : ∀ {ts : List (List Char)},
    (∀ t ∈ ts, trimJS t = t) → ts.map trimJS = ts := by
  intro ts
  induction ts with
  | nil => intro _; rfl
  | cons a t ih =>
    intro h
    rw [List.map_cons, h a (List.mem_cons_self a t),
      ih (fun x hx => h x (List.mem_cons_of_mem a hx))]

theorem filter_id_of_mem : ∀ {ts : List (List Char)},
    (∀ t ∈ ts, goodTok t = true) → ts.filter goodTok = ts := by
  intro ts
  induction ts with
  | nil => intro _; rfl
  | cons a t ih =>
    intro h
    rw [List.filter_cons, if_pos (h a (List.mem_cons_self a t)),
      ih (fun x hx => h x (List.mem_cons_of_mem a hx))]

theorem dqToks_empty : dqToks (String.mk []) = [] := by
  unfold dqToks
  have h6 : dqStage6 (String.mk []) = [] := by
    unfold dqStage6
    rw [show (String.mk []).data.map Char.toLower = [] from rfl,
      show replDollarOp [] = [] from rfl, replNums_nil, collapseWS_nil,
      show trimJS [] = [] from rfl, List.map_nil, collapseWS_nil]
    rfl
  rw [h6, splitOnSpace_eq_single (s := []) rfl]
  decide

/-- The class of characters appearing in a `deriveQuery` output. -/
theorem dq_out_chars (text : String) : ∀ c ∈ joinSpace (dqToks text),
    c.toNat = 32 ∨ c.toNat = 45 ∨ (48 ≤ c.toNat ∧ c.toNat ≤ 57) ∨
      (97 ≤ c.toNat ∧ c.toNat ≤ 122) := by
  intro c hc
  rcases mem_joinSpace hc with h1 | ⟨t, ht, hct⟩
  · left
    rw [h1]
    rfl
  · obtain ⟨_, h3⟩ := dqToks_chars text t ht c hct
    rcases h3 with h | h | h
    · exact Or.inr (Or.inr (Or.inr (isLowerCh_toNat h)))
    · exact Or.inr (Or.inr (Or.inl (isDigitCh_toNat h)))
    · rw [h]
      right; left; rfl

theorem class_no_dollar {c : Char}
    (h : c.toNat = 32 ∨ c.toNat = 45 ∨ (48 ≤ c.toNat ∧ c.toNat ≤ 57) ∨
      (97 ≤ c.toNat ∧ c.toNat ≤ 122)) :
    (c == '$' || c == '<' || c == '>') = false := by
  have hne1 : c ≠ '$' := by intro he; rw [he] at h; revert h; decide
  have hne2 : c ≠ '<' := by intro he; rw [he] at h; revert h; decide
  have hne3 : c ≠ '>' := by intro he; rw [he] at h; revert h; decide
  simp [hne1, hne2, hne3]

theorem class_no_underscore_upper {c : Char}
    (h : c.toNat = 32 ∨ c.toNat = 45 ∨ (48 ≤ c.toNat ∧ c.toNat ≤ 57) ∨
      (97 ≤ c.toNat ∧ c.toNat ≤ 122)) :
    c ≠ '_' ∧ isUpperCh c = false := by
  constructor
  · intro he; rw [he] at h; revert h; decide
  · cases hu : isUpperCh c
    · rfl
    · exfalso
      unfold isUpperCh at hu
      simp only [Bool.and_eq_true, decide_eq_true_eq] at hu
      have h1 : 65 ≤ c.toNat := hu.1
      have h2 : c.toNat ≤ 90 := hu.2
      omega

theorem class_keep {c : Char}
    (h : c.toNat = 32 ∨ c.toNat = 45 ∨ (48 ≤ c.toNat ∧ c.toNat ≤ 57) ∨
      (97 ≤ c.toNat ∧ c.toNat ≤ 122)) :
    c = ' ' ∨ c = '-' ∨ isDigitCh c = true ∨ isLowerCh c = true := by
  rcases h with h | h | h | h
  · exact Or.inl (char_toNat_inj (show c.toNat = Char.toNat ' ' from by
      rw [h]; decide))
  · exact Or.inr (Or.inl (char_toNat_inj (show c.toNat = Char.toNat '-' from by
      rw [h]; decide)))
  · right; right; left
    unfold isDigitCh
    simp only [Bool.and_eq_true, decide_eq_true_eq]
    exact ⟨h.1, h.2⟩
  · right; right; right
    unfold isLowerCh
    simp only [Bool.and_eq_true, decide_eq_true_eq]
    exact ⟨h.1, h.2⟩

theorem nospace_beq {c : Char} (h : isSpaceCh c = false) :
    (c == ' ') = false := by
  cases hb : c == ' '
  · rfl
  · have hce : c = ' ' := eq_of_beq hb
    rw [hce] at h
    exact absurd h (by decide)

/-- Idempotence of `deriveQuery` on underscore-free inputs. -/
theorem deriveQuery_idem (text : String) (hund : '_' ∉ text.data) :
    deriveQuery (deriveQuery text) = deriveQuery text := by
  rw [deriveQuery_eq text]
  by_cases hemp : dqToks text = []
  · rw [hemp]
    show deriveQuery (String.mk []) = String.mk []
    rw [deriveQuery_eq (String.mk []), dqToks_empty]
    rfl
  · have hgood := dqToks_good text
    have htne := dqToks_ne_nil text
    have hch := dqToks_chars text
    have hrb := dqToks_rbOK text hund
    have hy := dq_out_chars text
    have htokfacts : ∀ t ∈ dqToks text, t ≠ [] ∧ ∀ c ∈ t, isSpaceCh c = false :=
      fun t ht => ⟨htne t ht, fun c hc => (hch t ht c hc).1⟩
    have h1 : (String.mk (joinSpace (dqToks text))).data.map Char.toLower
        = joinSpace (dqToks text) :=
      map_id_of_mem (fun c hc => by
        rcases hy c hc with h | h | h | h
        · exact toLower_fix (Or.inl (by omega))
        · exact toLower_fix (Or.inl (by omega))
        · exact toLower_fix (Or.inl (by omega))
        · exact toLower_fix (Or.inr (by omega)))
    have h2 : replDollarOp (joinSpace (dqToks text)) = joinSpace (dqToks text) :=
      (replDollarOp_facts _ _ le_rfl).2 (fun c hc => class_no_dollar (hy c hc))
    have hrby : rbOK RbSt.other (joinSpace (dqToks text)) = true :=
      rbOK_join _ hrb
    have h3 : replNums none (joinSpace (dqToks text)) = joinSpace (dqToks text) :=
      replNums_id _ _ none RbSt.other le_rfl
        (fun a ha => class_no_underscore_upper (hy a ha)) hrby
        (fun _ => rfl) (fun hq => absurd rfl hq)
    have h4 : trimJS (collapseWS (joinSpace (dqToks text)))
        = joinSpace (dqToks text) := by
      rw [collapse_join _ htokfacts, trim_join _ hemp htokfacts]
    have h5 : (joinSpace (dqToks text)).map keepCh = joinSpace (dqToks text) :=
      map_id_of_mem (fun c hc => keepCh_id (class_keep (hy c hc)))
    have h6 : dqStage6 (String.mk (joinSpace (dqToks text)))
        = joinSpace (dqToks text) := by
      unfold dqStage6
      rw [h1, h2, h3, h4, h5, h4]
    have h7 : splitOnSpace (joinSpace (dqToks text)) = dqToks text :=
      split_join _ hemp (fun t ht => ⟨htne t ht,
        fun c hc => nospace_beq (hch t ht c hc).1⟩)
    have h8 : dqToks (String.mk (joinSpace (dqToks text))) = dqToks text := by
      rw [dqToks_def (String.mk (joinSpace (dqToks text)))]
      rw [h6, h7, tokmap_id (fun t ht => trimJS_eq_self
        (fun c hc => (hch t ht c hc).1)), filter_id_of_mem hgood]
    rw [deriveQuery_eq (String.mk (joinSpace (dqToks text))), h8]

/-- Fuelled, structurally recursive version of `replNums`, used to evaluate
the replacement on concrete inputs. -/
def replNumsF : ℕ → Option Char → List Char → List Char
  | 0, _, _ => []
  | _ + 1, _, [] => []
  | f + 1, p, c :: rest =>
    match numMatchAt p (c :: rest) with
    | some (n, lc) => ' ' :: replNumsF f (some lc) ((c :: rest).drop n)
    | none => c :: replNumsF f (some c) rest

theorem replNumsF_eq : ∀ (fuel : ℕ) (p : Option Char) (s : List Char),
    s.length ≤ fuel → replNumsF fuel p s = replNums p s := by
  intro fuel
  induction fuel with
  | zero =>
    intro p s h
    have hs : s = [] := List.length_eq_zero.mp (Nat.le_zero.mp h)
    subst hs
    rw [replNums_nil]
    rfl
  | succ m ih =>
    intro p s h
    cases s with
    | nil => rw [replNums_nil]; rfl
    | cons c rest =>
      have hunf : replNumsF (m + 1) p (c :: rest) =
          match numMatchAt p (c :: rest) with
          | some (n, lc) => ' ' :: replNumsF m (some lc) ((c :: rest).drop n)
          | none => c :: replNumsF m (some c) rest := rfl
      cases hm : numMatchAt p (c :: rest) with
      | some v =>
        obtain ⟨n, lc⟩ := v
        rw [hunf, hm]
        show ' ' :: replNumsF m (some lc) ((c :: rest).drop n)
          = replNums p (c :: rest)
        have hn := numMatchAt_pos hm
        rw [replNums_cons_some hm, ih (some lc) _ (by
          simp only [List.length_drop, List.length_cons]
          simp only [List.length_cons] at h
          omega)]
      | none =>
        rw [hunf, hm]
        show c :: replNumsF m (some c) rest = replNums p (c :: rest)
        rw [replNums_cons_none hm, ih (some c) rest (by
          simp only [List.length_cons] at h
          omega)]

/-- Fuelled, structurally recursive version of `collapseWS`. -/
def collapseWSF : ℕ → List Char → List Char
  | 0, _ => []
  | _ + 1, [] => []
  | f + 1, c :: rest =>
    if isSpaceCh c then ' ' :: collapseWSF f (rest.dropWhile isSpaceCh)
    else c :: collapseWSF f rest

theorem collapseWSF_eq : ∀ (fuel : ℕ) (s : List Char),
    s.length ≤ fuel → collapseWSF fuel s = collapseWS s := by
  intro fuel
  induction fuel with
  | zero =>
    intro s h
    have hs : s = [] := List.length_eq_zero.mp (Nat.le_zero.mp h)
    subst hs
    rw [collapseWS_nil]
    rfl
  | succ m ih =>
    intro s h
    cases s with
    | nil => rw [collapseWS_nil]; rfl
    | cons c rest =>
      have hl : rest.length ≤ m := by
        simp only [List.length_cons] at h
        omega
      rw [collapseWS_cons]
      show (if isSpaceCh c then ' ' :: collapseWSF m (rest.dropWhile isSpaceCh)
        else c :: collapseWSF m rest) = _
      by_cases hsp : isSpaceCh c = true
      · rw [if_pos hsp, if_pos hsp,
          ih _ (le_trans (length_dropWhile_le _ _) hl)]
      · rw [if_neg hsp, if_neg hsp, ih _ hl]

/-- Fuelled, structurally recursive version of `splitOnSpace`. -/
def splitOnSpaceF : ℕ → List Char → List (List Char)
  | 0, s => [s.takeWhile (fun c => !(c == ' '))]
  | f + 1, s =>
    match s.dropWhile (fun c => !(c == ' ')) with
    | [] => [s.takeWhile (fun c => !(c == ' '))]
    | _ :: rest => s.takeWhile (fun c => !(c == ' ')) :: splitOnSpaceF f rest

theorem splitOnSpaceF_eq : ∀ (fuel : ℕ) (s : List Char),
    s.length ≤ fuel → splitOnSpaceF fuel s = splitOnSpace s := by
  intro fuel
  induction fuel with
  | zero =>
    intro s h
    have hs : s = [] := List.length_eq_zero.mp (Nat.le_zero.mp h)
    subst hs
    rw [splitOnSpace_eq_single (s := []) rfl]
    rfl
  | succ m ih =>
    intro s h
    have hunf : splitOnSpaceF (m + 1) s =
        match s.dropWhile (fun c => !(c == ' ')) with
        | [] => [s.takeWhile (fun c => !(c == ' '))]
        | _ :: rest => s.takeWhile (fun c => !(c == ' ')) :: splitOnSpaceF m rest :=
      rfl
    cases hdw : s.dropWhile (fun c => !(c == ' ')) with
    | nil =>
      rw [hunf, hdw, splitOnSpace_eq_single hdw]
    | cons d rest =>
      have hl : rest.length ≤ m := by
        have h1 := length_dropWhile_le (fun c => !(c == ' ')) s
        rw [hdw] at h1
        simp only [List.length_cons] at h1
        omega
      rw [hunf, hdw, splitOnSpace_eq_cons hdw]
      show s.takeWhile (fun c => !(c == ' ')) :: splitOnSpaceF m rest = _
      rw [ih rest hl]

/-- Concrete evaluation: the underscore protects the number in `"25_"` from
the number replacement, and the punctuation pass then deletes it. -/
theorem deriveQuery_25u : deriveQuery "25_" = "25" := by
  have h3 : replNums none ['2', '5', '_'] = ['2', '5', '_'] := by
    rw [← replNumsF_eq 3 none ['2', '5', '_'] (by decide)]
    decide
  have hc1 : collapseWS ['2', '5', '_'] = ['2', '5', '_'] := by
    rw [← collapseWSF_eq 3 ['2', '5', '_'] (by decide)]
    decide
  have hc2 : collapseWS ['2', '5', ' '] = ['2', '5', ' '] := by
    rw [← collapseWSF_eq 3 ['2', '5', ' '] (by decide)]
    decide
  have hsp : splitOnSpace ['2', '5'] = [['2', '5']] := by
    rw [← splitOnSpaceF_eq 2 ['2', '5'] (by decide)]
    decide
  have h6 : dqStage6 "25_" = ['2', '5'] := by
    unfold dqStage6
    rw [show ("25_" : String).data.map Char.toLower = ['2', '5', '_'] from by decide,
      show replDollarOp ['2', '5', '_'] = ['2', '5', '_'] from by decide,
      h3, hc1,
      show trimJS ['2', '5', '_'] = ['2', '5', '_'] from by decide,
      show (['2', '5', '_'] : List Char).map keepCh = ['2', '5', ' '] from by decide,
      hc2,
      show trimJS ['2', '5', ' '] = ['2', '5'] from by decide]
  rw [deriveQuery_eq, dqToks_def, h6, hsp]
  decide

/-- Concrete evaluation: in `"25"` the number is boundary-delimited on both
sides and is removed, leaving the empty string. -/
theorem deriveQuery_25 : deriveQuery "25" = "" := by
  have h3 : replNums none ['2', '5'] = [' '] := by
    rw [← replNumsF_eq 2 none ['2', '5'] (by decide)]
    decide
  have hc1 : collapseWS [' '] = [' '] := by
    rw [← collapseWSF_eq 1 [' '] (by decide)]
    decide
  have hsp : splitOnSpace ([] : List Char) = [[]] := by
    rw [← splitOnSpaceF_eq 0 [] (by decide)]
    decide
  have h6 : dqStage6 "25" = [] := by
    unfold dqStage6
    rw [show ("25" : String).data.map Char.toLower = ['2', '5'] from by decide,
      show replDollarOp ['2', '5'] = ['2', '5'] from by decide,
      h3, hc1,
      show trimJS [' '] = [] from by decide,
      show (([] : List Char)).map keepCh = [] from by decide,
      collapseWS_nil,
      show trimJS ([] : List Char) = [] from by decide]
  rw [deriveQuery_eq, dqToks_def, h6, hsp]
  decide

/-- C8, counterexample: `deriveQuery` is not idempotent on every input.
For the input `"25_"` the underscore makes the trailing `\b` of the number
pattern fail, so the number survives the replacement; the punctuation pass
then strips the underscore, and the second application removes the now
stand-alone number: `deriveQuery "25_" = "25"` but `deriveQuery "25" = ""`. -/
theorem c8_counterexample :
    deriveQuery (deriveQuery "25_") ≠ deriveQuery "25_" ∧
    deriveQuery "25_" = "25" ∧ deriveQuery "25" = "" := by
  refine ⟨?_, deriveQuery_25u, deriveQuery_25⟩
  rw [deriveQuery_25u, deriveQuery_25]
  decide

/-- C8 (amended): the keyword reducer is idempotent on every input that
contains no underscore: `deriveQuery (deriveQuery x) = deriveQuery x`.
(Underscores are the only word characters that block the number-removal
boundary yet are themselves deleted by the later punctuation pass.) -/
theorem c8_deriveQuery_idempotent (text : String) (hund : '_' ∉ text.data) :
    deriveQuery (deriveQuery text) = deriveQuery text :=
  deriveQuery_idem text hund

theorem c8_witness :
    '_' ∉ "cheap two player games under $30".data ∧
    deriveQuery (deriveQuery "cheap two player games under $30") =
      deriveQuery "cheap two player games under $30" :=
  ⟨by decide, c8_deriveQuery_idempotent "cheap two player games under $30" (by decide)⟩

end AiGateway
